import Mathlib

/-!
Verification of the org-mode task backend (`src/org.ts`).

Strings are modelled as `List Char` (`Str`); JavaScript's `\s` character
class is modelled by the ASCII whitespace characters that can occur in the
documents this program manipulates.  Fallible operations return
`Except Str`, carrying the same message text the source builds.
-/

namespace OrgMcp

abbrev Str := List Char

/-- Shorthand turning a Lean string literal into the `List Char` model. -/
def str (x : String) : Str := x.data

def nlc : Char := '\n'
def crc : Char := '\r'
def spc : Char := ' '

/-- JavaScript `\s` on the character repertoire relevant here. -/
def isWs (c : Char) : Bool :=
  c = ' ' || c = '\t' || c = '\n' || c = '\r' || c = '\x0b' || c = '\x0c'

/-- `String.prototype.trimEnd`. -/
def trimEndWs (l : Str) : Str := (l.reverse.dropWhile isWs).reverse

/-- `String.prototype.trim`. -/
def trimWs (l : Str) : Str := trimEndWs (l.dropWhile isWs)

/-- First global replace in `sliceLines`'s normalization: `\r\n` → `\n`. -/
def replaceCRLF : Str → Str
  | c1 :: c2 :: rest =>
      if c1 = crc ∧ c2 = nlc then nlc :: replaceCRLF rest
      else c1 :: replaceCRLF (c2 :: rest)
  | other => other

/-- Second global replace: remaining `\r` → `\n`. -/
def replaceCR (t : Str) : Str := t.map fun c => if c = crc then nlc else c

/-- `text.replace(/\r\n/g, "\n").replace(/\r/g, "\n")`. -/
def normalizeNl (t : Str) : Str := replaceCR (replaceCRLF t)

/-- JavaScript `text.split("\n")` on newline-normalized text. -/
def splitOnNl : Str → List Str
  | [] => [[]]
  | c :: rest =>
      if c = nlc then [] :: splitOnNl rest
      else
        match splitOnNl rest with
        | h :: t => (c :: h) :: t
        | [] => [[c]]

/-- JavaScript `Array.prototype.join` with a separator. -/
def joinWith (sep : Str) : List Str → Str
  | [] => []
  | [l] => l
  | l :: rest => l ++ sep ++ joinWith sep rest

/-- `text.includes("\r\n")`. -/
def containsCRLF : Str → Bool
  | c1 :: c2 :: rest => (c1 = crc && c2 = nlc) || containsCRLF (c2 :: rest)
  | _ => false

/-- The line-ending detection at the top of `sliceLines`. -/
def detectEol (t : Str) : Str :=
  if containsCRLF t then [crc, nlc]
  else if t.contains crc then [crc]
  else [nlc]

/-- The regex test `/\r\n$|\n$|\r$/.test(text)`. -/
def endsWithNl (t : Str) : Bool :=
  match t.getLast? with
  | some c => c = nlc || c = crc
  | none => false

/-- The decorated line array produced by `sliceLines`: the split lines plus
the remembered end-of-line style and trailing-newline flag. -/
structure LinesRec where
  lines : List Str
  eol : Str
  endsNl : Bool
deriving DecidableEq

/-- `sliceLines` from the source: detect the eol style and the trailing
terminator, normalize to `\n`, split. -/
def sliceLines (t : Str) : LinesRec :=
  { lines := splitOnNl (normalizeNl t)
    eol := detectEol t
    endsNl := endsWithNl t }

/-- `joinLines` from the source: drop a trailing empty line when the
original text did not end with a newline, then join with the stored eol. -/
def joinLines (r : LinesRec) : Str :=
  if ¬ r.endsNl ∧ r.lines ≠ [] ∧ r.lines.getLast? = some [] then
    joinWith r.eol r.lines.dropLast
  else
    joinWith r.eol r.lines

/-- Round trip of `sliceLines` followed by `joinLines` with no mutation. -/
def roundTrip (t : Str) : Str := joinLines (sliceLines t)

/-! ## Heading and task parsing (`src/org.ts` lines 106–229) -/

/-- `isHeadingLine`: the regex test `/^\*+\s+/`. -/
def isHeadingLine (l : Str) : Bool :=
  match l.dropWhile (· = '*') with
  | c :: _ => decide (0 < (l.takeWhile (· = '*')).length) && isWs c
  | [] => false

/-- `headingLevel`: length of the leading run of `*`. -/
def headingLevel (l : Str) : Nat := (l.takeWhile (· = '*')).length

/-- The replace `line.replace(/^\*+\s+/, "")`: strips the leading stars and
the following whitespace run when the line is a heading, else identity. -/
def stripHeadingMarkers (l : Str) : Str :=
  if isHeadingLine l then (l.dropWhile (· = '*')).dropWhile isWs else l

/-- First whitespace-delimited token (`rest.split(/\s+/)[0]` on text with
no leading whitespace). -/
def firstToken (r : Str) : Str := r.takeWhile (fun c => ¬ isWs c)

structure HeadingParts where
  level : Nat
  state : Option Str
  title : Str
deriving DecidableEq

/-- `parseHeading` from the source. -/
def parseHeading (l : Str) (allowed : List Str) : HeadingParts :=
  let level := headingLevel l
  let rest := stripHeadingMarkers l
  let tok := firstToken rest
  if tok ≠ [] ∧ allowed.contains tok then
    { level := level, state := some tok, title := trimWs (rest.drop tok.length) }
  else
    { level := level, state := none, title := trimWs rest }

/-- A line that terminates the range of a heading of level `lvl`:
a heading whose level is `≤ lvl`. -/
def isBoundaryFor (lvl : Nat) (l : Str) : Bool :=
  isHeadingLine l && headingLevel l ≤ lvl

/-- Offset of the first boundary line in a list (list length if none). -/
def boundaryOffset (lvl : Nat) : List Str → Nat
  | [] => 0
  | l :: rest => if isBoundaryFor lvl l then 0 else boundaryOffset lvl rest + 1

/-- The end-line computation shared by `parseTasksFromOrg` (lines 194–203)
and `findSubheadingRange`: last line before the next heading of level
`≤ lvl` after `i`, or `lines.length - 1` when there is none. -/
def rangeEndIdx (lines : List Str) (i lvl : Nat) : Nat :=
  i + boundaryOffset lvl (lines.drop (i + 1))

/-- Marker line opening a properties drawer. -/
def pPROPS : Str := str ":PROPERTIES:"

/-- Marker line closing a properties drawer. -/
def pEND : Str := str ":END:"

/-- The key character class `[A-Za-z0-9_@#%\-]`. -/
def isKeyChar (c : Char) : Bool :=
  c.isAlphanum || c = '_' || c = '@' || c = '#' || c = '%' || c = '-'

/-- The property-line regex `/^:([A-Za-z0-9_@#%\-]+):\s*(.*)$/` applied to a
trimmed line, returning the captured key and value. -/
def propLineKV (t : Str) : Option (Str × Str) :=
  match t with
  | ':' :: rest =>
      let key := rest.takeWhile isKeyChar
      if key = [] then none
      else
        match rest.drop key.length with
        | ':' :: tail => some (key, tail.dropWhile isWs)
        | _ => none
  | _ => none

/-- State of the drawer scan in `parsePropertiesDrawer`: before seeing
`:PROPERTIES:`, collecting entries, or closed by `:END:`. -/
inductive DrawerSt where
  | searching : DrawerSt
  | collecting : List (Str × Str) → DrawerSt
  | closed : List (Str × Str) → DrawerSt
deriving DecidableEq

/-- One line of the drawer scan. -/
def drawerStep (st : DrawerSt) (l : Str) : DrawerSt :=
  match st with
  | .searching => if trimWs l = pPROPS then .collecting [] else .searching
  | .collecting ps =>
      if trimWs l = pEND then .closed ps
      else
        match propLineKV (trimWs l) with
        | some kv => .collecting (ps ++ [kv])
        | none => .collecting ps
  | .closed ps => .closed ps

/-- `parsePropertiesDrawer(lines, start, end)`: scan `[start, end]` for
`:PROPERTIES:` … `:END:`; a drawer that is never closed contributes no
properties.  Entries are kept in assignment order; lookup takes the last
assignment, matching JavaScript object overwrite semantics. -/
def parsePropertiesDrawer (lines : List Str) (s e : Nat) : List (Str × Str) :=
  match ((lines.drop s).take (e + 1 - s)).foldl drawerStep .searching with
  | .closed ps => ps
  | _ => []

/-- JavaScript property read `props[k]`: the value of the last assignment. -/
def propLookup (ps : List (Str × Str)) (k : Str) : Option Str :=
  (ps.reverse.find? (fun p => p.1 = k)).map (·.2)

structure OrgTask where
  id : Str
  level : Nat
  rawHeadingLine : Str
  title : Str
  state : Option Str
  properties : List (Str × Str)
  startLine : Nat
  endLine : Nat
deriving DecidableEq

def DEFAULT_STATES : List Str :=
  [str "BACKLOG", str "TODO", str "IN-PROGRESS", str "IN-REVIEW",
   str "DONE", str "CANCELLED"]

def idKey : Str := str "ID"

/-- The per-heading body of the loop in `parseTasksFromOrg`: the task
emitted for line `i`, if any. -/
def taskAt (lines : List Str) (allowed : List Str) (i : Nat) : Option OrgTask :=
  let l := lines.getD i []
  if isHeadingLine l then
    let ph := parseHeading l allowed
    let e := rangeEndIdx lines i ph.level
    let props := parsePropertiesDrawer lines (i + 1) e
    match propLookup props idKey with
    | some v => if v ≠ [] then
        some { id := v, level := ph.level, rawHeadingLine := l,
               title := ph.title, state := ph.state, properties := props,
               startLine := i, endLine := e }
      else none
    | none => none
  else none

/-- `parseTasksFromOrg` from the source. -/
def parseTasksFromOrg (t : Str) (allowed : List Str) : List OrgTask :=
  let lines := (sliceLines t).lines
  (List.range lines.length).filterMap (taskAt lines allowed)

def taskNotFoundMsg (id : Str) : Str := str "Task not found for id=" ++ id

/-- `findTaskById` from the source, with the thrown error as `Except`. -/
def findTaskById (t : Str) (taskId : Str) (allowed : List Str) :
    Except Str OrgTask :=
  match (parseTasksFromOrg t allowed).find? (fun tk => tk.id = taskId) with
  | some tk => .ok tk
  | none => .error (taskNotFoundMsg taskId)

/-! ## Subsections and accessors (`src/org.ts` lines 231–281) -/

structure SubRange where
  start : Nat
  stop : Nat
  level : Nat
deriving DecidableEq

/-- The per-line test in `findSubheadingRange`: a heading exactly one level
below the task whose stripped, trimmed remainder equals the wanted title. -/
def subheadingHit (lvl : Nat) (name : Str) (l : Str) : Bool :=
  isHeadingLine l && headingLevel l = lvl + 1 &&
    trimWs (stripHeadingMarkers l) = name

/-- `findSubheadingRange` from the source: first matching direct child
heading in `(task.startLine, task.endLine]`, with its own range clipped to
the task's range. -/
def findSubheadingRange (lines : List Str) (task : OrgTask) (name : Str) :
    Option SubRange :=
  let seg := (lines.drop (task.startLine + 1)).take (task.endLine - task.startLine)
  match seg.findIdx? (subheadingHit task.level name) with
  | some k =>
      let i := task.startLine + 1 + k
      let inner := (lines.drop (i + 1)).take (task.endLine - i)
      some { start := i, stop := i + boundaryOffset (task.level + 1) inner,
             level := task.level + 1 }
  | none => none

structure GetTaskContextResult where
  id : Str
  state : Option Str
  title : Str
  properties : List (Str × Str)
  agentContext : Str
deriving DecidableEq

def agentContextTitle : Str := str "Agent Context"

/-- `getTaskAgentContext` from the source. -/
def getTaskAgentContext (t : Str) (taskId : Str) (allowed : List Str) :
    Except Str GetTaskContextResult :=
  match findTaskById t taskId allowed with
  | .error e => .error e
  | .ok task =>
      let lines := (sliceLines t).lines
      let ctx :=
        match findSubheadingRange lines task agentContextTitle with
        | some r =>
            trimWs (joinWith [nlc]
              ((lines.drop (r.start + 1)).take (r.stop + 1 - (r.start + 1))))
        | none => []
      .ok { id := task.id, state := task.state, title := task.title,
            properties := task.properties, agentContext := ctx }

/-! ## Mutators (`src/org.ts` lines 283–360) -/

def invalidStateMsg (newState : Str) (allowed : List Str) : Str :=
  str "Invalid state: " ++ newState ++ str ". Allowed: " ++
    joinWith (str ", ") allowed

def malformedHeadingMsg (taskId original : Str) : Str :=
  str "Invalid org heading for task " ++ taskId ++ str ": " ++ original

/-- The match `/^(\*+)\s+(\S+)\s+(.*)$/` with its three captures; each
quantifier is greedy and no backtracking can succeed when the greedy
parse fails, so the captures are the maximal runs taken in order. -/
def matchStarsWordRest (l : Str) : Option (Str × Str × Str) :=
  let stars := l.takeWhile (· = '*')
  if stars = [] then none else
  let r1 := l.drop stars.length
  let ws1 := r1.takeWhile isWs
  if ws1 = [] then none else
  let r2 := r1.drop ws1.length
  let w := r2.takeWhile (fun c => ¬ isWs c)
  if w = [] then none else
  let r3 := r2.drop w.length
  let ws2 := r3.takeWhile isWs
  if ws2 = [] then none else
  some (stars, w, r3.drop ws2.length)

/-- The match `/^(\*+)\s+(.*)$/` with its two captures. -/
def matchStarsRest (l : Str) : Option (Str × Str) :=
  let stars := l.takeWhile (· = '*')
  if stars = [] then none else
  let r1 := l.drop stars.length
  let ws1 := r1.takeWhile isWs
  if ws1 = [] then none else
  some (stars, r1.drop ws1.length)

/-- `setTaskState` from the source. -/
def setTaskState (t : Str) (taskId newState : Str) (allowed : List Str) :
    Except Str Str :=
  if ¬ allowed.contains newState then
    .error (invalidStateMsg newState allowed)
  else
    match findTaskById t taskId allowed with
    | .error e => .error e
    | .ok task =>
        let r := sliceLines t
        let original := r.lines.getD task.startLine []
        let rewrite : Str → Str → Except Str Str := fun stars rest =>
          let newLine := stars ++ [spc] ++ newState ++ [spc] ++ rest
          .ok (joinLines { r with lines := r.lines.set task.startLine newLine })
        let fallback : Except Str Str :=
          match matchStarsRest original with
          | some (stars2, rest2) => rewrite stars2 rest2
          | none => .error (malformedHeadingMsg taskId original)
        match matchStarsWordRest original with
        | some (stars, w, rest) =>
            if allowed.contains w then rewrite stars rest else fallback
        | none => fallback

/-- JavaScript `array.splice(i, 0, ...xs)`. -/
def spliceInsert (l : List Str) (i : Nat) (xs : List Str) : List Str :=
  l.take i ++ xs ++ l.drop i

def logTitle : Str := str "Log"

/-- The entry sanitization in `appendTaskLog`: normalize terminators,
split, strip leading markers and trailing whitespace per line, drop empty
lines, join with single spaces, trim. -/
def safeEntry (entry : Str) : Str :=
  trimWs (joinWith [spc]
    (((splitOnNl (normalizeNl entry)).map
        (fun l => trimEndWs (stripHeadingMarkers l))).filter (· ≠ [])))

/-- The bullet line `- [<stamp>] <sanitized entry>`. -/
def mkBullet (stamp entry : Str) : Str :=
  str "- [" ++ stamp ++ str "] " ++ safeEntry entry

/-- `appendTaskLog` from the source.  The ISO timestamp string produced by
`Date.prototype.toISOString` is passed in as `stamp` (the source exposes
the timestamp as an injectable option). -/
def appendTaskLog (t : Str) (taskId entry stamp : Str) (allowed : List Str) :
    Except Str Str :=
  match findTaskById t taskId allowed with
  | .error e => .error e
  | .ok task =>
      let r := sliceLines t
      let found := findSubheadingRange r.lines task logTitle
      let logR : SubRange :=
        match found with
        | some lr => lr
        | none =>
            { start := task.endLine + 1, stop := task.endLine + 2,
              level := task.level + 1 }
      let lines1 : List Str :=
        match found with
        | some _ => r.lines
        | none =>
            spliceInsert r.lines (task.endLine + 1)
              [List.replicate (task.level + 1) '*' ++ str " Log", []]
      let bullet := mkBullet stamp entry
      let ip := logR.stop + 1
      let before := lines1.getD (ip - 1) []
      let lines2 :=
        if trimWs before ≠ [] then spliceInsert lines1 ip [[], bullet]
        else spliceInsert lines1 ip [bullet]
      .ok (joinLines { r with lines := lines2 })

/-- A line free of both carriage returns and newlines, as produced by
`sliceLines` and consumed by `joinLines`. -/
def CleanLine (l : Str) : Prop := crc ∉ l ∧ nlc ∉ l

instance (l : Str) : Decidable (CleanLine l) := by
  unfold CleanLine; infer_instance

/-- The three line-ending styles `sliceLines` distinguishes. -/
def IsEolStyle (eol : Str) : Prop :=
  eol = [nlc] ∨ eol = [crc, nlc] ∨ eol = [crc]

/-- A line whose trimmed form opens no drawer, closes no drawer and is no
key-value entry: the drawer scan ignores it in every state. -/
def InertLine (b : Str) : Prop :=
  trimWs b ≠ pPROPS ∧ trimWs b ≠ pEND ∧ propLineKV (trimWs b) = none

/-- `t` starts with `pat`. -/
def startsWithSeg : Str → Str → Bool
  | _, [] => true
  | [], _ :: _ => false
  | c :: r, p :: q => c = p && startsWithSeg r q

/-- `t` contains `pat` as a contiguous substring. -/
def hasSub : Str → Str → Bool
  | [], pat => startsWithSeg [] pat
  | c :: rest, pat => startsWithSeg (c :: rest) pat || hasSub rest pat

/-- The sanitization recipe exactly as the claim words it (normalize
terminators, split, strip leading markers-plus-whitespace per line, drop
empty lines, join with single spaces, trim) — with NO per-line trailing
whitespace removal.  To be compared with the source's `safeEntry`. -/
def sanitizeClaimed (entry : Str) : Str :=
  trimWs (joinWith [spc]
    (((splitOnNl (normalizeNl entry)).map stripHeadingMarkers).filter
      (· ≠ [])))

end OrgMcp

namespace OrgMcp

instance {ε α : Type} [DecidableEq ε] [DecidableEq α] :
    DecidableEq (Except ε α) := fun a b =>
  match a, b with
  | .ok x, .ok y =>
      if h : x = y then isTrue (by rw [h])
      else isFalse (fun hh => by cases hh; exact h rfl)
  | .error x, .error y =>
      if h : x = y then isTrue (by rw [h])
      else isFalse (fun hh => by cases hh; exact h rfl)
  | .ok _, .error _ => isFalse (fun h => Except.noConfusion h)
  | .error _, .ok _ => isFalse (fun h => Except.noConfusion h)

example : roundTrip (str "a\nb\n") = str "a\nb\n" := by decide
example : roundTrip (str "a\r\nb") = str "a\r\nb" := by decide
example : roundTrip (str "a\rb\n") = str "a\rb\r" := by decide
example : roundTrip (str "a\rb\n") ≠ str "a\rb\n" := by decide

example :
    (parseTasksFromOrg
      (str "* BACKLOG Example\n:PROPERTIES:\n:ID: 1\n:END:\nbody\n")
      DEFAULT_STATES).map (·.id) = [str "1"] := by decide

example :
    findTaskById
      (str "* BACKLOG Example\n:PROPERTIES:\n:ID: 1\n:END:\n")
      (str "2") DEFAULT_STATES = .error (str "Task not found for id=2") := by
  decide

example :
    (parseTasksFromOrg
      (str "* TODO A\n:PROPERTIES:\n:ID: 7\nno end marker\n")
      DEFAULT_STATES) = [] := by decide

example :
    getTaskAgentContext
      (str "* BACKLOG Example\n:PROPERTIES:\n:ID: 1\n:END:\n\n** Agent Context\nDo X\n\n** Private Notes\nSecret\n")
      (str "1") DEFAULT_STATES =
    .ok { id := str "1", state := some (str "BACKLOG"), title := str "Example",
          properties := [(str "ID", str "1")], agentContext := str "Do X" } := by
  decide

example :
    setTaskState
      (str "* TODO Another task\n:PROPERTIES:\n:ID: abcd\n:END:\n")
      (str "abcd") (str "IN-PROGRESS") DEFAULT_STATES =
    .ok (str "* IN-PROGRESS Another task\n:PROPERTIES:\n:ID: abcd\n:END:\n") := by
  decide

example :
    appendTaskLog
      (str "* BACKLOG T\n:PROPERTIES:\n:ID: 1\n:END:\n")
      (str "1") (str "did something") (str "2026-02-01T00:00:00.000Z")
      DEFAULT_STATES =
    .ok (str "* BACKLOG T\n:PROPERTIES:\n:ID: 1\n:END:\n\n** Log\n\n- [2026-02-01T00:00:00.000Z] did something") := by
  decide

/-! ## Infrastructure: splitting and joining lines -/

theorem splitOnNl_cons (c : Char) (t : Str) :
    splitOnNl (c :: t) =
      if c = nlc then [] :: splitOnNl t
      else
        match splitOnNl t with
        | h :: tl => (c :: h) :: tl
        | [] => [[c]] := rfl

theorem splitOnNl_ne_nil (t : Str) : splitOnNl t ≠ [] := by
  induction t with
  | nil => simp [splitOnNl]
  | cons c rest ih =>
      rw [splitOnNl_cons]
      split
      · simp
      · cases h : splitOnNl rest with
        | nil => simp
        | cons a b => simp

theorem splitOnNl_append (l t : Str) (h : nlc ∉ l) :
    splitOnNl (l ++ t) =
      (l ++ (splitOnNl t).headI) :: (splitOnNl t).tail := by
  induction l with
  | nil =>
      simp only [List.nil_append]
      cases ht : splitOnNl t with
      | nil => exact absurd ht (splitOnNl_ne_nil t)
      | cons a b => simp [List.headI, List.tail]
  | cons c cl ih =>
      have hc : c ≠ nlc := fun hh => h (hh ▸ List.mem_cons_self c cl)
      have hcl : nlc ∉ cl := fun hh => h (List.mem_cons_of_mem c hh)
      rw [List.cons_append, splitOnNl_cons, if_neg hc, ih hcl]
      simp

theorem splitOnNl_of_no_nl (l : Str) (h : nlc ∉ l) : splitOnNl l = [l] := by
  have := splitOnNl_append l [] h
  simpa [splitOnNl, List.headI, List.tail] using this

theorem splitOnNl_joinWith (ls : List Str) (hne : ls ≠ [])
    (h : ∀ l ∈ ls, nlc ∉ l) :
    splitOnNl (joinWith [nlc] ls) = ls := by
  induction ls with
  | nil => exact absurd rfl hne
  | cons l rest ih =>
      cases rest with
      | nil =>
          simpa [joinWith] using splitOnNl_of_no_nl l (h l (by simp))
      | cons l2 r2 =>
          have hl : nlc ∉ l := h l (by simp)
          have hrest : ∀ x ∈ l2 :: r2, nlc ∉ x := fun x hx =>
            h x (List.mem_cons_of_mem l hx)
          have ihr := ih (by simp) hrest
          have : joinWith [nlc] (l :: l2 :: r2) =
              l ++ (nlc :: joinWith [nlc] (l2 :: r2)) := by
            simp [joinWith]
          rw [this, splitOnNl_append l _ hl]
          have : splitOnNl (nlc :: joinWith [nlc] (l2 :: r2)) =
              [] :: splitOnNl (joinWith [nlc] (l2 :: r2)) := by
            simp [splitOnNl]
          rw [this, ihr]
          simp [List.headI, List.tail]

theorem replaceCRLF_cons2 (a b : Char) (t : Str) :
    replaceCRLF (a :: b :: t) =
      if a = crc ∧ b = nlc then nlc :: replaceCRLF t
      else a :: replaceCRLF (b :: t) := rfl

theorem replaceCRLF_of_no_cr (t : Str) (h : crc ∉ t) : replaceCRLF t = t := by
  induction t with
  | nil => simp [replaceCRLF]
  | cons c rest ih =>
      have hc : c ≠ crc := fun hh => h (hh ▸ List.mem_cons_self c rest)
      have hrest : crc ∉ rest := fun hh => h (List.mem_cons_of_mem c hh)
      cases rest with
      | nil => simp [replaceCRLF]
      | cons c2 r2 =>
          rw [replaceCRLF_cons2, if_neg (fun hh => hc hh.1), ih hrest]

theorem replaceCRLF_of_no_nl (t : Str) (h : nlc ∉ t) : replaceCRLF t = t := by
  induction t with
  | nil => simp [replaceCRLF]
  | cons c rest ih =>
      have hrest : nlc ∉ rest := fun hh => h (List.mem_cons_of_mem c hh)
      cases rest with
      | nil => simp [replaceCRLF]
      | cons c2 r2 =>
          have hc2 : c2 ≠ nlc := fun hh =>
            h (hh ▸ List.mem_cons_of_mem c (List.mem_cons_self c2 r2))
          rw [replaceCRLF_cons2, if_neg (fun hh => hc2 hh.2), ih hrest]

theorem replaceCRLF_crlf_join (l : Str) (rest : Str) (hl : crc ∉ l) :
    replaceCRLF (l ++ crc :: nlc :: rest) = l ++ nlc :: replaceCRLF rest := by
  induction l with
  | nil =>
      rw [List.nil_append, List.nil_append, replaceCRLF_cons2,
        if_pos ⟨rfl, rfl⟩]
  | cons c cl ih =>
      have hc : c ≠ crc := fun hh => hl (hh ▸ List.mem_cons_self c cl)
      have hcl : crc ∉ cl := fun hh => hl (List.mem_cons_of_mem c hh)
      cases cl with
      | nil =>
          rw [List.cons_append, List.nil_append, replaceCRLF_cons2,
            if_neg (fun hh => hc hh.1), replaceCRLF_cons2, if_pos ⟨rfl, rfl⟩]
          simp
      | cons d dl =>
          have step := ih hcl
          have e1 : (c :: d :: dl) ++ crc :: nlc :: rest =
              c :: d :: (dl ++ crc :: nlc :: rest) := by simp
          have e2 : (d :: dl) ++ crc :: nlc :: rest =
              d :: (dl ++ crc :: nlc :: rest) := by simp
          rw [e1, replaceCRLF_cons2, if_neg (fun hh => hc hh.1)]
          rw [e2] at step
          rw [step]
          simp

theorem replaceCR_append (a b : Str) :
    replaceCR (a ++ b) = replaceCR a ++ replaceCR b := by
  simp [replaceCR]

theorem replaceCR_of_no_cr (t : Str) (h : crc ∉ t) : replaceCR t = t := by
  induction t with
  | nil => simp [replaceCR]
  | cons c rest ih =>
      have hc : c ≠ crc := fun hh => h (hh ▸ List.mem_cons_self c rest)
      have hrest : crc ∉ rest := fun hh => h (List.mem_cons_of_mem c hh)
      have ih' := ih hrest
      unfold replaceCR at ih' ⊢
      simp only [List.map_cons, if_neg hc, ih']

theorem mem_joinWith {c : Char} {sep : Str} {ls : List Str}
    (h : c ∈ joinWith sep ls) : c ∈ sep ∨ ∃ l ∈ ls, c ∈ l := by
  induction ls with
  | nil => simp [joinWith] at h
  | cons l rest ih =>
      cases rest with
      | nil =>
          simp only [joinWith] at h
          exact Or.inr ⟨l, by simp, h⟩
      | cons l2 r2 =>
          simp only [joinWith, List.mem_append] at h
          rcases h with (h | h) | h
          · exact Or.inr ⟨l, by simp, h⟩
          · exact Or.inl h
          · rcases ih h with h' | ⟨x, hx, hcx⟩
            · exact Or.inl h'
            · exact Or.inr ⟨x, List.mem_cons_of_mem l hx, hcx⟩

theorem normalizeNl_joinWith (eol : Str) (ls : List Str)
    (heol : IsEolStyle eol) (hclean : ∀ l ∈ ls, CleanLine l) :
    normalizeNl (joinWith eol ls) = joinWith [nlc] ls := by
  have hnocr : ∀ l ∈ ls, crc ∉ l := fun l hl => (hclean l hl).1
  have hnonl : ∀ l ∈ ls, nlc ∉ l := fun l hl => (hclean l hl).2
  rcases heol with h | h | h
  · subst h
    have hcr : crc ∉ joinWith [nlc] ls := by
      intro hmem
      rcases mem_joinWith hmem with hs | ⟨l, hl, hc⟩
      · simp [crc, nlc] at hs
      · exact hnocr l hl hc
    unfold normalizeNl
    rw [replaceCRLF_of_no_cr _ hcr, replaceCR_of_no_cr _ hcr]
  · subst h
    unfold normalizeNl
    have hA : replaceCRLF (joinWith [crc, nlc] ls) = joinWith [nlc] ls := by
      induction ls with
      | nil => simp [joinWith, replaceCRLF]
      | cons l rest ih =>
          cases rest with
          | nil =>
              simp only [joinWith]
              exact replaceCRLF_of_no_cr l (hnocr l (by simp))
          | cons l2 r2 =>
              have hstep : joinWith [crc, nlc] (l :: l2 :: r2) =
                  l ++ crc :: nlc :: joinWith [crc, nlc] (l2 :: r2) := by
                simp [joinWith]
              rw [hstep, replaceCRLF_crlf_join l _ (hnocr l (by simp))]
              have ih' := ih
                (fun x hx => hclean x (List.mem_cons_of_mem l hx))
                (fun x hx => hnocr x (List.mem_cons_of_mem l hx))
                (fun x hx => hnonl x (List.mem_cons_of_mem l hx))
              rw [ih']
              simp [joinWith]
    rw [hA]
    apply replaceCR_of_no_cr
    intro hmem
    rcases mem_joinWith hmem with hs | ⟨l, hl, hc⟩
    · simp [crc, nlc] at hs
    · exact hnocr l hl hc
  · subst h
    unfold normalizeNl
    have hnl : nlc ∉ joinWith [crc] ls := by
      intro hmem
      rcases mem_joinWith hmem with hs | ⟨l, hl, hc⟩
      · simp [crc, nlc] at hs
      · exact hnonl l hl hc
    rw [replaceCRLF_of_no_nl _ hnl]
    induction ls with
    | nil => simp [joinWith, replaceCR]
    | cons l rest ih =>
        cases rest with
        | nil =>
            simp only [joinWith]
            exact replaceCR_of_no_cr l (hnocr l (by simp))
        | cons l2 r2 =>
            have hstep : joinWith [crc] (l :: l2 :: r2) =
                l ++ crc :: joinWith [crc] (l2 :: r2) := by
              simp [joinWith]
            have hstep2 : joinWith [nlc] (l :: l2 :: r2) =
                l ++ nlc :: joinWith [nlc] (l2 :: r2) := by
              simp [joinWith]
            rw [hstep, hstep2, replaceCR_append]
            rw [replaceCR_of_no_cr l (hnocr l (by simp))]
            have ih' := ih
              (fun x hx => hclean x (List.mem_cons_of_mem l hx))
              (fun x hx => hnocr x (List.mem_cons_of_mem l hx))
              (fun x hx => hnonl x (List.mem_cons_of_mem l hx))
              (by
                intro hmem
                apply hnl
                rw [hstep]
                exact List.mem_append_right l (List.mem_cons_of_mem crc hmem))
            rw [show replaceCR (crc :: joinWith [crc] (l2 :: r2)) =
                nlc :: replaceCR (joinWith [crc] (l2 :: r2)) by
              simp [replaceCR]]
            rw [ih']

theorem containsCRLF_cons2 (a b : Char) (t : Str) :
    containsCRLF (a :: b :: t) =
      ((a = crc && b = nlc) || containsCRLF (b :: t)) := rfl

theorem containsCRLF_of_no_nl (t : Str) (h : nlc ∉ t) :
    containsCRLF t = false := by
  induction t with
  | nil => rfl
  | cons c rest ih =>
      have hrest : nlc ∉ rest := fun hh => h (List.mem_cons_of_mem c hh)
      cases rest with
      | nil => rfl
      | cons c2 r2 =>
          have hc2 : c2 ≠ nlc := fun hh =>
            h (hh ▸ List.mem_cons_of_mem c (List.mem_cons_self c2 r2))
          rw [containsCRLF_cons2, ih hrest]
          simp [hc2]

theorem containsCRLF_of_no_cr (t : Str) (h : crc ∉ t) :
    containsCRLF t = false := by
  induction t with
  | nil => rfl
  | cons c rest ih =>
      have hc : c ≠ crc := fun hh => h (hh ▸ List.mem_cons_self c rest)
      have hrest : crc ∉ rest := fun hh => h (List.mem_cons_of_mem c hh)
      cases rest with
      | nil => rfl
      | cons c2 r2 =>
          rw [containsCRLF_cons2, ih hrest]
          simp [hc]

theorem containsCRLF_append_crlf (xs ys : Str) :
    containsCRLF (xs ++ crc :: nlc :: ys) = true := by
  induction xs with
  | nil => simp [containsCRLF_cons2]
  | cons c cl ih =>
      cases cl with
      | nil =>
          rw [List.nil_append] at ih
          rw [show (c :: []) ++ crc :: nlc :: ys = c :: crc :: nlc :: ys by
            simp]
          rw [containsCRLF_cons2, ih]
          simp
      | cons d dl =>
          rw [show (c :: d :: dl) ++ crc :: nlc :: ys =
            c :: ((d :: dl) ++ crc :: nlc :: ys) by simp]
          rw [show (d :: dl) ++ crc :: nlc :: ys =
            d :: (dl ++ crc :: nlc :: ys) by simp] at ih ⊢
          rw [containsCRLF_cons2, ih]
          simp

theorem contains_eq_false_of_not_mem {α : Type} [BEq α] [LawfulBEq α]
    {t : List α} {c : α} (h : c ∉ t) : t.contains c = false := by
  rw [show t.contains c = t.elem c from rfl, List.elem_eq_mem]
  simp [h]

theorem contains_eq_true_of_mem {α : Type} [BEq α] [LawfulBEq α]
    {t : List α} {c : α} (h : c ∈ t) : t.contains c = true := by
  rw [show t.contains c = t.elem c from rfl, List.elem_eq_mem]
  simp [h]

theorem joinWith_cons2 (sep l : Str) (rest : List Str) (h : rest ≠ []) :
    joinWith sep (l :: rest) = l ++ sep ++ joinWith sep rest := by
  cases rest with
  | nil => exact absurd rfl h
  | cons a b => rfl

theorem joinWith_append_nil_last (sep : Str) (ls : List Str) (h : ls ≠ []) :
    joinWith sep (ls ++ [[]]) = joinWith sep ls ++ sep := by
  induction ls with
  | nil => exact absurd rfl h
  | cons l rest ih =>
      cases rest with
      | nil => simp [joinWith]
      | cons l2 r2 =>
          rw [List.cons_append,
            joinWith_cons2 sep l ((l2 :: r2) ++ [[]]) (by simp),
            joinWith_cons2 sep l (l2 :: r2) (by simp), ih (by simp)]
          simp

theorem getLast?_joinWith_last (sep : Str) (ls : List Str) (lst : Str)
    (hlst : lst ≠ []) :
    (joinWith sep (ls ++ [lst])).getLast? = lst.getLast? := by
  obtain ⟨v, hv⟩ : ∃ v, lst.getLast? = some v := by
    cases h : lst.getLast? with
    | none => exact absurd (List.getLast?_eq_none_iff.mp h) hlst
    | some v => exact ⟨v, rfl⟩
  induction ls with
  | nil => simp [joinWith]
  | cons l rest ih =>
      rw [List.cons_append,
        joinWith_cons2 sep l (rest ++ [lst]) (by simp),
        List.getLast?_append, ih, hv]
      simp

/-- For a document of at least two lines, the trailing-newline flag
computed by `sliceLines` is exactly "the last line is empty". -/
theorem endsWithNl_joinWith (eol : Str) (ls : List Str) (lst : Str)
    (heol : IsEolStyle eol) (hne : ls ≠ [])
    (hclean : ∀ l ∈ ls ++ [lst], CleanLine l) :
    endsWithNl (joinWith eol (ls ++ [lst])) = decide (lst = []) := by
  by_cases hl : lst = []
  · subst hl
    rw [joinWith_append_nil_last eol ls hne]
    have hsep : ∃ c, eol.getLast? = some c ∧ (c = nlc ∨ c = crc) := by
      rcases heol with h | h | h <;> subst h
      · exact ⟨nlc, rfl, Or.inl rfl⟩
      · exact ⟨nlc, rfl, Or.inl rfl⟩
      · exact ⟨crc, rfl, Or.inr rfl⟩
    obtain ⟨c, hc, hcor⟩ := hsep
    unfold endsWithNl
    rw [List.getLast?_append, hc]
    simp only [Option.or_some]
    rcases hcor with h | h <;> subst h <;> simp
  · unfold endsWithNl
    rw [getLast?_joinWith_last eol ls lst hl]
    obtain ⟨v, hv⟩ : ∃ v, lst.getLast? = some v := by
      cases h : lst.getLast? with
      | none => exact absurd (List.getLast?_eq_none_iff.mp h) hl
      | some v => exact ⟨v, rfl⟩
    have hvmem : v ∈ lst := List.mem_of_getLast?_eq_some hv
    have hcl : CleanLine lst := hclean lst (by simp)
    have hv1 : v ≠ nlc := fun hh => hcl.2 (hh ▸ hvmem)
    have hv2 : v ≠ crc := fun hh => hcl.1 (hh ▸ hvmem)
    rw [hv]
    simp [hv1, hv2, hl]

/-- Detection of the line-ending style recovers the style used to join at
least two clean lines. -/
theorem detectEol_joinWith (eol : Str) (l l2 : Str) (rest : List Str)
    (heol : IsEolStyle eol)
    (hclean : ∀ x ∈ l :: l2 :: rest, CleanLine x) :
    detectEol (joinWith eol (l :: l2 :: rest)) = eol := by
  have hnomemcr : ∀ c ∈ joinWith [nlc] (l :: l2 :: rest), c ≠ crc := by
    intro c hc hcc
    rcases mem_joinWith hc with hs | ⟨x, hx, hcx⟩
    · subst hcc; simp [crc, nlc] at hs
    · exact (hclean x hx).1 (hcc ▸ hcx)
  have hnomemnl : ∀ c ∈ joinWith [crc] (l :: l2 :: rest), c ≠ nlc := by
    intro c hc hcc
    rcases mem_joinWith hc with hs | ⟨x, hx, hcx⟩
    · subst hcc; simp [crc, nlc] at hs
    · exact (hclean x hx).2 (hcc ▸ hcx)
  rcases heol with h | h | h <;> subst h
  · have hnc : crc ∉ joinWith [nlc] (l :: l2 :: rest) := fun hm =>
      hnomemcr crc hm rfl
    unfold detectEol
    rw [containsCRLF_of_no_cr _ hnc, contains_eq_false_of_not_mem hnc]
    simp
  · have : joinWith [crc, nlc] (l :: l2 :: rest) =
        l ++ crc :: nlc :: joinWith [crc, nlc] (l2 :: rest) := by
      simp [joinWith]
    unfold detectEol
    rw [this, containsCRLF_append_crlf]
    simp
  · have hnn : nlc ∉ joinWith [crc] (l :: l2 :: rest) := fun hm =>
      hnomemnl nlc hm rfl
    have hmem : crc ∈ joinWith [crc] (l :: l2 :: rest) := by
      rw [show joinWith [crc] (l :: l2 :: rest) =
        l ++ crc :: joinWith [crc] (l2 :: rest) by simp [joinWith]]
      exact List.mem_append_right l (List.mem_cons_self crc _)
    unfold detectEol
    rw [containsCRLF_of_no_nl _ hnn, contains_eq_true_of_mem hmem]
    simp

/-- Core of the round trip: splitting the normalization of a uniform-style
join recovers the lines. -/
theorem splitOnNl_normalizeNl_joinWith (eol : Str) (ls : List Str)
    (heol : IsEolStyle eol) (hne : ls ≠ [])
    (hclean : ∀ l ∈ ls, CleanLine l) :
    splitOnNl (normalizeNl (joinWith eol ls)) = ls := by
  rw [normalizeNl_joinWith eol ls heol hclean]
  exact splitOnNl_joinWith ls hne (fun l hl => (hclean l hl).2)

theorem endsWithNl_of_clean (l : Str) (h : CleanLine l) :
    endsWithNl l = false := by
  unfold endsWithNl
  cases hL : l.getLast? with
  | none => rfl
  | some v =>
      have hv := List.mem_of_getLast?_eq_some hL
      have h1 : v ≠ nlc := fun hh => h.2 (hh ▸ hv)
      have h2 : v ≠ crc := fun hh => h.1 (hh ▸ hv)
      simp [h1, h2]

theorem mem_splitOnNl_no_nl {u : Str} {l : Str} (h : l ∈ splitOnNl u) :
    nlc ∉ l := by
  induction u generalizing l with
  | nil =>
      simp [splitOnNl] at h
      subst h; simp
  | cons c rest ih =>
      rw [splitOnNl_cons] at h
      by_cases hc : c = nlc
      · rw [if_pos hc] at h
        rcases List.mem_cons.mp h with h | h
        · subst h; simp
        · exact ih h
      · rw [if_neg hc] at h
        cases hS : splitOnNl rest with
        | nil => exact absurd hS (splitOnNl_ne_nil rest)
        | cons a b =>
            rw [hS] at h
            rcases List.mem_cons.mp h with h | h
            · subst h
              intro hm
              rcases List.mem_cons.mp hm with hm | hm
              · exact hc hm.symm
              · exact ih (hS ▸ List.mem_cons_self a b) hm
            · exact ih (hS ▸ List.mem_cons_of_mem a h)

theorem mem_splitOnNl_subset {u : Str} {l : Str} (h : l ∈ splitOnNl u) :
    ∀ c ∈ l, c ∈ u := by
  induction u generalizing l with
  | nil =>
      simp [splitOnNl] at h
      subst h; simp
  | cons c rest ih =>
      rw [splitOnNl_cons] at h
      by_cases hc : c = nlc
      · rw [if_pos hc] at h
        rcases List.mem_cons.mp h with h | h
        · subst h; simp
        · exact fun x hx => List.mem_cons_of_mem c (ih h x hx)
      · rw [if_neg hc] at h
        cases hS : splitOnNl rest with
        | nil => exact absurd hS (splitOnNl_ne_nil rest)
        | cons a b =>
            rw [hS] at h
            rcases List.mem_cons.mp h with h | h
            · subst h
              intro x hx
              rcases List.mem_cons.mp hx with hx | hx
              · exact hx ▸ List.mem_cons_self c rest
              · exact List.mem_cons_of_mem c
                  (ih (hS ▸ List.mem_cons_self a b) x hx)
            · exact fun x hx => List.mem_cons_of_mem c
                (ih (hS ▸ List.mem_cons_of_mem a h) x hx)

theorem not_crc_mem_replaceCR (t : Str) : crc ∉ replaceCR t := by
  intro h
  unfold replaceCR at h
  rcases List.mem_map.mp h with ⟨a, _, ha⟩
  by_cases hc : a = crc
  · rw [if_pos hc] at ha
    exact absurd ha (by simp [crc, nlc])
  · rw [if_neg hc] at ha
    exact hc ha

/-- Every line produced by `sliceLines` is free of `\r` and `\n`. -/
theorem cleanLine_of_mem_sliceLines {t : Str} {l : Str}
    (h : l ∈ (sliceLines t).lines) : CleanLine l := by
  have h' : l ∈ splitOnNl (normalizeNl t) := h
  constructor
  · intro hc
    exact not_crc_mem_replaceCR (replaceCRLF t) (mem_splitOnNl_subset h' crc hc)
  · exact fun hc => mem_splitOnNl_no_nl h' hc

theorem replaceCRLF_ne_nil {t : Str} (h : t ≠ []) : replaceCRLF t ≠ [] := by
  cases t with
  | nil => exact absurd rfl h
  | cons c rest =>
      cases rest with
      | nil => simp [replaceCRLF]
      | cons c2 r2 =>
          rw [replaceCRLF_cons2]
          split <;> simp

theorem replaceCR_ne_nil {t : Str} (h : t ≠ []) : replaceCR t ≠ [] := by
  unfold replaceCR
  simpa using h

theorem getLast?_replaceCRLF {t : Str} {v : Char} (h : t.getLast? = some v)
    (hv : v ≠ nlc) : (replaceCRLF t).getLast? = some v := by
  induction t using replaceCRLF.induct with
  | case1 c1 c2 rest hcond ih =>
      obtain ⟨h1, h2⟩ := hcond
      subst h1; subst h2
      rw [replaceCRLF_cons2, if_pos ⟨rfl, rfl⟩]
      cases rest with
      | nil =>
          simp [List.getLast?] at h
          exact absurd h.symm hv
      | cons a b =>
          have hlast : (a :: b).getLast? = some v := by
            rw [show (crc :: nlc :: a :: b).getLast? = (a :: b).getLast? by
              simp [List.getLast?]] at h
            exact h
          have hres := ih hlast
          rw [show (nlc :: replaceCRLF (a :: b)).getLast? =
            (replaceCRLF (a :: b)).getLast? by
              cases hx : replaceCRLF (a :: b) with
              | nil => exact absurd hx (replaceCRLF_ne_nil (by simp))
              | cons p q => simp [List.getLast?]]
          exact hres
  | case2 c1 c2 rest hcond ih =>
      rw [replaceCRLF_cons2, if_neg hcond]
      have hlast : (c2 :: rest).getLast? = some v := by
        rw [show (c1 :: c2 :: rest).getLast? = (c2 :: rest).getLast? by
          simp [List.getLast?]] at h
        exact h
      have := ih hlast
      rw [show (c1 :: replaceCRLF (c2 :: rest)).getLast? =
        (replaceCRLF (c2 :: rest)).getLast? by
          cases hx : replaceCRLF (c2 :: rest) with
          | nil => exact absurd hx (replaceCRLF_ne_nil (by simp))
          | cons p q => simp [List.getLast?]]
      exact this
  | case3 t ht =>
      cases t with
      | nil => simp at h
      | cons c rest =>
          cases rest with
          | nil => simpa [replaceCRLF] using h
          | cons c2 r2 => exact absurd rfl (ht c c2 r2)

theorem getLast?_replaceCR {t : Str} {v : Char} (h : t.getLast? = some v)
    (hv : v ≠ crc) : (replaceCR t).getLast? = some v := by
  unfold replaceCR
  rw [List.getLast?_map, h]
  simp [if_neg hv]

/-- If a document does not end with a line terminator and is nonempty,
its last sliced line is nonempty. -/
theorem getLast_lines_ne_nil {t : Str} (hne : t ≠ [])
    (hens : endsWithNl t = false) :
    (sliceLines t).lines.getLast? ≠ some [] := by
  intro hlast
  have hstep : ∀ u : Str, (splitOnNl u).getLast? = some [] →
      u = [] ∨ u.getLast? = some nlc := by
    intro u
    induction u with
    | nil => exact fun _ => Or.inl rfl
    | cons c rest ih =>
        intro h
        rw [splitOnNl_cons] at h
        by_cases hc : c = nlc
        · rw [if_pos hc] at h
          cases hr : splitOnNl rest with
          | nil => exact absurd hr (splitOnNl_ne_nil rest)
          | cons a b =>
              rw [hr] at h
              rw [show ([] :: a :: b).getLast? = (a :: b).getLast? by
                simp [List.getLast?]] at h
              rcases ih (hr ▸ h) with h' | h'
              · subst h'
                subst hc
                exact Or.inr rfl
              · refine Or.inr ?_
                cases rest with
                | nil => simp at h'
                | cons x y =>
                    rw [show (c :: x :: y).getLast? = (x :: y).getLast? by
                      simp [List.getLast?]]
                    exact h'
        · rw [if_neg hc] at h
          cases hr : splitOnNl rest with
          | nil => exact absurd hr (splitOnNl_ne_nil rest)
          | cons a b =>
              rw [hr] at h
              cases hb : b with
              | nil =>
                  rw [hb] at h
                  simp [List.getLast?] at h
              | cons p q =>
                  rw [hb] at h
                  rw [show ((c :: a) :: p :: q).getLast? =
                    (p :: q).getLast? by simp [List.getLast?]] at h
                  have hS : (splitOnNl rest).getLast? = some [] := by
                    rw [hr, hb]
                    rw [show (a :: p :: q).getLast? = (p :: q).getLast? by
                      simp [List.getLast?]]
                    exact h
                  rcases ih hS with h' | h'
                  · subst h'
                    simp [splitOnNl] at hr
                    rw [hr.2] at hb
                    exact List.noConfusion hb
                  · refine Or.inr ?_
                    cases rest with
                    | nil => simp at h'
                    | cons x y =>
                        rw [show (c :: x :: y).getLast? =
                          (x :: y).getLast? by simp [List.getLast?]]
                        exact h'
  have h' : normalizeNl t = [] ∨ (normalizeNl t).getLast? = some nlc :=
    hstep (normalizeNl t) hlast
  rcases h' with h' | h'
  · exact replaceCR_ne_nil (replaceCRLF_ne_nil hne) h'
  · obtain ⟨v, hv⟩ : ∃ v, t.getLast? = some v := by
      cases h : t.getLast? with
      | none => exact absurd (List.getLast?_eq_none_iff.mp h) hne
      | some v => exact ⟨v, rfl⟩
    have hvv : ¬ (v = nlc ∨ v = crc) := by
      intro hcase
      unfold endsWithNl at hens
      rw [hv] at hens
      rcases hcase with h | h <;> subst h <;> simp at hens
    have h1 : v ≠ nlc := fun hh => hvv (Or.inl hh)
    have h2 : v ≠ crc := fun hh => hvv (Or.inr hh)
    have ha := getLast?_replaceCRLF hv h1
    have hb := getLast?_replaceCR ha h2
    rw [show replaceCR (replaceCRLF t) = normalizeNl t from rfl] at hb
    rw [h'] at hb
    exact h1 (Option.some.inj hb).symm

/-- Re-slicing a joined line record recovers the lines, provided the
record is consistent (no trailing empty line when the trailing-newline
flag is off). -/
theorem sliceLines_joinLines_lines (L : List Str) (eol : Str) (ens : Bool)
    (heol : IsEolStyle eol) (hne : L ≠ [])
    (hclean : ∀ l ∈ L, CleanLine l)
    (hlast : ens = false → L.getLast? ≠ some []) :
    (sliceLines (joinLines ⟨L, eol, ens⟩)).lines = L := by
  have hj : joinLines ⟨L, eol, ens⟩ = joinWith eol L := by
    unfold joinLines
    rw [if_neg]
    intro ⟨h1, _, h3⟩
    cases ens with
    | true => exact h1 rfl
    | false => exact hlast rfl h3
  rw [hj]
  exact splitOnNl_normalizeNl_joinWith eol L heol hne hclean

/-! ## C2: round-trip of slicing and joining -/

/-- C2 (counterexample): the round trip is not the identity on every input
text; a text mixing a lone `\r` with a final `\n` is re-serialized with
the detected `\r` style throughout, changing its bytes. -/
theorem c2_counterexample :
    roundTrip (str "a\rb\n") = str "a\rb\r" ∧
      str "a\rb\r" ≠ str "a\rb\n" := by
  constructor
  · decide
  · decide

/-- C2 (amended): for every text whose line terminators all use one single
style (LF, CRLF, or CR) — i.e. every text obtained by joining
terminator-free lines with one style, a trailing terminator being an empty
last line — `joinLines` after `sliceLines` with no mutation reproduces the
original bytes exactly, including the terminator style and the presence or
absence of a trailing terminator. -/
theorem c2_round_trip_uniform (eol : Str) (ls : List Str)
    (heol : IsEolStyle eol) (hne : ls ≠ [])
    (hclean : ∀ l ∈ ls, CleanLine l) :
    roundTrip (joinWith eol ls) = joinWith eol ls := by
  cases ls with
  | nil => exact absurd rfl hne
  | cons l rest =>
    cases rest with
    | nil =>
        have hcl : CleanLine l := hclean l (by simp)
        have hone : joinWith eol [l] = l := rfl
        rw [hone]
        unfold roundTrip joinLines sliceLines
        simp only
        have hnorm : normalizeNl l = l := by
          unfold normalizeNl
          rw [replaceCRLF_of_no_cr l hcl.1, replaceCR_of_no_cr l hcl.1]
        rw [hnorm, splitOnNl_of_no_nl l hcl.2, endsWithNl_of_clean l hcl]
        by_cases hl : l = []
        · subst hl
          rw [if_pos (by simp)]
          rfl
        · rw [if_neg (by simp [hl])]
          rfl
    | cons l2 r2 =>
        set L := l :: l2 :: r2 with hL
        have hlines : (sliceLines (joinWith eol L)).lines = L :=
          splitOnNl_normalizeNl_joinWith eol L heol (by simp [hL]) hclean
        have heq : (sliceLines (joinWith eol L)).eol = eol :=
          detectEol_joinWith eol l l2 r2 heol hclean
        obtain ⟨ls', lst, hdecomp⟩ : ∃ ls' lst, L = ls' ++ [lst] := by
          refine ⟨L.dropLast, L.getLast (by simp [hL]), ?_⟩
          rw [List.dropLast_append_getLast]
        have hne' : ls' ≠ [] := by
          intro hh
          rw [hh, List.nil_append] at hdecomp
          simp [hL] at hdecomp
        have hens : endsWithNl (joinWith eol L) = decide (lst = []) := by
          rw [hdecomp]
          exact endsWithNl_joinWith eol ls' lst heol hne' (hdecomp ▸ hclean)
        unfold roundTrip joinLines
        rw [show (sliceLines (joinWith eol L)).endsNl =
          endsWithNl (joinWith eol L) from rfl, hens, hlines, heq]
        by_cases hl : lst = []
        · rw [if_neg (by simp [hl])]
        · have hlastL : L.getLast? = some lst := by
            rw [hdecomp, List.getLast?_concat]
          rw [if_neg (by simp [hl, hlastL])]

/-- C2 (witness): a concrete CRLF document with trailing newline
round-trips byte-exactly. -/
theorem c2_round_trip_uniform_witness :
    IsEolStyle [crc, nlc] ∧
      roundTrip (joinWith [crc, nlc] [str "a", str "b", []]) =
        joinWith [crc, nlc] [str "a", str "b", []] :=
  ⟨Or.inr (Or.inl rfl),
    c2_round_trip_uniform [crc, nlc] [str "a", str "b", []]
      (Or.inr (Or.inl rfl)) (by decide) (by decide)⟩

/-! ## C6: invalid state requests -/

theorem joinWith_mem_decomp {sep : Str} {ls : List Str} {x : Str}
    (h : x ∈ ls) : ∃ u v, joinWith sep ls = u ++ x ++ v := by
  induction ls with
  | nil => simp at h
  | cons l rest ih =>
      rcases List.mem_cons.mp h with h | h
      · subst h
        cases rest with
        | nil => exact ⟨[], [], by simp [joinWith]⟩
        | cons a b =>
            exact ⟨[], sep ++ joinWith sep (a :: b), by
              rw [joinWith_cons2 sep x (a :: b) (by simp)]; simp⟩
      · obtain ⟨u, v, huv⟩ := ih h
        have hrest : rest ≠ [] := by
          intro hh; rw [hh] at h; simp at h
        refine ⟨l ++ sep ++ u, v, ?_⟩
        rw [joinWith_cons2 sep l rest hrest, huv]
        simp

/-- C6: a `set_task_state` request whose state is outside the allowed set
fails with the invalid-state error, whose message enumerates every allowed
state; no replacement document is produced. -/
theorem c6_invalid_state (t taskId newState : Str) (allowed : List Str)
    (h : newState ∉ allowed) :
    setTaskState t taskId newState allowed =
        .error (invalidStateMsg newState allowed) ∧
      ∀ st ∈ allowed, ∃ u v, invalidStateMsg newState allowed = u ++ st ++ v := by
  constructor
  · unfold setTaskState
    rw [if_pos (by simpa using h)]
  · intro st hst
    obtain ⟨u, v, huv⟩ := @joinWith_mem_decomp (str ", ") allowed st hst
    refine ⟨str "Invalid state: " ++ newState ++ str ". Allowed: " ++ u, v, ?_⟩
    unfold invalidStateMsg
    rw [huv]
    simp

/-- C6 (witness): rejecting `WAT` on a concrete document. -/
theorem c6_invalid_state_witness :
    str "WAT" ∉ DEFAULT_STATES ∧
      setTaskState (str "* TODO A\n:PROPERTIES:\n:ID: 1\n:END:\n")
          (str "1") (str "WAT") DEFAULT_STATES =
        .error (invalidStateMsg (str "WAT") DEFAULT_STATES) :=
  ⟨by decide,
    (c6_invalid_state (str "* TODO A\n:PROPERTIES:\n:ID: 1\n:END:\n")
      (str "1") (str "WAT") DEFAULT_STATES (by decide)).1⟩

/-! ## C1: tasks are exactly the headings with a non-empty ID -/

theorem getD_eq_getElem_of_lt (L : List Str) (i : Nat) (h : i < L.length) :
    L.getD i [] = L[i] := by
  rw [List.getD_eq_getElem?_getD, List.getElem?_eq_getElem h]
  rfl

theorem taskAt_eq_some_iff {L allowed : List Str} {i : Nat} {tk : OrgTask}
    : taskAt L allowed i = some tk ↔
      (isHeadingLine (L.getD i []) ∧
       ∃ v, propLookup
          (parsePropertiesDrawer L (i + 1)
            (rangeEndIdx L i (headingLevel (L.getD i [])))) idKey = some v ∧
          v ≠ [] ∧
          tk = { id := v, level := headingLevel (L.getD i []),
                 rawHeadingLine := L.getD i [],
                 title := (parseHeading (L.getD i []) allowed).title,
                 state := (parseHeading (L.getD i []) allowed).state,
                 properties := parsePropertiesDrawer L (i + 1)
                   (rangeEndIdx L i (headingLevel (L.getD i []))),
                 startLine := i,
                 endLine := rangeEndIdx L i (headingLevel (L.getD i [])) }) := by
  have hlvl : (parseHeading (L.getD i []) allowed).level =
      headingLevel (L.getD i []) := by
    unfold parseHeading
    dsimp only
    split <;> rfl
  unfold taskAt
  constructor
  · intro h
    dsimp only at h
    split at h
    next hh =>
      refine ⟨hh, ?_⟩
      rw [hlvl] at h
      split at h
      next v heq =>
        split at h
        next hv => exact ⟨v, heq, hv, (Option.some.inj h).symm⟩
        next hv => exact absurd h (by simp)
      next heq => exact absurd h (by simp)
    next hh => exact absurd h (by simp)
  · rintro ⟨hh, v, hp, hv, htk⟩
    dsimp only
    rw [if_pos hh, hlvl, hp]
    change (if v ≠ [] then some _ else none) = some tk
    rw [if_pos hv, htk]

theorem taskAt_startLine {L allowed : List Str} {i : Nat} {tk : OrgTask}
    (h : taskAt L allowed i = some tk) : tk.startLine = i := by
  obtain ⟨_, v, _, _, htk⟩ := taskAt_eq_some_iff.mp h
  rw [htk]

theorem mem_segment {L : List Str} {s n : Nat} {x : Str}
    (h : x ∈ (L.drop s).take n) :
    ∃ j, j ∈ List.range' s n ∧ L.getD j [] = x := by
  obtain ⟨k, hk, hx⟩ := List.getElem_of_mem h
  have hk1 : k < n := lt_of_lt_of_le hk (by simp [List.length_take])
  have hk2 : s + k < L.length := by
    have := hk
    simp only [List.length_take, List.length_drop] at this
    omega
  refine ⟨s + k, by simp [List.mem_range'_1]; omega, ?_⟩
  rw [getD_eq_getElem_of_lt L (s + k) hk2]
  rw [List.getElem_take, List.getElem_drop] at hx
  exact hx

theorem drawerFold_not_closed (seg : List Str)
    (h : ∀ x ∈ seg, trimWs x ≠ pEND) (st : DrawerSt)
    (hst : st = .searching ∨ ∃ ps, st = .collecting ps) :
    seg.foldl drawerStep st = .searching ∨
      ∃ ps, seg.foldl drawerStep st = .collecting ps := by
  induction seg generalizing st with
  | nil => simpa using hst
  | cons x rest ih =>
      have hx : trimWs x ≠ pEND := h x (by simp)
      have hnext : drawerStep st x = .searching ∨
          ∃ ps, drawerStep st x = .collecting ps := by
        rcases hst with hst | ⟨ps, hst⟩ <;> subst hst
        · rw [show drawerStep .searching x =
            (if trimWs x = pPROPS then DrawerSt.collecting []
             else .searching) from rfl]
          split
          · exact Or.inr ⟨[], rfl⟩
          · exact Or.inl rfl
        · rw [show drawerStep (.collecting ps) x =
            (if trimWs x = pEND then DrawerSt.closed ps
             else match propLineKV (trimWs x) with
                  | some kv => DrawerSt.collecting (ps ++ [kv])
                  | none => DrawerSt.collecting ps) from rfl]
          rw [if_neg hx]
          cases propLineKV (trimWs x) with
          | none => exact Or.inr ⟨ps, rfl⟩
          | some kv => exact Or.inr ⟨ps ++ [kv], rfl⟩
      rw [List.foldl_cons]
      exact ih (fun y hy => h y (List.mem_cons_of_mem x hy)) _ hnext

/-- A properties drawer whose `:END:` marker does not occur anywhere in
the scanned range contributes no properties. -/
theorem drawer_no_end (L : List Str) (s e : Nat)
    (h : ∀ j ∈ List.range' s (e + 1 - s), trimWs (L.getD j []) ≠ pEND) :
    parsePropertiesDrawer L s e = [] := by
  have hseg : ∀ x ∈ (L.drop s).take (e + 1 - s), trimWs x ≠ pEND := by
    intro x hx
    obtain ⟨j, hj, hgx⟩ := mem_segment hx
    rw [← hgx]
    exact h j hj
  unfold parsePropertiesDrawer
  rcases drawerFold_not_closed _ hseg .searching (Or.inl rfl) with h1 | ⟨ps, h1⟩
    <;> rw [h1]

/-- C1: `parseTasksFromOrg` emits a task starting at line `i` exactly when
line `i` is a heading whose properties drawer carries a non-empty `ID`
value; and a drawer whose `:END:` marker does not occur within the
heading's range yields no properties at all (hence no task). -/
theorem c1_task_iff_nonempty_id (t : Str) (allowed : List Str) (i : Nat) :
    ((∃ tk ∈ parseTasksFromOrg t allowed, tk.startLine = i) ↔
      (i < (sliceLines t).lines.length ∧
       isHeadingLine ((sliceLines t).lines.getD i []) ∧
       ∃ v, propLookup
          (parsePropertiesDrawer (sliceLines t).lines (i + 1)
            (rangeEndIdx (sliceLines t).lines i
              (headingLevel ((sliceLines t).lines.getD i [])))) idKey =
            some v ∧ v ≠ [])) ∧
    (∀ s e, (∀ j ∈ List.range' s (e + 1 - s),
        trimWs ((sliceLines t).lines.getD j []) ≠ pEND) →
      parsePropertiesDrawer (sliceLines t).lines s e = []) := by
  constructor
  · constructor
    · rintro ⟨tk, hmem, hstart⟩
      unfold parseTasksFromOrg at hmem
      obtain ⟨j, hj, htk⟩ := List.mem_filterMap.mp hmem
      have hji : j = i := by rw [← hstart, taskAt_startLine htk]
      subst hji
      obtain ⟨hh, v, hp, hv, _⟩ := taskAt_eq_some_iff.mp htk
      exact ⟨List.mem_range.mp hj, hh, v, hp, hv⟩
    · rintro ⟨hlen, hh, v, hp, hv⟩
      refine
        ⟨{ id := v, level := headingLevel ((sliceLines t).lines.getD i []),
           rawHeadingLine := (sliceLines t).lines.getD i [],
           title := (parseHeading ((sliceLines t).lines.getD i []) allowed).title,
           state := (parseHeading ((sliceLines t).lines.getD i []) allowed).state,
           properties := parsePropertiesDrawer (sliceLines t).lines (i + 1)
             (rangeEndIdx (sliceLines t).lines i
               (headingLevel ((sliceLines t).lines.getD i []))),
           startLine := i,
           endLine := rangeEndIdx (sliceLines t).lines i
             (headingLevel ((sliceLines t).lines.getD i [])) }, ?_, rfl⟩
      unfold parseTasksFromOrg
      exact List.mem_filterMap.mpr
        ⟨i, List.mem_range.mpr hlen,
          taskAt_eq_some_iff.mpr ⟨hh, v, hp, hv, rfl⟩⟩
  · exact fun s e h => drawer_no_end (sliceLines t).lines s e h

/-- C1 (witness): a heading whose drawer lacks `:END:` yields no
properties and no task, even though it contains an `ID:` line. -/
theorem c1_task_iff_nonempty_id_witness :
    ((∀ j ∈ List.range' 1 4,
        trimWs ((sliceLines
          (str "* TODO A\n:PROPERTIES:\n:ID: 7\nno end\n")).lines.getD j [])
          ≠ pEND) ∧
      parsePropertiesDrawer
        (sliceLines (str "* TODO A\n:PROPERTIES:\n:ID: 7\nno end\n")).lines
        1 4 = []) ∧
    parseTasksFromOrg (str "* TODO A\n:PROPERTIES:\n:ID: 7\nno end\n")
      DEFAULT_STATES = [] :=
  ⟨⟨by decide,
    (c1_task_iff_nonempty_id
      (str "* TODO A\n:PROPERTIES:\n:ID: 7\nno end\n")
      DEFAULT_STATES 0).2 1 4 (by decide)⟩,
   by decide⟩

end OrgMcp

namespace OrgMcp

/-! ## C9: lookup by id is first-match in document order -/

/-- C9: `findTaskById` returns the first task in document order whose id
matches (the task list is ordered by start line, so duplicate ids resolve
to the earliest occurrence); when no task matches, it and every id-taking
operation fail with the task-not-found error. -/
theorem c9_find_by_id (t taskId : Str) (allowed : List Str) :
    (∀ tk, findTaskById t taskId allowed = .ok tk →
        tk.id = taskId ∧
        ∃ pre post, parseTasksFromOrg t allowed = pre ++ tk :: post ∧
          ∀ x ∈ pre, x.id ≠ taskId) ∧
    (parseTasksFromOrg t allowed).Pairwise
      (fun a b => a.startLine < b.startLine) ∧
    ((∀ x ∈ parseTasksFromOrg t allowed, x.id ≠ taskId) →
      findTaskById t taskId allowed = .error (taskNotFoundMsg taskId) ∧
      getTaskAgentContext t taskId allowed = .error (taskNotFoundMsg taskId) ∧
      (∀ newState ∈ allowed, setTaskState t taskId newState allowed =
        .error (taskNotFoundMsg taskId)) ∧
      (∀ entry stamp, appendTaskLog t taskId entry stamp allowed =
        .error (taskNotFoundMsg taskId))) := by
  refine ⟨?_, ?_, ?_⟩
  · intro tk h
    unfold findTaskById at h
    cases hfind : (parseTasksFromOrg t allowed).find?
        (fun tk => tk.id = taskId) with
    | none => rw [hfind] at h; exact absurd h (by simp)
    | some tk' =>
        rw [hfind] at h
        have htk : tk' = tk := Option.some.inj (by simpa using h)
        subst htk
        obtain ⟨hp, pre, post, hsplit, hpre⟩ := List.find?_eq_some.mp hfind
        refine ⟨by simpa using hp, pre, post, hsplit, ?_⟩
        intro x hx
        have := hpre x hx
        simpa using this
  · unfold parseTasksFromOrg
    rw [List.pairwise_filterMap]
    have hr := List.pairwise_lt_range (sliceLines t).lines.length
    refine hr.imp ?_
    intro a b hab x hx y hy
    have hxa : x.startLine = a := taskAt_startLine (by simpa using hx)
    have hyb : y.startLine = b := taskAt_startLine (by simpa using hy)
    rw [hxa, hyb]
    exact hab
  · intro hall
    have hfind : (parseTasksFromOrg t allowed).find?
        (fun tk => tk.id = taskId) = none := by
      rw [List.find?_eq_none]
      intro x hx
      simpa using hall x hx
    have herr : findTaskById t taskId allowed =
        .error (taskNotFoundMsg taskId) := by
      unfold findTaskById
      rw [hfind]
    refine ⟨herr, ?_, ?_, ?_⟩
    · unfold getTaskAgentContext
      rw [herr]
    · intro newState hmem
      unfold setTaskState
      rw [if_neg (fun hc => hc (contains_eq_true_of_mem hmem)), herr]
    · intro entry stamp
      unfold appendTaskLog
      rw [herr]

/-- C9 (witness): a nonexistent id fails with task-not-found in every
id-taking operation on a concrete document. -/
theorem c9_find_by_id_witness :
    (∀ x ∈ parseTasksFromOrg (str "* TODO A\n:PROPERTIES:\n:ID: 1\n:END:\n")
        DEFAULT_STATES, x.id ≠ str "zzz") ∧
    str "DONE" ∈ DEFAULT_STATES ∧
    findTaskById (str "* TODO A\n:PROPERTIES:\n:ID: 1\n:END:\n")
        (str "zzz") DEFAULT_STATES = .error (taskNotFoundMsg (str "zzz")) ∧
    setTaskState (str "* TODO A\n:PROPERTIES:\n:ID: 1\n:END:\n")
        (str "zzz") (str "DONE") DEFAULT_STATES =
      .error (taskNotFoundMsg (str "zzz")) ∧
    appendTaskLog (str "* TODO A\n:PROPERTIES:\n:ID: 1\n:END:\n")
        (str "zzz") (str "note") (str "2026-01-01T00:00:00.000Z")
        DEFAULT_STATES = .error (taskNotFoundMsg (str "zzz")) :=
  ⟨by decide, by decide,
   ((c9_find_by_id (str "* TODO A\n:PROPERTIES:\n:ID: 1\n:END:\n")
      (str "zzz") DEFAULT_STATES).2.2 (by decide)).1,
   ((c9_find_by_id (str "* TODO A\n:PROPERTIES:\n:ID: 1\n:END:\n")
      (str "zzz") DEFAULT_STATES).2.2 (by decide)).2.2.1 (str "DONE")
      (by decide),
   ((c9_find_by_id (str "* TODO A\n:PROPERTIES:\n:ID: 1\n:END:\n")
      (str "zzz") DEFAULT_STATES).2.2 (by decide)).2.2.2 (str "note")
      (str "2026-01-01T00:00:00.000Z")⟩

end OrgMcp

namespace OrgMcp

/-! ## C7: get_task_context -/

/-- C7: for a found task, `getTaskAgentContext` returns the task's id,
state, title and properties together with the trimmed body of the direct
child subsection "Agent Context" (empty when absent, and not extending
into sibling subsections); on the spec's scenario document the context is
exactly "Do X" and the result nowhere contains "Secret". -/
theorem c7_get_task_context :
    (∀ t taskId allowed task, findTaskById t taskId allowed = .ok task →
      getTaskAgentContext t taskId allowed = .ok
        { id := task.id, state := task.state, title := task.title,
          properties := task.properties,
          agentContext :=
            match findSubheadingRange (sliceLines t).lines task
                agentContextTitle with
            | some r =>
                trimWs (joinWith [nlc]
                  (((sliceLines t).lines.drop (r.start + 1)).take
                    (r.stop + 1 - (r.start + 1))))
            | none => [] }) ∧
    getTaskAgentContext
      (str "* BACKLOG Example\n:PROPERTIES:\n:ID: 1\n:END:\n\n** Agent Context\nDo X\n\n** Private Notes\nSecret\n")
      (str "1") DEFAULT_STATES =
      .ok { id := str "1", state := some (str "BACKLOG"),
            title := str "Example", properties := [(str "ID", str "1")],
            agentContext := str "Do X" } ∧
    hasSub (str "Do X") (str "Secret") = false ∧
    hasSub (str "Example") (str "Secret") = false ∧
    hasSub (str "1") (str "Secret") = false := by
  refine ⟨?_, by decide, by decide, by decide, by decide⟩
  intro t taskId allowed task h
  unfold getTaskAgentContext
  rw [h]

/-- C7 (witness): instantiating the field description on the scenario
document. -/
theorem c7_get_task_context_witness :
    findTaskById
        (str "* BACKLOG Example\n:PROPERTIES:\n:ID: 1\n:END:\n\n** Agent Context\nDo X\n\n** Private Notes\nSecret\n")
        (str "1") DEFAULT_STATES =
      .ok { id := str "1", level := 1,
            rawHeadingLine := str "* BACKLOG Example",
            title := str "Example", state := some (str "BACKLOG"),
            properties := [(str "ID", str "1")],
            startLine := 0, endLine := 10 } ∧
    getTaskAgentContext
        (str "* BACKLOG Example\n:PROPERTIES:\n:ID: 1\n:END:\n\n** Agent Context\nDo X\n\n** Private Notes\nSecret\n")
        (str "1") DEFAULT_STATES =
      .ok { id := str "1", state := some (str "BACKLOG"),
            title := str "Example", properties := [(str "ID", str "1")],
            agentContext := str "Do X" } :=
  ⟨by decide,
   ((c7_get_task_context).1
      (str "* BACKLOG Example\n:PROPERTIES:\n:ID: 1\n:END:\n\n** Agent Context\nDo X\n\n** Private Notes\nSecret\n")
      (str "1") DEFAULT_STATES
      { id := str "1", level := 1,
        rawHeadingLine := str "* BACKLOG Example",
        title := str "Example", state := some (str "BACKLOG"),
        properties := [(str "ID", str "1")],
        startLine := 0, endLine := 10 }
      (by decide)).trans (by decide)⟩

end OrgMcp

namespace OrgMcp

/-! ## C5: section ranges partition the outline -/

theorem getD_drop (L : List Str) (s m : Nat) :
    (L.drop s).getD m [] = L.getD (s + m) [] := by
  rw [List.getD_eq_getElem?_getD, List.getD_eq_getElem?_getD,
    List.getElem?_drop]

theorem boundaryOffset_le_length (lvl : Nat) (seg : List Str) :
    boundaryOffset lvl seg ≤ seg.length := by
  induction seg with
  | nil => simp [boundaryOffset]
  | cons l rest ih =>
      unfold boundaryOffset
      split
      · simp
      · simpa using ih

theorem boundaryOffset_hit (lvl : Nat) (seg : List Str)
    (h : boundaryOffset lvl seg < seg.length) :
    isBoundaryFor lvl (seg.getD (boundaryOffset lvl seg) []) = true := by
  induction seg with
  | nil => simp at h
  | cons l rest ih =>
      unfold boundaryOffset at h ⊢
      split at h
      next hb =>
          rw [if_pos hb]
          simpa using hb
      next hb =>
          rw [if_neg hb]
          simp only [List.getD_cons_succ]
          exact ih (by simpa using h)

theorem boundaryOffset_min (lvl : Nat) (seg : List Str) (m : Nat)
    (h : m < boundaryOffset lvl seg) :
    isBoundaryFor lvl (seg.getD m []) = false := by
  induction seg generalizing m with
  | nil => simp [boundaryOffset] at h
  | cons l rest ih =>
      unfold boundaryOffset at h
      split at h
      next hb => simp at h
      next hb =>
          cases m with
          | zero => simpa using Bool.of_not_eq_true hb
          | succ m' =>
              simp only [List.getD_cons_succ]
              exact ih m' (by omega)

theorem boundaryOffset_le_of_hit (lvl : Nat) (seg : List Str) (k : Nat)
    (hk : k < seg.length) (hb : isBoundaryFor lvl (seg.getD k []) = true) :
    boundaryOffset lvl seg ≤ k := by
  by_contra hlt
  have := boundaryOffset_min lvl seg k (by omega)
  rw [this] at hb
  exact Bool.noConfusion hb

/-- C5: ranges computed by the next-heading-of-depth-at-most-own rule
partition the headings: a later heading of depth at most the first
heading's depth lies strictly after the first heading's range (so sibling
ranges are disjoint), and a deeper heading inside a heading's range has
its own range fully contained in it; every range also stays within the
document. -/
theorem c5_range_partition (L : List Str) (i k : Nat)
    (hi : i < L.length) (hk : k < L.length) (hik : i < k)
    (hhi : isHeadingLine (L.getD i []) = true)
    (hhk : isHeadingLine (L.getD k []) = true) :
    rangeEndIdx L i (headingLevel (L.getD i [])) < L.length ∧
    i ≤ rangeEndIdx L i (headingLevel (L.getD i [])) ∧
    (headingLevel (L.getD k []) ≤ headingLevel (L.getD i []) →
      rangeEndIdx L i (headingLevel (L.getD i [])) < k) ∧
    (k ≤ rangeEndIdx L i (headingLevel (L.getD i [])) →
     headingLevel (L.getD i []) < headingLevel (L.getD k []) →
      rangeEndIdx L k (headingLevel (L.getD k [])) ≤
        rangeEndIdx L i (headingLevel (L.getD i []))) := by
  set lvlI := headingLevel (L.getD i []) with hlvlI
  set lvlK := headingLevel (L.getD k []) with hlvlK
  have hlen : (L.drop (i + 1)).length = L.length - (i + 1) := by simp
  have hoffI := boundaryOffset_le_length lvlI (L.drop (i + 1))
  have hboundI : rangeEndIdx L i lvlI < L.length := by
    unfold rangeEndIdx
    omega
  have hgeI : i ≤ rangeEndIdx L i lvlI := by
    unfold rangeEndIdx
    omega
  refine ⟨hboundI, hgeI, ?_, ?_⟩
  · intro hle
    have hm : k - (i + 1) < (L.drop (i + 1)).length := by omega
    have hbd : isBoundaryFor lvlI ((L.drop (i + 1)).getD (k - (i + 1)) [])
        = true := by
      rw [getD_drop, show i + 1 + (k - (i + 1)) = k by omega]
      unfold isBoundaryFor
      rw [hhk]
      simp only [Bool.true_and, decide_eq_true_eq]
      exact hle
    have := boundaryOffset_le_of_hit lvlI (L.drop (i + 1)) (k - (i + 1))
      hm hbd
    unfold rangeEndIdx
    omega
  · intro hki hlvl
    have hoffK := boundaryOffset_le_length lvlK (L.drop (k + 1))
    by_cases hcase :
        boundaryOffset lvlI (L.drop (i + 1)) < (L.drop (i + 1)).length
    · set j0 := i + 1 + boundaryOffset lvlI (L.drop (i + 1)) with hj0
      have hbd0 := boundaryOffset_hit lvlI (L.drop (i + 1)) hcase
      rw [getD_drop] at hbd0
      rw [← hj0] at hbd0
      have hj0k : k < j0 := by
        unfold rangeEndIdx at hki
        omega
      have hbdK : isBoundaryFor lvlK ((L.drop (k + 1)).getD (j0 - (k + 1)) [])
          = true := by
        rw [getD_drop, show k + 1 + (j0 - (k + 1)) = j0 by omega]
        unfold isBoundaryFor at hbd0 ⊢
        simp only [Bool.and_eq_true, decide_eq_true_eq] at hbd0
        obtain ⟨hh0, hl0⟩ := hbd0
        rw [hh0]
        simp only [Bool.true_and, decide_eq_true_eq]
        omega
      have hj0len : j0 - (k + 1) < (L.drop (k + 1)).length := by
        simp only [List.length_drop]
        omega
      have := boundaryOffset_le_of_hit lvlK (L.drop (k + 1)) (j0 - (k + 1))
        hj0len hbdK
      unfold rangeEndIdx
      omega
    · have heq : boundaryOffset lvlI (L.drop (i + 1)) =
          (L.drop (i + 1)).length := by omega
      unfold rangeEndIdx
      simp only [List.length_drop] at heq hoffK ⊢
      omega

/-- C5 (witness): concrete sibling and nested headings on a document. -/
theorem c5_range_partition_witness :
    rangeEndIdx (sliceLines (str "* A\n** B\nbody\n* C\nmore\n")).lines 0
        (headingLevel
          ((sliceLines (str "* A\n** B\nbody\n* C\nmore\n")).lines.getD 0 []))
        < 3 ∧
    rangeEndIdx (sliceLines (str "* A\n** B\nbody\n* C\nmore\n")).lines 1
        (headingLevel
          ((sliceLines (str "* A\n** B\nbody\n* C\nmore\n")).lines.getD 1 []))
      ≤
      rangeEndIdx (sliceLines (str "* A\n** B\nbody\n* C\nmore\n")).lines 0
        (headingLevel
          ((sliceLines (str "* A\n** B\nbody\n* C\nmore\n")).lines.getD 0 [])) :=
  ⟨(c5_range_partition
      (sliceLines (str "* A\n** B\nbody\n* C\nmore\n")).lines 0 3
      (by decide) (by decide) (by decide) (by decide) (by decide)).2.2.1
      (by decide),
   (c5_range_partition
      (sliceLines (str "* A\n** B\nbody\n* C\nmore\n")).lines 0 1
      (by decide) (by decide) (by decide) (by decide) (by decide)).2.2.2
      (by decide) (by decide)⟩

end OrgMcp

namespace OrgMcp

/-! ## Support for the heading rewrite (C3, C10) -/

theorem drop_length_takeWhile (p : Char → Bool) (l : Str) :
    l.drop (l.takeWhile p).length = l.dropWhile p := by
  induction l with
  | nil => rfl
  | cons c rest ih =>
      by_cases hc : p c
      · rw [List.takeWhile_cons_of_pos hc, List.dropWhile_cons_of_pos hc]
        simpa using ih
      · rw [List.takeWhile_cons_of_neg hc, List.dropWhile_cons_of_neg hc]
        simp

/-- What a successful match of `/^(\*+)\s+(\S+)\s+(.*)$/` certifies: the
line decomposes into the captured maximal star run, a whitespace run, the
captured keyword token, a whitespace run, and the captured remainder. -/
theorem matchStarsWordRest_spec {l stars w rest : Str}
    (h : matchStarsWordRest l = some (stars, w, rest)) :
    ∃ ws1 ws2,
      l = stars ++ ws1 ++ w ++ ws2 ++ rest ∧
      stars ≠ [] ∧ (∀ c ∈ stars, c = '*') ∧
      ws1 ≠ [] ∧ (∀ c ∈ ws1, isWs c = true) ∧
      w ≠ [] ∧ (∀ c ∈ w, isWs c = false) ∧
      ws2 ≠ [] ∧ (∀ c ∈ ws2, isWs c = true) := by
  unfold matchStarsWordRest at h
  dsimp only at h
  set st := l.takeWhile (· = '*') with hst
  set r1 := l.drop st.length with hr1
  set ws1 := r1.takeWhile isWs with hws1
  set r2 := r1.drop ws1.length with hr2
  set wtok := r2.takeWhile (fun c => ¬ isWs c) with hwtok
  set r3 := r2.drop wtok.length with hr3
  set ws2 := r3.takeWhile isWs with hws2
  split at h
  next => exact absurd h (by simp)
  next hstne =>
    split at h
    next => exact absurd h (by simp)
    next hws1ne =>
      split at h
      next => exact absurd h (by simp)
      next hwne =>
        split at h
        next => exact absurd h (by simp)
        next hws2ne =>
          rw [Option.some.injEq, Prod.mk.injEq, Prod.mk.injEq] at h
          obtain ⟨ha, hb, hc⟩ := h
          subst ha; subst hb; subst hc
          have e1 : l = st ++ r1 := by
            rw [hr1, hst, drop_length_takeWhile]
            exact (List.takeWhile_append_dropWhile (· = '*') l).symm
          have e2 : r1 = ws1 ++ r2 := by
            rw [hr2, hws1, drop_length_takeWhile]
            exact (List.takeWhile_append_dropWhile isWs r1).symm
          have e3 : r2 = wtok ++ r3 := by
            rw [hr3, hwtok, drop_length_takeWhile]
            exact (List.takeWhile_append_dropWhile (fun c => ¬ isWs c) r2).symm
          have e4 : r3 = ws2 ++ r3.drop ws2.length := by
            rw [hws2, drop_length_takeWhile]
            conv_lhs => rw [← List.takeWhile_append_dropWhile isWs r3]
          refine ⟨ws1, ws2, ?_, hstne, ?_, hws1ne, ?_, hwne, ?_, hws2ne, ?_⟩
          · conv_lhs => rw [e1, e2, e3]
            conv_lhs => rw [e4]
            simp
          · intro c hc
            have := List.mem_takeWhile_imp (hst ▸ hc)
            simpa using this
          · intro c hc
            exact List.mem_takeWhile_imp (hws1 ▸ hc)
          · intro c hc
            have := List.mem_takeWhile_imp (hwtok ▸ hc)
            simpa using this
          · intro c hc
            exact List.mem_takeWhile_imp (hws2 ▸ hc)

/-- What a successful match of `/^(\*+)\s+(.*)$/` certifies. -/
theorem matchStarsRest_spec {l stars rest : Str}
    (h : matchStarsRest l = some (stars, rest)) :
    ∃ ws1,
      l = stars ++ ws1 ++ rest ∧
      stars ≠ [] ∧ (∀ c ∈ stars, c = '*') ∧
      ws1 ≠ [] ∧ (∀ c ∈ ws1, isWs c = true) := by
  unfold matchStarsRest at h
  dsimp only at h
  set st := l.takeWhile (· = '*') with hst
  set r1 := l.drop st.length with hr1
  set ws1 := r1.takeWhile isWs with hws1
  split at h
  next => exact absurd h (by simp)
  next hstne =>
    split at h
    next => exact absurd h (by simp)
    next hws1ne =>
      rw [Option.some.injEq, Prod.mk.injEq] at h
      obtain ⟨ha, hb⟩ := h
      subst ha; subst hb
      have e1 : l = st ++ r1 := by
        rw [hr1, hst, drop_length_takeWhile]
        exact (List.takeWhile_append_dropWhile (· = '*') l).symm
      have e2 : r1 = ws1 ++ r1.drop ws1.length := by
        rw [hws1, drop_length_takeWhile]
        conv_lhs => rw [← List.takeWhile_append_dropWhile isWs r1]
      refine ⟨ws1, ?_, hstne, ?_, hws1ne, ?_⟩
      · conv_lhs => rw [e1, e2]
        simp
      · intro c hc
        have := List.mem_takeWhile_imp (hst ▸ hc)
        simpa using this
      · intro c hc
        exact List.mem_takeWhile_imp (hws1 ▸ hc)

end OrgMcp

namespace OrgMcp

theorem detectEol_style (t : Str) : IsEolStyle (detectEol t) := by
  unfold detectEol IsEolStyle
  split
  · exact Or.inr (Or.inl rfl)
  · split
    · exact Or.inr (Or.inr rfl)
    · exact Or.inl rfl

theorem heading_matchStarsRest {l : Str} (h : isHeadingLine l = true) :
    ∃ st r, matchStarsRest l = some (st, r) := by
  unfold isHeadingLine at h
  cases hdw : l.dropWhile (· = '*') with
  | nil => rw [hdw] at h; exact absurd h (by simp)
  | cons c cs =>
      rw [hdw] at h
      simp only [Bool.and_eq_true, decide_eq_true_eq] at h
      obtain ⟨hpos, hws⟩ := h
      refine ⟨l.takeWhile (· = '*'),
        ((c :: cs).drop ((c :: cs).takeWhile isWs).length), ?_⟩
      unfold matchStarsRest
      dsimp only
      rw [if_neg (by
        intro hh
        rw [hh] at hpos
        simp at hpos)]
      rw [drop_length_takeWhile, hdw]
      rw [if_neg (by
        rw [List.takeWhile_cons_of_pos hws]
        simp)]


theorem findTaskById_ok_facts {t taskId : Str} {allowed : List Str}
    {task : OrgTask} (h : findTaskById t taskId allowed = .ok task) :
    task.startLine < (sliceLines t).lines.length ∧
    isHeadingLine ((sliceLines t).lines.getD task.startLine []) = true ∧
    task.id = taskId ∧
    taskAt (sliceLines t).lines allowed task.startLine = some task := by
  unfold findTaskById at h
  cases hfind : (parseTasksFromOrg t allowed).find?
      (fun tk => tk.id = taskId) with
  | none => rw [hfind] at h; exact absurd h (by simp)
  | some tk' =>
      rw [hfind] at h
      have htk : tk' = task := Option.some.inj (by simpa using h)
      subst htk
      have hid : tk'.id = taskId := by
        have := List.find?_some hfind
        simpa using this
      have hmem : tk' ∈ parseTasksFromOrg t allowed := List.mem_of_find?_eq_some hfind
      unfold parseTasksFromOrg at hmem
      obtain ⟨i, hi, htka⟩ := List.mem_filterMap.mp hmem
      have hstart : tk'.startLine = i := taskAt_startLine htka
      rw [← hstart] at hi htka
      exact ⟨List.mem_range.mp hi, (taskAt_eq_some_iff.mp htka).1, hid, htka⟩

theorem setTaskState_eq_replace {t taskId newState : Str} {allowed : List Str}
    {task : OrgTask} {stars w rest : Str}
    (hmem : newState ∈ allowed)
    (hfind : findTaskById t taskId allowed = .ok task)
    (hmatch : matchStarsWordRest
      ((sliceLines t).lines.getD task.startLine []) = some (stars, w, rest))
    (hw : w ∈ allowed) :
    setTaskState t taskId newState allowed = .ok (joinLines
      ⟨(sliceLines t).lines.set task.startLine
          (stars ++ [spc] ++ newState ++ [spc] ++ rest),
        (sliceLines t).eol, (sliceLines t).endsNl⟩) := by
  unfold setTaskState
  rw [if_neg (fun hc => hc (contains_eq_true_of_mem hmem)), hfind]
  dsimp only
  rw [hmatch]
  dsimp only
  rw [if_pos (contains_eq_true_of_mem hw)]

theorem setTaskState_eq_insert_noMatch {t taskId newState : Str}
    {allowed : List Str} {task : OrgTask} {stars2 rest2 : Str}
    (hmem : newState ∈ allowed)
    (hfind : findTaskById t taskId allowed = .ok task)
    (hmatch : matchStarsWordRest
      ((sliceLines t).lines.getD task.startLine []) = none)
    (hmatch2 : matchStarsRest
      ((sliceLines t).lines.getD task.startLine []) = some (stars2, rest2)) :
    setTaskState t taskId newState allowed = .ok (joinLines
      ⟨(sliceLines t).lines.set task.startLine
          (stars2 ++ [spc] ++ newState ++ [spc] ++ rest2),
        (sliceLines t).eol, (sliceLines t).endsNl⟩) := by
  unfold setTaskState
  rw [if_neg (fun hc => hc (contains_eq_true_of_mem hmem)), hfind]
  dsimp only
  rw [hmatch, hmatch2]

theorem setTaskState_eq_insert_badWord {t taskId newState : Str}
    {allowed : List Str} {task : OrgTask} {stars w rest stars2 rest2 : Str}
    (hmem : newState ∈ allowed)
    (hfind : findTaskById t taskId allowed = .ok task)
    (hmatch : matchStarsWordRest
      ((sliceLines t).lines.getD task.startLine []) = some (stars, w, rest))
    (hw : w ∉ allowed)
    (hmatch2 : matchStarsRest
      ((sliceLines t).lines.getD task.startLine []) = some (stars2, rest2)) :
    setTaskState t taskId newState allowed = .ok (joinLines
      ⟨(sliceLines t).lines.set task.startLine
          (stars2 ++ [spc] ++ newState ++ [spc] ++ rest2),
        (sliceLines t).eol, (sliceLines t).endsNl⟩) := by
  unfold setTaskState
  rw [if_neg (fun hc => hc (contains_eq_true_of_mem hmem)), hfind]
  dsimp only
  rw [hmatch]
  dsimp only
  rw [if_neg (by rw [contains_eq_false_of_not_mem hw]; simp), hmatch2]

/-- Replacing one heading line by a clean nonempty line and re-slicing the
joined document recovers exactly the modified line list. -/
theorem sliceLines_set_line (t : Str) (idx : Nat) (nl' : Str)
    (hidx : idx < (sliceLines t).lines.length)
    (hheading : isHeadingLine ((sliceLines t).lines.getD idx []) = true)
    (hclean : CleanLine nl') (hne' : nl' ≠ []) :
    (sliceLines (joinLines ⟨(sliceLines t).lines.set idx nl',
        (sliceLines t).eol, (sliceLines t).endsNl⟩)).lines =
      (sliceLines t).lines.set idx nl' := by
  have htne : t ≠ [] := by
    intro hh
    subst hh
    have h0 : (sliceLines ([] : Str)).lines = [[]] := by decide
    rw [h0] at hidx hheading
    have hidx0 : idx = 0 := by
      simp only [List.length_cons, List.length_nil] at hidx
      omega
    subst hidx0
    exact absurd hheading (by decide)
  apply sliceLines_joinLines_lines
  · exact detectEol_style t
  · intro hh
    have hlen := congrArg List.length hh
    rw [List.length_set] at hlen
    simp only [List.length_nil] at hlen
    omega
  · intro l hl
    rcases List.mem_or_eq_of_mem_set hl with hl | hl
    · exact cleanLine_of_mem_sliceLines hl
    · exact hl ▸ hclean
  · intro hens hlast
    by_cases hcase : idx = (sliceLines t).lines.length - 1
    · rw [List.getLast?_eq_getElem?, List.length_set] at hlast
      rw [List.getElem?_set, if_pos (by omega)] at hlast
      rw [if_pos (by omega)] at hlast
      exact hne' (Option.some.inj hlast)
    · rw [List.getLast?_eq_getElem?, List.length_set] at hlast
      rw [List.getElem?_set_ne (by omega)] at hlast
      rw [← List.getLast?_eq_getElem?] at hlast
      exact getLast_lines_ne_nil htne hens hlast

end OrgMcp

namespace OrgMcp

/-! ## C10: setTaskState only rewrites the heading line -/

/-- C10 (counterexample): with a caller-supplied state containing a line
terminator, the successful rewrite changes the line count. -/
theorem c10_counterexample :
    setTaskState (str "* T\n:PROPERTIES:\n:ID: 1\n:END:\n") (str "1")
        (str "X\nY") [str "X\nY"] =
      .ok (str "* X\nY T\n:PROPERTIES:\n:ID: 1\n:END:\n") ∧
    (sliceLines (str "* X\nY T\n:PROPERTIES:\n:ID: 1\n:END:\n")).lines.length ≠
      (sliceLines (str "* T\n:PROPERTIES:\n:ID: 1\n:END:\n")).lines.length := by
  constructor
  · decide
  · decide

/-- C10 (amended): whenever `setTaskState` succeeds and the new state
keyword contains no line terminators (true of every real state keyword),
the resulting document has exactly the same number of lines, and every
line other than the located task's heading line is byte-identical to the
corresponding input line. -/
theorem c10_frame_amended (t taskId newState : Str) (allowed : List Str)
    (task : OrgTask) (out : Str)
    (hclean : CleanLine newState)
    (hfind : findTaskById t taskId allowed = .ok task)
    (hok : setTaskState t taskId newState allowed = .ok out) :
    (sliceLines out).lines.length = (sliceLines t).lines.length ∧
    ∀ j, j ≠ task.startLine →
      (sliceLines out).lines.getD j [] = (sliceLines t).lines.getD j [] := by
  obtain ⟨hidx, hheading, -, -⟩ := findTaskById_ok_facts hfind
  have hmem : newState ∈ allowed := by
    by_contra hmem
    rw [(c6_invalid_state t taskId newState allowed hmem).1] at hok
    exact Except.noConfusion hok
  have horigmem : (sliceLines t).lines.getD task.startLine [] ∈
      (sliceLines t).lines := by
    rw [getD_eq_getElem_of_lt _ _ hidx]
    exact List.getElem_mem _
  have horigclean : CleanLine ((sliceLines t).lines.getD task.startLine []) :=
    cleanLine_of_mem_sliceLines horigmem
  have main : ∀ stars rest : Str, stars ≠ [] →
      (∀ c ∈ stars, c ∈ (sliceLines t).lines.getD task.startLine []) →
      (∀ c ∈ rest, c ∈ (sliceLines t).lines.getD task.startLine []) →
      out = joinLines ⟨(sliceLines t).lines.set task.startLine
          (stars ++ [spc] ++ newState ++ [spc] ++ rest),
        (sliceLines t).eol, (sliceLines t).endsNl⟩ →
      (sliceLines out).lines.length = (sliceLines t).lines.length ∧
      ∀ j, j ≠ task.startLine →
        (sliceLines out).lines.getD j [] = (sliceLines t).lines.getD j [] := by
    intro stars rest hne hsub1 hsub2 hout
    have hclean' : CleanLine (stars ++ [spc] ++ newState ++ [spc] ++ rest) := by
      constructor
      · intro hc
        rcases List.mem_append.mp hc with hc | hc
        rcases List.mem_append.mp hc with hc | hc
        rcases List.mem_append.mp hc with hc | hc
        rcases List.mem_append.mp hc with hc | hc
        · exact horigclean.1 (hsub1 crc hc)
        · simp [crc, spc] at hc
        · exact hclean.1 hc
        · simp [crc, spc] at hc
        · exact horigclean.1 (hsub2 crc hc)
      · intro hc
        rcases List.mem_append.mp hc with hc | hc
        rcases List.mem_append.mp hc with hc | hc
        rcases List.mem_append.mp hc with hc | hc
        rcases List.mem_append.mp hc with hc | hc
        · exact horigclean.2 (hsub1 nlc hc)
        · simp [nlc, spc] at hc
        · exact hclean.2 hc
        · simp [nlc, spc] at hc
        · exact horigclean.2 (hsub2 nlc hc)
    have hres := sliceLines_set_line t task.startLine
      (stars ++ [spc] ++ newState ++ [spc] ++ rest) hidx hheading hclean'
      (by simp [hne])
    rw [hout, hres]
    constructor
    · exact List.length_set ..
    · intro j hj
      rw [List.getD_eq_getElem?_getD, List.getD_eq_getElem?_getD,
        List.getElem?_set_ne (fun hh => hj hh.symm)]
  cases hm : matchStarsWordRest ((sliceLines t).lines.getD task.startLine [])
    with
  | some triple =>
      obtain ⟨stars, w, rest⟩ := triple
      by_cases hw : w ∈ allowed
      · have heq := setTaskState_eq_replace hmem hfind hm hw
        rw [heq] at hok
        obtain ⟨ws1, ws2, hdec, hstne, -, -, -, -, -, -, -⟩ :=
          matchStarsWordRest_spec hm
        refine main stars rest hstne ?_ ?_ (Except.ok.inj hok).symm
        · intro c hc
          rw [hdec]
          simp [hc]
        · intro c hc
          rw [hdec]
          simp [hc]
      · obtain ⟨st2, r2, hm2⟩ := heading_matchStarsRest hheading
        have heq := setTaskState_eq_insert_badWord hmem hfind hm hw hm2
        rw [heq] at hok
        obtain ⟨ws1, hdec, hstne, -, -, -⟩ := matchStarsRest_spec hm2
        refine main st2 r2 hstne ?_ ?_ (Except.ok.inj hok).symm
        · intro c hc
          rw [hdec]
          simp [hc]
        · intro c hc
          rw [hdec]
          simp [hc]
  | none =>
      obtain ⟨st2, r2, hm2⟩ := heading_matchStarsRest hheading
      have heq := setTaskState_eq_insert_noMatch hmem hfind hm hm2
      rw [heq] at hok
      obtain ⟨ws1, hdec, hstne, -, -, -⟩ := matchStarsRest_spec hm2
      refine main st2 r2 hstne ?_ ?_ (Except.ok.inj hok).symm
      · intro c hc
        rw [hdec]
        simp [hc]
      · intro c hc
        rw [hdec]
        simp [hc]

/-- C10 (witness): a concrete rewrite leaves all non-heading lines
byte-identical. -/
theorem c10_frame_amended_witness :
    (sliceLines
      (str "* IN-PROGRESS Another task\n:PROPERTIES:\n:ID: abcd\n:END:\n")).lines.length =
      (sliceLines
        (str "* TODO Another task\n:PROPERTIES:\n:ID: abcd\n:END:\n")).lines.length ∧
    ∀ j, j ≠ 0 →
      (sliceLines
        (str "* IN-PROGRESS Another task\n:PROPERTIES:\n:ID: abcd\n:END:\n")).lines.getD j [] =
      (sliceLines
        (str "* TODO Another task\n:PROPERTIES:\n:ID: abcd\n:END:\n")).lines.getD j [] :=
  c10_frame_amended
    (str "* TODO Another task\n:PROPERTIES:\n:ID: abcd\n:END:\n")
    (str "abcd") (str "IN-PROGRESS") DEFAULT_STATES
    { id := str "abcd", level := 1,
      rawHeadingLine := str "* TODO Another task",
      title := str "Another task", state := some (str "TODO"),
      properties := [(str "ID", str "abcd")], startLine := 0, endLine := 4 }
    (str "* IN-PROGRESS Another task\n:PROPERTIES:\n:ID: abcd\n:END:\n")
    (by decide) (by decide) (by decide)

end OrgMcp

namespace OrgMcp

/-! ## C3: state keyword rewrite on the heading line -/

/-- Replacing the heading at `idx` by a rebuilt heading made of characters
of the original line, single spaces, and a clean keyword re-slices to
exactly the modified line list. -/
theorem setState_result_lines (t : Str) (idx : Nat)
    (stars rest newState : Str)
    (hidx : idx < (sliceLines t).lines.length)
    (hheading : isHeadingLine ((sliceLines t).lines.getD idx []) = true)
    (hclean : CleanLine newState)
    (hsub1 : ∀ c ∈ stars, c ∈ (sliceLines t).lines.getD idx [])
    (hsub2 : ∀ c ∈ rest, c ∈ (sliceLines t).lines.getD idx [])
    (hne : stars ≠ []) :
    (sliceLines (joinLines ⟨(sliceLines t).lines.set idx
        (stars ++ [spc] ++ newState ++ [spc] ++ rest),
      (sliceLines t).eol, (sliceLines t).endsNl⟩)).lines =
      (sliceLines t).lines.set idx
        (stars ++ [spc] ++ newState ++ [spc] ++ rest) := by
  have horigmem : (sliceLines t).lines.getD idx [] ∈ (sliceLines t).lines := by
    rw [getD_eq_getElem_of_lt _ _ hidx]
    exact List.getElem_mem _
  have horigclean : CleanLine ((sliceLines t).lines.getD idx []) :=
    cleanLine_of_mem_sliceLines horigmem
  apply sliceLines_set_line t idx _ hidx hheading
  · constructor
    · intro hc
      rcases List.mem_append.mp hc with hc | hc
      rcases List.mem_append.mp hc with hc | hc
      rcases List.mem_append.mp hc with hc | hc
      rcases List.mem_append.mp hc with hc | hc
      · exact horigclean.1 (hsub1 crc hc)
      · simp [crc, spc] at hc
      · exact hclean.1 hc
      · simp [crc, spc] at hc
      · exact horigclean.1 (hsub2 crc hc)
    · intro hc
      rcases List.mem_append.mp hc with hc | hc
      rcases List.mem_append.mp hc with hc | hc
      rcases List.mem_append.mp hc with hc | hc
      rcases List.mem_append.mp hc with hc | hc
      · exact horigclean.2 (hsub1 nlc hc)
      · simp [nlc, spc] at hc
      · exact hclean.2 hc
      · simp [nlc, spc] at hc
      · exact horigclean.2 (hsub2 nlc hc)
  · simp [hne]

/-- C3 (counterexample): on a heading whose markers are separated from the
keyword by two spaces, the rewrite does not merely replace the keyword
token — it also collapses the separating whitespace, so the heading line
is not the original with only its keyword substituted. -/
theorem c3_counterexample :
    setTaskState (str "*  TODO x\n:PROPERTIES:\n:ID: 1\n:END:\n") (str "1")
        (str "DONE") DEFAULT_STATES =
      .ok (str "* DONE x\n:PROPERTIES:\n:ID: 1\n:END:\n") ∧
    str "* DONE x\n:PROPERTIES:\n:ID: 1\n:END:\n" ≠
      str "*  DONE x\n:PROPERTIES:\n:ID: 1\n:END:\n" := by
  constructor
  · decide
  · decide

/-- C3 (amended): `setTaskState` rewrites only the task's heading line.
If the heading matches markers/keyword/remainder with a recognized
keyword, the new heading is the byte-identical markers, a single space,
the new keyword, a single space, and the byte-identical remainder (so the
whitespace runs around the keyword are normalized to single spaces); if
no recognized keyword is present, the new keyword is inserted between the
byte-identical markers and the byte-identical remainder with single-space
separators.  All other lines are untouched. -/
theorem c3_set_state_amended (t taskId newState : Str) (allowed : List Str)
    (task : OrgTask)
    (hclean : CleanLine newState)
    (hmem : newState ∈ allowed)
    (hfind : findTaskById t taskId allowed = .ok task) :
    (∀ stars w rest,
      matchStarsWordRest ((sliceLines t).lines.getD task.startLine []) =
        some (stars, w, rest) → w ∈ allowed →
      ∃ ws1 ws2 out,
        (sliceLines t).lines.getD task.startLine [] =
          stars ++ ws1 ++ w ++ ws2 ++ rest ∧
        stars ≠ [] ∧ (∀ c ∈ stars, c = '*') ∧
        ws1 ≠ [] ∧ (∀ c ∈ ws1, isWs c = true) ∧
        w ≠ [] ∧ (∀ c ∈ w, isWs c = false) ∧
        ws2 ≠ [] ∧ (∀ c ∈ ws2, isWs c = true) ∧
        setTaskState t taskId newState allowed = .ok out ∧
        (sliceLines out).lines = (sliceLines t).lines.set task.startLine
          (stars ++ [spc] ++ newState ++ [spc] ++ rest)) ∧
    (∀ stars rest,
      matchStarsRest ((sliceLines t).lines.getD task.startLine []) =
        some (stars, rest) →
      (matchStarsWordRest ((sliceLines t).lines.getD task.startLine []) =
          none ∨
        (∀ st' w' r', matchStarsWordRest
            ((sliceLines t).lines.getD task.startLine []) =
            some (st', w', r') → w' ∉ allowed)) →
      ∃ ws1 out,
        (sliceLines t).lines.getD task.startLine [] = stars ++ ws1 ++ rest ∧
        stars ≠ [] ∧ (∀ c ∈ stars, c = '*') ∧
        ws1 ≠ [] ∧ (∀ c ∈ ws1, isWs c = true) ∧
        setTaskState t taskId newState allowed = .ok out ∧
        (sliceLines out).lines = (sliceLines t).lines.set task.startLine
          (stars ++ [spc] ++ newState ++ [spc] ++ rest)) := by
  obtain ⟨hidx, hheading, -, -⟩ := findTaskById_ok_facts hfind
  constructor
  · intro stars w rest hm hw
    obtain ⟨ws1, ws2, hdec, hstne, hstar, hws1ne, hws1, hwne, hword,
      hws2ne, hws2⟩ := matchStarsWordRest_spec hm
    have heq := setTaskState_eq_replace hmem hfind hm hw
    have hsub1 : ∀ c ∈ stars,
        c ∈ (sliceLines t).lines.getD task.startLine [] := by
      intro c hc
      rw [hdec]
      simp [hc]
    have hsub2 : ∀ c ∈ rest,
        c ∈ (sliceLines t).lines.getD task.startLine [] := by
      intro c hc
      rw [hdec]
      simp [hc]
    refine ⟨ws1, ws2, _, hdec, hstne, hstar, hws1ne, hws1, hwne, hword,
      hws2ne, hws2, heq, ?_⟩
    exact setState_result_lines t task.startLine stars rest newState hidx
      hheading hclean hsub1 hsub2 hstne
  · intro stars rest hm2 hcase
    obtain ⟨ws1, hdec, hstne, hstar, hws1ne, hws1⟩ := matchStarsRest_spec hm2
    have heq : setTaskState t taskId newState allowed = .ok (joinLines
        ⟨(sliceLines t).lines.set task.startLine
            (stars ++ [spc] ++ newState ++ [spc] ++ rest),
          (sliceLines t).eol, (sliceLines t).endsNl⟩) := by
      rcases hcase with hnone | hbad
      · exact setTaskState_eq_insert_noMatch hmem hfind hnone hm2
      · cases hm : matchStarsWordRest
            ((sliceLines t).lines.getD task.startLine []) with
        | none => exact setTaskState_eq_insert_noMatch hmem hfind hm hm2
        | some triple =>
            obtain ⟨st', w', r'⟩ := triple
            exact setTaskState_eq_insert_badWord hmem hfind hm
              (hbad st' w' r' hm) hm2
    have hsub1 : ∀ c ∈ stars,
        c ∈ (sliceLines t).lines.getD task.startLine [] := by
      intro c hc
      rw [hdec]
      simp [hc]
    have hsub2 : ∀ c ∈ rest,
        c ∈ (sliceLines t).lines.getD task.startLine [] := by
      intro c hc
      rw [hdec]
      simp [hc]
    refine ⟨ws1, _, hdec, hstne, hstar, hws1ne, hws1, heq, ?_⟩
    exact setState_result_lines t task.startLine stars rest newState hidx
      hheading hclean hsub1 hsub2 hstne

/-- C3 (witness): replacing `TODO` by `IN-PROGRESS` on a heading with
trailing tags keeps the markers and the remainder (title and tags)
byte-identical. -/
theorem c3_set_state_amended_witness :
    matchStarsWordRest
        ((sliceLines
          (str "* TODO Another task :tag1:tag2:\n:PROPERTIES:\n:ID: abcd\n:END:\n")).lines.getD 0 []) =
      some (str "*", str "TODO", str "Another task :tag1:tag2:") ∧
    str "TODO" ∈ DEFAULT_STATES ∧
    ∃ ws1 ws2 out,
      (sliceLines
        (str "* TODO Another task :tag1:tag2:\n:PROPERTIES:\n:ID: abcd\n:END:\n")).lines.getD 0 [] =
        str "*" ++ ws1 ++ str "TODO" ++ ws2 ++ str "Another task :tag1:tag2:" ∧
      str "*" ≠ [] ∧ (∀ c ∈ str "*", c = '*') ∧
      ws1 ≠ [] ∧ (∀ c ∈ ws1, isWs c = true) ∧
      str "TODO" ≠ [] ∧ (∀ c ∈ str "TODO", isWs c = false) ∧
      ws2 ≠ [] ∧ (∀ c ∈ ws2, isWs c = true) ∧
      setTaskState
          (str "* TODO Another task :tag1:tag2:\n:PROPERTIES:\n:ID: abcd\n:END:\n")
          (str "abcd") (str "IN-PROGRESS") DEFAULT_STATES = .ok out ∧
      (sliceLines out).lines =
        (sliceLines
          (str "* TODO Another task :tag1:tag2:\n:PROPERTIES:\n:ID: abcd\n:END:\n")).lines.set 0
          (str "*" ++ [spc] ++ str "IN-PROGRESS" ++ [spc] ++
            str "Another task :tag1:tag2:") :=
  ⟨by decide, by decide,
   (c3_set_state_amended
      (str "* TODO Another task :tag1:tag2:\n:PROPERTIES:\n:ID: abcd\n:END:\n")
      (str "abcd") (str "IN-PROGRESS") DEFAULT_STATES
      { id := str "abcd", level := 1,
        rawHeadingLine := str "* TODO Another task :tag1:tag2:",
        title := str "Another task :tag1:tag2:", state := some (str "TODO"),
        properties := [(str "ID", str "abcd")], startLine := 0, endLine := 4 }
      (by decide) (by decide) (by decide)).1
     (str "*") (str "TODO") (str "Another task :tag1:tag2:")
     (by decide) (by decide)⟩

end OrgMcp

namespace OrgMcp

/-! ## Support for log insertion (C8, C4) -/

theorem spliceInsert_length (L : List Str) (p : Nat) (xs : List Str)
    (hp : p ≤ L.length) :
    (spliceInsert L p xs).length = L.length + xs.length := by
  unfold spliceInsert
  simp [List.length_take, List.length_drop]
  omega

theorem mem_spliceInsert {L : List Str} {p : Nat} {xs : List Str} {x : Str}
    (h : x ∈ spliceInsert L p xs) : x ∈ L ∨ x ∈ xs := by
  unfold spliceInsert at h
  rcases List.mem_append.mp h with h | h
  · rcases List.mem_append.mp h with h | h
    · exact Or.inl (List.take_subset p L h)
    · exact Or.inr h
  · exact Or.inl (List.drop_subset p L h)

theorem getD_spliceInsert_before {L : List Str} {p : Nat} {xs : List Str}
    {j : Nat} (hj : j < p) (hp : p ≤ L.length) :
    (spliceInsert L p xs).getD j [] = L.getD j [] := by
  unfold spliceInsert
  rw [List.getD_eq_getElem?_getD, List.getD_eq_getElem?_getD]
  rw [List.getElem?_append_left (by simp only [List.length_append, List.length_take]; omega)]
  rw [List.getElem?_append_left (by simp only [List.length_append, List.length_take]; omega)]
  rw [List.getElem?_take_of_lt hj]

theorem getD_spliceInsert_inside {L : List Str} {p : Nat} {xs : List Str}
    {k : Nat} (hk : k < xs.length) (hp : p ≤ L.length) :
    (spliceInsert L p xs).getD (p + k) [] = xs.getD k [] := by
  unfold spliceInsert
  rw [List.getD_eq_getElem?_getD, List.getD_eq_getElem?_getD]
  rw [List.append_assoc]
  rw [List.getElem?_append_right (by simp only [List.length_append, List.length_take]; omega)]
  rw [show p + k - (L.take p).length = k by
    simp only [List.length_take]; omega]
  rw [List.getElem?_append_left hk]

theorem getD_spliceInsert_after {L : List Str} {p : Nat} {xs : List Str}
    {j : Nat} (hj : p ≤ j) (hp : p ≤ L.length) :
    (spliceInsert L p xs).getD (j + xs.length) [] = L.getD j [] := by
  unfold spliceInsert
  rw [List.getD_eq_getElem?_getD, List.getD_eq_getElem?_getD]
  rw [List.append_assoc]
  rw [List.getElem?_append_right (by simp only [List.length_append, List.length_take]; omega)]
  rw [List.getElem?_append_right (by simp only [List.length_append, List.length_take]; omega)]
  rw [List.getElem?_drop]
  rw [show p + (j + xs.length - (L.take p).length - xs.length) = j by
    simp only [List.length_take]; omega]

theorem spliceInsert_merge (L : List Str) (p : Nat) (xs ys : List Str)
    (hp : p ≤ L.length) :
    spliceInsert (spliceInsert L p xs) (p + xs.length) ys =
      spliceInsert L p (xs ++ ys) := by
  unfold spliceInsert
  have htake : (L.take p ++ xs ++ L.drop p).take (p + xs.length) =
      L.take p ++ xs := by
    rw [List.append_assoc, List.take_append_eq_append_take]
    rw [List.take_of_length_le (by simp only [List.length_append, List.length_take]; omega)]
    rw [show p + xs.length - (L.take p).length = xs.length by
      simp only [List.length_take]; omega]
    rw [List.take_append_eq_append_take,
      List.take_of_length_le (l := xs) (by omega)]
    rw [show xs.length - xs.length = 0 by omega]
    simp
  have hdrop : (L.take p ++ xs ++ L.drop p).drop (p + xs.length) =
      L.drop p := by
    rw [List.append_assoc, List.drop_append_eq_append_drop]
    rw [List.drop_of_length_le (by simp only [List.length_append, List.length_take]; omega)]
    rw [show p + xs.length - (L.take p).length = xs.length by
      simp only [List.length_take]; omega]
    rw [List.drop_append_eq_append_drop,
      List.drop_of_length_le (l := xs) (by omega)]
    rw [show xs.length - xs.length = 0 by omega]
    simp
  rw [htake, hdrop]
  simp

theorem findIdx?_spec {p : Str → Bool} {seg : List Str} {k : Nat}
    (h : seg.findIdx? p = some k) :
    k < seg.length ∧ p (seg.getD k []) = true ∧
      ∀ m < k, p (seg.getD m []) = false := by
  induction seg generalizing k with
  | nil => simp at h
  | cons x xs ih =>
      rw [List.findIdx?_cons] at h
      by_cases hx : p x
      · rw [if_pos hx] at h
        have hk : k = 0 := (Option.some.inj h).symm
        subst hk
        exact ⟨by simp, by simpa using hx, by omega⟩
      · rw [if_neg hx, List.findIdx?_succ] at h
        obtain ⟨k', hk', hkk⟩ := Option.map_eq_some'.mp h
        subst hkk
        obtain ⟨h1, h2, h3⟩ := ih hk'
        refine ⟨by simpa using h1, by simpa using h2, ?_⟩
        intro m hm
        cases m with
        | zero => simpa using Bool.of_not_eq_true hx
        | succ m' =>
            simp only [List.getD_cons_succ]
            exact h3 m' (by omega)

/-- Bounds certified by a successful subheading search. -/
theorem findSubheadingRange_facts {L : List Str} {task : OrgTask}
    {name : Str} {lr : SubRange}
    (h : findSubheadingRange L task name = some lr) :
    task.startLine < lr.start ∧ lr.start ≤ task.startLine +
        (task.endLine - task.startLine) ∧
      lr.start ≤ lr.stop ∧ lr.stop ≤ task.endLine ∧
      lr.level = task.level + 1 ∧
      subheadingHit task.level name (L.getD lr.start []) = true := by
  unfold findSubheadingRange at h
  dsimp only at h
  cases hf : ((L.drop (task.startLine + 1)).take
      (task.endLine - task.startLine)).findIdx?
      (subheadingHit task.level name) with
  | none => rw [hf] at h; exact absurd h (by simp)
  | some k =>
      rw [hf] at h
      obtain ⟨hk, hhit, -⟩ := findIdx?_spec hf
      have hkbound : k < task.endLine - task.startLine := by
        have := hk
        simp only [List.length_take, List.length_drop] at this
        omega
      have hoff := boundaryOffset_le_length (task.level + 1)
        ((L.drop (task.startLine + 1 + k + 1)).take
          (task.endLine - (task.startLine + 1 + k)))
      have hofflen : ((L.drop (task.startLine + 1 + k + 1)).take
          (task.endLine - (task.startLine + 1 + k))).length ≤
          task.endLine - (task.startLine + 1 + k) := by
        simp [List.length_take]
      have hlr := (Option.some.inj h).symm
      have hgetd : ((L.drop (task.startLine + 1)).take
          (task.endLine - task.startLine)).getD k [] = L.getD
          (task.startLine + 1 + k) [] := by
        rw [List.getD_eq_getElem?_getD, List.getD_eq_getElem?_getD]
        rw [List.getElem?_take_of_lt hkbound, List.getElem?_drop]
      subst hlr
      dsimp only
      refine ⟨by omega, by omega, by omega, by omega, rfl, ?_⟩
      rw [← hgetd]
      exact hhit

theorem rangeEndIdx_lt_length {L : List Str} {i lvl : Nat}
    (hi : i < L.length) : rangeEndIdx L i lvl < L.length := by
  unfold rangeEndIdx
  have := boundaryOffset_le_length lvl (L.drop (i + 1))
  simp only [List.length_drop] at this
  omega

theorem task_endLine_lt_length {t : Str} {taskId : Str} {allowed : List Str}
    {task : OrgTask} (h : findTaskById t taskId allowed = .ok task) :
    task.endLine < (sliceLines t).lines.length ∧
      task.startLine ≤ task.endLine := by
  obtain ⟨hidx, -, -, hta⟩ := findTaskById_ok_facts h
  obtain ⟨-, v, -, -, htk⟩ := taskAt_eq_some_iff.mp hta
  have he : task.endLine = rangeEndIdx (sliceLines t).lines task.startLine
      (headingLevel ((sliceLines t).lines.getD task.startLine [])) := by
    conv_lhs => rw [htk]
  constructor
  · rw [he]
    exact rangeEndIdx_lt_length hidx
  · rw [he]
    unfold rangeEndIdx
    omega

end OrgMcp

namespace OrgMcp

theorem appendTaskLog_eq_existing (entry stamp : Str) {t taskId : Str}
    {allowed : List Str} {task : OrgTask} {lr : SubRange}
    (hfind : findTaskById t taskId allowed = .ok task)
    (hsub : findSubheadingRange (sliceLines t).lines task logTitle =
      some lr) :
    appendTaskLog t taskId entry stamp allowed = .ok (joinLines
      ⟨if trimWs ((sliceLines t).lines.getD lr.stop []) ≠ []
         then spliceInsert (sliceLines t).lines (lr.stop + 1)
           [[], mkBullet stamp entry]
         else spliceInsert (sliceLines t).lines (lr.stop + 1)
           [mkBullet stamp entry],
       (sliceLines t).eol, (sliceLines t).endsNl⟩) := by
  unfold appendTaskLog
  rw [hfind]
  dsimp only
  rw [hsub]
  dsimp only
  simp only [Nat.add_sub_cancel]

theorem appendTaskLog_eq_create (entry stamp : Str) {t taskId : Str}
    {allowed : List Str} {task : OrgTask}
    (hfind : findTaskById t taskId allowed = .ok task)
    (hsub : findSubheadingRange (sliceLines t).lines task logTitle = none) :
    appendTaskLog t taskId entry stamp allowed = .ok (joinLines
      ⟨spliceInsert (sliceLines t).lines (task.endLine + 1)
         [List.replicate (task.level + 1) '*' ++ str " Log", [],
          mkBullet stamp entry],
       (sliceLines t).eol, (sliceLines t).endsNl⟩) := by
  have hp : task.endLine + 1 ≤ (sliceLines t).lines.length :=
    (task_endLine_lt_length hfind).1
  unfold appendTaskLog
  rw [hfind]
  dsimp only
  rw [hsub]
  dsimp only
  simp only [Nat.add_sub_cancel]
  have hbefore : (spliceInsert (sliceLines t).lines (task.endLine + 1)
      [List.replicate (task.level + 1) '*' ++ str " Log", []]).getD
      (task.endLine + 1 + 1) [] = [] := by
    exact getD_spliceInsert_inside (k := 1) (by simp) hp
  rw [show task.endLine + 2 = task.endLine + 1 + 1 from rfl, hbefore]
  rw [if_neg (by decide)]
  have hmerge := spliceInsert_merge (sliceLines t).lines (task.endLine + 1)
    [List.replicate (task.level + 1) '*' ++ str " Log", []]
    [mkBullet stamp entry] hp
  simp only [List.length_cons, List.length_nil] at hmerge
  rw [show task.endLine + 1 + 1 + 1 = task.endLine + 1 + (0 + 1 + 1) by
    omega]
  rw [hmerge]
  rfl

end OrgMcp

namespace OrgMcp

theorem trimEndWs_subset (l : Str) : ∀ c ∈ trimEndWs l, c ∈ l := by
  intro c hc
  unfold trimEndWs at hc
  rw [List.mem_reverse] at hc
  have := (List.dropWhile_sublist (l := l.reverse) isWs).subset hc
  rwa [List.mem_reverse] at this

theorem trimWs_subset (l : Str) : ∀ c ∈ trimWs l, c ∈ l := by
  intro c hc
  unfold trimWs at hc
  have h1 := trimEndWs_subset _ c hc
  exact (List.dropWhile_sublist (l := l) isWs).subset h1

theorem stripHeadingMarkers_subset (l : Str) :
    ∀ c ∈ stripHeadingMarkers l, c ∈ l := by
  intro c hc
  unfold stripHeadingMarkers at hc
  split at hc
  · have h1 := (List.dropWhile_sublist (l := l.dropWhile (· = '*'))
      isWs).subset hc
    exact (List.dropWhile_sublist (l := l) (· = '*')).subset h1
  · exact hc

theorem safeEntry_clean (entry : Str) : CleanLine (safeEntry entry) := by
  have key : ∀ c ∈ safeEntry entry, c ≠ nlc ∧ c ≠ crc := by
    intro c hc
    unfold safeEntry at hc
    have h1 := trimWs_subset _ c hc
    rcases mem_joinWith h1 with hs | ⟨x, hx, hcx⟩
    · simp only [List.mem_singleton] at hs
      subst hs
      exact ⟨by decide, by decide⟩
    · rcases List.mem_filter.mp hx with ⟨hx, -⟩
      obtain ⟨y, hy, hxy⟩ := List.mem_map.mp hx
      subst hxy
      have h2 := trimEndWs_subset _ c hcx
      have h3 := stripHeadingMarkers_subset _ c h2
      constructor
      · exact fun hh => mem_splitOnNl_no_nl hy (hh ▸ h3)
      · intro hh
        exact not_crc_mem_replaceCR _
          (hh ▸ mem_splitOnNl_subset hy c h3)
  constructor
  · intro hc
    exact (key crc hc).2 rfl
  · intro hc
    exact (key nlc hc).1 rfl

theorem mkBullet_clean (stamp entry : Str)
    (hstamp : CleanLine stamp) : CleanLine (mkBullet stamp entry) := by
  have hsafe := safeEntry_clean entry
  unfold mkBullet
  constructor
  · intro hc
    rcases List.mem_append.mp hc with hc | hc
    rcases List.mem_append.mp hc with hc | hc
    rcases List.mem_append.mp hc with hc | hc
    · exact absurd hc (by decide)
    · exact hstamp.1 hc
    · exact absurd hc (by decide)
    · exact hsafe.1 hc
  · intro hc
    rcases List.mem_append.mp hc with hc | hc
    rcases List.mem_append.mp hc with hc | hc
    rcases List.mem_append.mp hc with hc | hc
    · exact absurd hc (by decide)
    · exact hstamp.2 hc
    · exact absurd hc (by decide)
    · exact hsafe.2 hc

theorem mkBullet_ne_nil (stamp entry : Str) : mkBullet stamp entry ≠ [] := by
  unfold mkBullet
  simp [str]

theorem trimWs_mkBullet_ne_nil (stamp entry : Str) :
    trimWs (mkBullet stamp entry) ≠ [] := by
  unfold trimWs
  rw [show mkBullet stamp entry =
    '-' :: (str " [" ++ stamp ++ str "] " ++ safeEntry entry) from rfl]
  rw [List.dropWhile_cons_of_neg (by decide)]
  intro hh
  unfold trimEndWs at hh
  rw [List.reverse_eq_nil_iff] at hh
  have hall := List.dropWhile_eq_nil_iff.mp hh
  have hmem : '-' ∈ ('-' :: (str " [" ++ stamp ++ str "] " ++
      safeEntry entry)).reverse := by
    rw [List.mem_reverse]
    exact List.mem_cons_self _ _
  have := hall '-' hmem
  exact absurd this (by decide)

end OrgMcp

namespace OrgMcp

/-- Re-slicing after splicing clean lines (ending in a nonempty line)
into a document's line list recovers exactly the spliced list. -/
theorem sliceLines_spliceInsert (t : Str) (p : Nat) (xs : List Str)
    (hp : p ≤ (sliceLines t).lines.length)
    (hxs : ∀ x ∈ xs, CleanLine x)
    (hxlast : ∃ b, xs.getLast? = some b ∧ b ≠ [])
    (htne : t ≠ []) :
    (sliceLines (joinLines ⟨spliceInsert (sliceLines t).lines p xs,
        (sliceLines t).eol, (sliceLines t).endsNl⟩)).lines =
      spliceInsert (sliceLines t).lines p xs := by
  obtain ⟨b, hb, hbne⟩ := hxlast
  have hxne : xs ≠ [] := by
    intro hh
    rw [hh] at hb
    simp at hb
  apply sliceLines_joinLines_lines
  · exact detectEol_style t
  · intro hh
    have := congrArg List.length hh
    rw [spliceInsert_length _ _ _ hp] at this
    simp only [List.length_nil] at this
    have hxlen : 0 < xs.length := List.length_pos.mpr hxne
    omega
  · intro l hl
    rcases mem_spliceInsert hl with hl | hl
    · exact cleanLine_of_mem_sliceLines hl
    · exact hxs l hl
  · intro hens hlast
    by_cases hcase : p < (sliceLines t).lines.length
    · have hdropne : (sliceLines t).lines.drop p ≠ [] := by
        intro hh
        have := congrArg List.length hh
        simp only [List.length_drop, List.length_nil] at this
        omega
      have hdroplast : ((sliceLines t).lines.drop p).getLast? =
          (sliceLines t).lines.getLast? := by
        rw [List.getLast?_eq_getElem?, List.getLast?_eq_getElem?,
          List.getElem?_drop]
        congr 1
        simp only [List.length_drop]
        omega
      unfold spliceInsert at hlast
      rw [List.getLast?_append, List.getLast?_append] at hlast
      rw [hdroplast] at hlast
      cases hL : (sliceLines t).lines.getLast? with
      | none =>
          rw [List.getLast?_eq_none_iff] at hL
          exact splitOnNl_ne_nil _ hL
      | some v =>
          rw [hL] at hlast
          simp only [Option.or_some] at hlast
          have := getLast_lines_ne_nil htne hens
          rw [hL] at this
          exact this (by simpa using hlast)
    · have hpe : p = (sliceLines t).lines.length := by omega
      have hdropnil : (sliceLines t).lines.drop p = [] := by
        rw [List.drop_eq_nil_iff_le]
        omega
      unfold spliceInsert at hlast
      rw [hdropnil, List.append_nil, List.getLast?_append, hb] at hlast
      simp only [Option.or_some] at hlast
      exact hbne (by simpa using hlast)

end OrgMcp

namespace OrgMcp

/-! ## C8: log entry sanitization and the bullet format -/

theorem t_ne_nil_of_found {t taskId : Str} {allowed : List Str}
    {task : OrgTask} (hfind : findTaskById t taskId allowed = .ok task) :
    t ≠ [] := by
  obtain ⟨hidx, hheading, -, -⟩ := findTaskById_ok_facts hfind
  intro hh
  subst hh
  have h0 : (sliceLines ([] : Str)).lines = [[]] := by decide
  rw [h0] at hidx hheading
  have hidx0 : task.startLine = 0 := by
    simp only [List.length_cons, List.length_nil] at hidx
    omega
  rw [hidx0] at hheading
  exact absurd hheading (by decide)

/-- C8 (counterexample): the claimed sanitization (with no per-line
right-trimming) predicts bullet text "a  b" for the entry "a \nb", but
the code right-trims each line and inserts "a b"; the claimed bullet line
appears nowhere in the output. -/
theorem c8_counterexample :
    appendTaskLog (str "* TODO A\n:PROPERTIES:\n:ID: 1\n:END:\n") (str "1")
        (str "a \nb") (str "TS") DEFAULT_STATES =
      .ok (str "* TODO A\n:PROPERTIES:\n:ID: 1\n:END:\n\n** Log\n\n- [TS] a b") ∧
    sanitizeClaimed (str "a \nb") = str "a  b" ∧
    safeEntry (str "a \nb") = str "a b" ∧
    (str "- [" ++ str "TS" ++ str "] " ++ sanitizeClaimed (str "a \nb")) ∉
      (sliceLines
        (str "* TODO A\n:PROPERTIES:\n:ID: 1\n:END:\n\n** Log\n\n- [TS] a b")).lines ∧
    (str "- [TS] a b") ∈
      (sliceLines
        (str "* TODO A\n:PROPERTIES:\n:ID: 1\n:END:\n\n** Log\n\n- [TS] a b")).lines := by
  refine ⟨by decide, by decide, by decide, by decide, by decide⟩

/-- C8 (amended): the entry is sanitized by normalizing line terminators,
splitting into lines, stripping any leading marker-characters-plus-
whitespace from each line, removing each line's trailing whitespace,
discarding empty lines, rejoining with single spaces and trimming; the
inserted bullet line is exactly `- [<stamp>] <sanitized text>` and appears
verbatim as a line of the resulting document. -/
theorem c8_sanitize_amended (t taskId entry stamp : Str)
    (allowed : List Str) (task : OrgTask)
    (hstamp : CleanLine stamp)
    (hfind : findTaskById t taskId allowed = .ok task) :
    mkBullet stamp entry =
      str "- [" ++ stamp ++ str "] " ++
        trimWs (joinWith [spc]
          (((splitOnNl (normalizeNl entry)).map
              (fun l => trimEndWs (stripHeadingMarkers l))).filter
            (· ≠ []))) ∧
    ∃ out, appendTaskLog t taskId entry stamp allowed = .ok out ∧
      mkBullet stamp entry ∈ (sliceLines out).lines := by
  have htne : t ≠ [] := t_ne_nil_of_found hfind
  have hclean := mkBullet_clean stamp entry hstamp
  refine ⟨rfl, ?_⟩
  obtain ⟨hend, hse⟩ := task_endLine_lt_length hfind
  cases hsub : findSubheadingRange (sliceLines t).lines task logTitle with
  | some lr =>
      have heq := appendTaskLog_eq_existing entry stamp hfind hsub
      obtain ⟨-, -, -, hstop, -, -⟩ := findSubheadingRange_facts hsub
      have hp : lr.stop + 1 ≤ (sliceLines t).lines.length := by omega
      by_cases hcond : trimWs ((sliceLines t).lines.getD lr.stop []) ≠ []
      · rw [if_pos hcond] at heq
        refine ⟨_, heq, ?_⟩
        rw [sliceLines_spliceInsert t (lr.stop + 1)
          [[], mkBullet stamp entry] hp ?_ ?_ htne]
        · unfold spliceInsert
          simp
        · intro x hx
          rcases List.mem_cons.mp hx with hx | hx
          · subst hx; exact ⟨by simp, by simp⟩
          · simp only [List.mem_singleton] at hx
            subst hx; exact hclean
        · exact ⟨mkBullet stamp entry, rfl, mkBullet_ne_nil stamp entry⟩
      · rw [if_neg hcond] at heq
        refine ⟨_, heq, ?_⟩
        rw [sliceLines_spliceInsert t (lr.stop + 1)
          [mkBullet stamp entry] hp ?_ ?_ htne]
        · unfold spliceInsert
          simp
        · intro x hx
          simp only [List.mem_singleton] at hx
          subst hx; exact hclean
        · exact ⟨mkBullet stamp entry, rfl, mkBullet_ne_nil stamp entry⟩
  | none =>
      have heq := appendTaskLog_eq_create entry stamp hfind hsub
      have hp : task.endLine + 1 ≤ (sliceLines t).lines.length := by omega
      refine ⟨_, heq, ?_⟩
      rw [sliceLines_spliceInsert t (task.endLine + 1)
        [List.replicate (task.level + 1) '*' ++ str " Log", [],
          mkBullet stamp entry] hp ?_ ?_ htne]
      · unfold spliceInsert
        simp
      · intro x hx
        rcases List.mem_cons.mp hx with hx | hx
        · subst hx
          constructor
          · intro hc
            rcases List.mem_append.mp hc with hc | hc
            · exact absurd (List.eq_of_mem_replicate hc) (by decide)
            · exact absurd hc (by decide)
          · intro hc
            rcases List.mem_append.mp hc with hc | hc
            · exact absurd (List.eq_of_mem_replicate hc) (by decide)
            · exact absurd hc (by decide)
        · rcases List.mem_cons.mp hx with hx | hx
          · subst hx; exact ⟨by simp, by simp⟩
          · simp only [List.mem_singleton] at hx
            subst hx; exact hclean
      · exact ⟨mkBullet stamp entry, rfl, mkBullet_ne_nil stamp entry⟩

/-- C8 (witness): concrete sanitized bullet on a markered, multi-line
entry. -/
theorem c8_sanitize_amended_witness :
    mkBullet (str "TS") (str "** evil\nline two  ") =
      str "- [" ++ str "TS" ++ str "] " ++
        trimWs (joinWith [spc]
          (((splitOnNl (normalizeNl (str "** evil\nline two  "))).map
              (fun l => trimEndWs (stripHeadingMarkers l))).filter
            (· ≠ []))) ∧
    mkBullet (str "TS") (str "** evil\nline two  ") = str "- [TS] evil line two" ∧
    ∃ out, appendTaskLog (str "* TODO A\n:PROPERTIES:\n:ID: 1\n:END:\n")
        (str "1") (str "** evil\nline two  ") (str "TS") DEFAULT_STATES =
        .ok out ∧
      mkBullet (str "TS") (str "** evil\nline two  ") ∈
        (sliceLines out).lines :=
  ⟨(c8_sanitize_amended (str "* TODO A\n:PROPERTIES:\n:ID: 1\n:END:\n")
      (str "1") (str "** evil\nline two  ") (str "TS") DEFAULT_STATES
      { id := str "1", level := 1, rawHeadingLine := str "* TODO A",
        title := str "A", state := some (str "TODO"),
        properties := [(str "ID", str "1")], startLine := 0, endLine := 4 }
      (by decide) (by decide)).1,
   by decide,
   (c8_sanitize_amended (str "* TODO A\n:PROPERTIES:\n:ID: 1\n:END:\n")
      (str "1") (str "** evil\nline two  ") (str "TS") DEFAULT_STATES
      { id := str "1", level := 1, rawHeadingLine := str "* TODO A",
        title := str "A", state := some (str "TODO"),
        properties := [(str "ID", str "1")], startLine := 0, endLine := 4 }
      (by decide) (by decide)).2⟩

end OrgMcp

namespace OrgMcp

/-! ## Support for C4: boundary scans over spliced line lists -/

theorem boundaryOffset_cons (lvl : Nat) (l : Str) (rest : List Str) :
    boundaryOffset lvl (l :: rest) =
      if isBoundaryFor lvl l then 0 else boundaryOffset lvl rest + 1 := rfl

theorem boundaryOffset_append_of_hit {lvl : Nat} {xs : List Str}
    (ys : List Str) (h : boundaryOffset lvl xs < xs.length) :
    boundaryOffset lvl (xs ++ ys) = boundaryOffset lvl xs := by
  induction xs with
  | nil => simp at h
  | cons l rest ih =>
      rw [boundaryOffset_cons] at h
      rw [List.cons_append, boundaryOffset_cons, boundaryOffset_cons]
      split at h
      next hb => simp [hb]
      next hb =>
          simp only [if_neg hb]
          rw [ih (by simp only [List.length_cons] at h; omega)]

theorem boundaryOffset_append_of_none {lvl : Nat} {xs : List Str}
    (ys : List Str) (h : boundaryOffset lvl xs = xs.length) :
    boundaryOffset lvl (xs ++ ys) = xs.length + boundaryOffset lvl ys := by
  induction xs with
  | nil => simp
  | cons l rest ih =>
      rw [boundaryOffset_cons] at h
      rw [List.cons_append, boundaryOffset_cons]
      split at h
      next hb => simp at h
      next hb =>
          rw [if_neg hb]
          have hr : boundaryOffset lvl rest = rest.length := by
            simp only [List.length_cons] at h
            omega
          rw [ih hr]
          simp only [List.length_cons]
          omega

theorem boundaryOffset_eq_length_of_all {lvl : Nat} {xs : List Str}
    (h : ∀ x ∈ xs, isBoundaryFor lvl x = false) :
    boundaryOffset lvl xs = xs.length := by
  induction xs with
  | nil => rfl
  | cons l rest ih =>
      rw [boundaryOffset_cons]
      rw [if_neg (by rw [h l (by simp)]; simp)]
      rw [ih (fun x hx => h x (List.mem_cons_of_mem l hx))]
      simp

theorem boundaryOffset_lt_of_all {lvl : Nat} {xs : List Str}
    (h : boundaryOffset lvl xs = xs.length)
    {m : Nat} (hm : m < xs.length) :
    isBoundaryFor lvl (xs.getD m []) = false :=
  boundaryOffset_min lvl xs m (h ▸ hm)

theorem findIdx?_eq_some_of {p : Str → Bool} {seg : List Str} {k : Nat}
    (hk : k < seg.length) (hhit : p (seg.getD k []) = true)
    (hmin : ∀ m < k, p (seg.getD m []) = false) :
    seg.findIdx? p = some k := by
  induction seg generalizing k with
  | nil => simp at hk
  | cons x xs ih =>
      rw [List.findIdx?_cons]
      cases k with
      | zero =>
          rw [if_pos (by simpa using hhit)]
      | succ k' =>
          have hx : p x = false := by
            have := hmin 0 (by omega)
            simpa using this
          rw [if_neg (by simp [hx]), List.findIdx?_succ]
          rw [ih (by simpa using hk) (by simpa using hhit)
            (fun m hm => by
              have := hmin (m + 1) (by omega)
              simpa using this)]
          rfl

theorem findIdx?_eq_none_of {p : Str → Bool} {seg : List Str}
    (h : ∀ x ∈ seg, p x = false) : seg.findIdx? p = none := by
  rw [List.findIdx?_eq_none_iff]
  intro x hx
  rw [h x hx]

theorem findIdx?_append_of_none {p : Str → Bool} {xs : List Str}
    (ys : List Str) (h : ∀ x ∈ xs, p x = false) :
    (xs ++ ys).findIdx? p = (ys.findIdx? p).map (xs.length + ·) := by
  induction xs with
  | nil =>
      simp only [List.nil_append, List.length_nil]
      cases h2 : ys.findIdx? p <;> simp
  | cons x rest ih =>
      rw [List.cons_append, List.findIdx?_cons,
        if_neg (by rw [h x (by simp)]; simp), List.findIdx?_succ,
        ih (fun y hy => h y (List.mem_cons_of_mem x hy))]
      cases h2 : ys.findIdx? p with
      | none => simp
      | some v =>
          simp only [Option.map_map, Option.map_some']
          congr 1
          simp only [List.length_cons]
          omega

theorem drawerStep_inert {st : DrawerSt} {b : Str} (h : InertLine b) :
    drawerStep st b = st := by
  obtain ⟨h1, h2, h3⟩ := h
  cases st with
  | searching =>
      rw [show drawerStep .searching b =
        (if trimWs b = pPROPS then DrawerSt.collecting [] else .searching)
        from rfl, if_neg h1]
  | collecting ps =>
      rw [show drawerStep (.collecting ps) b =
        (if trimWs b = pEND then DrawerSt.closed ps
         else match propLineKV (trimWs b) with
              | some kv => DrawerSt.collecting (ps ++ [kv])
              | none => DrawerSt.collecting ps) from rfl, if_neg h2, h3]
  | closed ps => rfl

theorem foldl_drawerStep_inert {B : List Str}
    (h : ∀ b ∈ B, InertLine b) (st : DrawerSt) :
    B.foldl drawerStep st = st := by
  induction B generalizing st with
  | nil => rfl
  | cons b rest ih =>
      rw [List.foldl_cons, drawerStep_inert (h b (by simp))]
      exact ih (fun x hx => h x (List.mem_cons_of_mem b hx)) st

end OrgMcp

namespace OrgMcp

theorem trimWs_cons_of_neg {c : Char} (rest : Str) (hc : isWs c = false) :
    ∃ r', trimWs (c :: rest) = c :: r' := by
  unfold trimWs
  rw [List.dropWhile_cons_of_neg (by simp [hc])]
  unfold trimEndWs
  rw [show (c :: rest).reverse = rest.reverse ++ [c] by simp]
  rw [List.dropWhile_append]
  cases hdw : (List.dropWhile isWs rest.reverse).isEmpty with
  | true =>
      rw [if_pos rfl]
      rw [List.dropWhile_cons_of_neg (by simp [hc])]
      exact ⟨[], by simp⟩
  | false =>
      rw [if_neg (by simp)]
      rw [List.reverse_concat]
      exact ⟨_, rfl⟩

theorem propLineKV_of_head_ne_colon {c : Char} {r : Str} (hc : c ≠ ':') :
    propLineKV (c :: r) = none := by
  unfold propLineKV
  split
  next heq =>
      rw [List.cons.injEq] at heq
      exact absurd heq.1 hc
  next => rfl

theorem isHeadingLine_of_head_ne_star {c : Char} {r : Str} (hc : c ≠ '*') :
    isHeadingLine (c :: r) = false := by
  unfold isHeadingLine
  rw [List.dropWhile_cons_of_neg (by simp [hc]),
    List.takeWhile_cons_of_neg (by simp [hc])]
  simp

theorem inert_of_head {c : Char} (rest : Str) (hws : isWs c = false)
    (hc1 : c ≠ ':') :
    InertLine (c :: rest) := by
  obtain ⟨r', hr'⟩ := trimWs_cons_of_neg rest hws
  refine ⟨?_, ?_, ?_⟩
  · rw [hr']
    intro hh
    rw [show pPROPS = ':' :: str "PROPERTIES:" from rfl,
      List.cons.injEq] at hh
    exact hc1 hh.1
  · rw [hr']
    intro hh
    rw [show pEND = ':' :: str "END:" from rfl, List.cons.injEq] at hh
    exact hc1 hh.1
  · rw [hr']
    exact propLineKV_of_head_ne_colon hc1

theorem inert_nil : InertLine [] := by
  refine ⟨by decide, by decide, by decide⟩

theorem inert_mkBullet (stamp entry : Str) :
    InertLine (mkBullet stamp entry) := by
  rw [show mkBullet stamp entry =
    '-' :: (str " [" ++ stamp ++ str "] " ++ safeEntry entry) from rfl]
  exact inert_of_head _ (by decide) (by decide)

theorem notBoundary_mkBullet (lvl : Nat) (stamp entry : Str) :
    isBoundaryFor lvl (mkBullet stamp entry) = false := by
  unfold isBoundaryFor
  rw [show mkBullet stamp entry =
    '-' :: (str " [" ++ stamp ++ str "] " ++ safeEntry entry) from rfl]
  rw [isHeadingLine_of_head_ne_star (by decide)]
  simp

theorem notBoundary_nil (lvl : Nat) : isBoundaryFor lvl [] = false := rfl

theorem takeWhile_star_replicate (n : Nat) (r : Str) (c : Char)
    (hc : c ≠ '*') :
    (List.replicate n '*' ++ c :: r).takeWhile (· = '*') =
      List.replicate n '*' := by
  induction n with
  | zero =>
      simp only [List.replicate, List.nil_append]
      rw [List.takeWhile_cons_of_neg (by simp [hc])]
  | succ n ih =>
      rw [List.replicate_succ, List.cons_append,
        List.takeWhile_cons_of_pos (by simp), ih]

theorem dropWhile_star_replicate (n : Nat) (r : Str) (c : Char)
    (hc : c ≠ '*') :
    (List.replicate n '*' ++ c :: r).dropWhile (· = '*') = c :: r := by
  induction n with
  | zero =>
      simp only [List.replicate, List.nil_append]
      rw [List.dropWhile_cons_of_neg (by simp [hc])]
  | succ n ih =>
      rw [List.replicate_succ, List.cons_append,
        List.dropWhile_cons_of_pos (by simp), ih]

theorem headingLevel_logHeading (lvl : Nat) :
    headingLevel (List.replicate (lvl + 1) '*' ++ str " Log") = lvl + 1 := by
  unfold headingLevel
  rw [show str " Log" = ' ' :: str "Log" from rfl,
    takeWhile_star_replicate _ _ _ (by decide)]
  simp

theorem isHeadingLine_logHeading (lvl : Nat) :
    isHeadingLine (List.replicate (lvl + 1) '*' ++ str " Log") = true := by
  unfold isHeadingLine
  rw [show str " Log" = ' ' :: str "Log" from rfl,
    takeWhile_star_replicate _ _ _ (by decide),
    dropWhile_star_replicate _ _ _ (by decide)]
  simp [show isWs ' ' = true from rfl]

theorem notBoundary_logHeading {lvl l2 : Nat} (h : l2 < lvl + 1) :
    isBoundaryFor l2 (List.replicate (lvl + 1) '*' ++ str " Log") = false := by
  unfold isBoundaryFor
  rw [headingLevel_logHeading]
  simp
  omega

theorem subheadingHit_logHeading (lvl : Nat) :
    subheadingHit lvl logTitle
      (List.replicate (lvl + 1) '*' ++ str " Log") = true := by
  unfold subheadingHit
  rw [isHeadingLine_logHeading, headingLevel_logHeading]
  unfold stripHeadingMarkers
  rw [isHeadingLine_logHeading]
  simp only [if_pos]
  rw [show str " Log" = ' ' :: str "Log" from rfl,
    dropWhile_star_replicate _ _ _ (by decide)]
  rw [List.dropWhile_cons_of_pos (show isWs ' ' = true from rfl)]
  rw [show (str "Log").dropWhile isWs = str "Log" by decide]
  rw [show trimWs (str "Log") = logTitle by decide]
  simp

theorem inert_logHeading (lvl : Nat) :
    InertLine (List.replicate (lvl + 1) '*' ++ str " Log") := by
  rw [show List.replicate (lvl + 1) '*' ++ str " Log" =
    '*' :: (List.replicate lvl '*' ++ str " Log") by
      rw [List.replicate_succ]; simp]
  exact inert_of_head _ (by decide) (by decide)

end OrgMcp

namespace OrgMcp

theorem drop_spliceInsert_le {L : List Str} {p : Nat} (B : List Str)
    (i1 : Nat) (hp : p ≤ L.length) (hi : i1 ≤ p) :
    (spliceInsert L p B).drop i1 =
      (L.drop i1).take (p - i1) ++ B ++ L.drop p := by
  unfold spliceInsert
  rw [List.append_assoc, List.drop_append_eq_append_drop]
  rw [show i1 - (L.take p).length = 0 by
    simp only [List.length_take]; omega]
  rw [List.drop_zero, List.drop_take]
  simp

theorem drop_eq_take_append {L : List Str} {p i1 : Nat}
    (hp : p ≤ L.length) (hi : i1 ≤ p) :
    L.drop i1 = (L.drop i1).take (p - i1) ++ L.drop p := by
  conv_lhs => rw [← List.take_append_drop (p - i1) (L.drop i1)]
  rw [List.drop_drop]
  congr 2
  omega

/-- `taskAt` written out as a single conditional expression. -/
theorem taskAt_eq (L allowed : List Str) (i : Nat) :
    taskAt L allowed i =
      if isHeadingLine (L.getD i []) then
        (propLookup (parsePropertiesDrawer L (i + 1)
            (rangeEndIdx L i (headingLevel (L.getD i [])))) idKey).bind
          (fun v =>
            if v ≠ [] then
              some { id := v, level := headingLevel (L.getD i []),
                     rawHeadingLine := L.getD i [],
                     title := (parseHeading (L.getD i []) allowed).title,
                     state := (parseHeading (L.getD i []) allowed).state,
                     properties := parsePropertiesDrawer L (i + 1)
                       (rangeEndIdx L i (headingLevel (L.getD i []))),
                     startLine := i,
                     endLine := rangeEndIdx L i (headingLevel (L.getD i [])) }
            else none)
      else none := by
  have hlvl : (parseHeading (L.getD i []) allowed).level =
      headingLevel (L.getD i []) := by
    unfold parseHeading
    dsimp only
    split <;> rfl
  unfold taskAt
  dsimp only
  rw [hlvl]
  by_cases hh : isHeadingLine (L.getD i [])
  · rw [if_pos hh]
    rw [if_pos hh]
    cases propLookup (parsePropertiesDrawer L (i + 1)
        (rangeEndIdx L i (headingLevel (L.getD i [])))) idKey with
    | none => rfl
    | some v => rfl
  · rw [if_neg hh]
    rw [if_neg hh]

/-- Inserting drawer-inert lines at position `p` after a heading low
enough that none of them terminates its range: the heading still yields
the same task, with its end line shifted exactly when the insertion point
lies within or at the end of its range. -/
theorem taskAt_spliceInsert_lt {L allowed : List Str} {p : Nat}
    {B : List Str} (i1 : Nat)
    (hp : p ≤ L.length) (hip : i1 < p)
    (hinert : ∀ b ∈ B, InertLine b)
    (hbd : p ≤ rangeEndIdx L i1 (headingLevel (L.getD i1 [])) + 1 →
      ∀ b ∈ B, isBoundaryFor (headingLevel (L.getD i1 [])) b = false) :
    taskAt (spliceInsert L p B) allowed i1 =
      (taskAt L allowed i1).map (fun tk =>
        { tk with endLine :=
            if p ≤ tk.endLine + 1 then tk.endLine + B.length
            else tk.endLine }) := by
  have hline : (spliceInsert L p B).getD i1 [] = L.getD i1 [] :=
    getD_spliceInsert_before hip hp
  by_cases hh : isHeadingLine (L.getD i1 [])
  swap
  · rw [taskAt_eq, taskAt_eq, hline, if_neg hh]
    rw [if_neg hh]
    rfl
  · have hlvl : headingLevel (L.getD i1 []) = headingLevel (L.getD i1 []) := rfl
    set lvl := headingLevel (L.getD i1 []) with hlv
    set X := (L.drop (i1 + 1)).take (p - (i1 + 1)) with hX
    set Y := L.drop p with hY
    have hXY : L.drop (i1 + 1) = X ++ Y :=
      drop_eq_take_append hp (by omega)
    have hS1 : (spliceInsert L p B).drop (i1 + 1) = X ++ B ++ Y :=
      drop_spliceInsert_le B (i1 + 1) hp (by omega)
    have hXlen : X.length = p - i1 - 1 := by
      rw [hX]
      simp only [List.length_take, List.length_drop]
      omega
    have hbole := boundaryOffset_le_length lvl X
    have he : rangeEndIdx L i1 lvl = i1 + boundaryOffset lvl (X ++ Y) := by
      unfold rangeEndIdx
      rw [hXY]
    have he1 : rangeEndIdx (spliceInsert L p B) i1 lvl =
        i1 + boundaryOffset lvl (X ++ B ++ Y) := by
      unfold rangeEndIdx
      rw [hS1]
    by_cases hcase : boundaryOffset lvl X < X.length
    · -- the range ends strictly before the insertion point
      have heq0 : boundaryOffset lvl (X ++ Y) = boundaryOffset lvl X :=
        boundaryOffset_append_of_hit Y hcase
      have heq1 : boundaryOffset lvl (X ++ B ++ Y) = boundaryOffset lvl X := by
        rw [List.append_assoc]
        exact boundaryOffset_append_of_hit (B ++ Y) hcase
      have hee : rangeEndIdx (spliceInsert L p B) i1 lvl =
          rangeEndIdx L i1 lvl := by
        rw [he, he1, heq0, heq1]
      have hcond : ¬ p ≤ rangeEndIdx L i1 lvl + 1 := by
        rw [he, heq0]
        omega
      have hseg : ((spliceInsert L p B).drop (i1 + 1)).take
          (rangeEndIdx (spliceInsert L p B) i1 lvl - i1) =
          (L.drop (i1 + 1)).take (rangeEndIdx L i1 lvl - i1) := by
        rw [hS1, hXY, hee]
        rw [List.append_assoc, List.take_append_eq_append_take,
          List.take_append_eq_append_take, List.take_append_eq_append_take]
        have hz : rangeEndIdx L i1 lvl - i1 - X.length = 0 := by
          rw [he, heq0]
          omega
        rw [hz]
        simp
      have hdraw : parsePropertiesDrawer (spliceInsert L p B) (i1 + 1)
          (rangeEndIdx (spliceInsert L p B) i1 lvl) =
          parsePropertiesDrawer L (i1 + 1) (rangeEndIdx L i1 lvl) := by
        unfold parsePropertiesDrawer
        rw [show rangeEndIdx (spliceInsert L p B) i1 lvl + 1 - (i1 + 1) =
          rangeEndIdx (spliceInsert L p B) i1 lvl - i1 by omega]
        rw [show rangeEndIdx L i1 lvl + 1 - (i1 + 1) =
          rangeEndIdx L i1 lvl - i1 by omega]
        rw [hseg]
      rw [taskAt_eq, taskAt_eq, hline, ← hlv, hdraw, hee]
      rw [if_pos hh]
      cases hlook : propLookup
          (parsePropertiesDrawer L (i1 + 1) (rangeEndIdx L i1 lvl))
          idKey with
      | none => rfl
      | some v =>
          by_cases hv : v = []
          · simp only [Option.some_bind,
              if_neg (show ¬ v ≠ [] from by simp [hv]), Option.map_none']
          · simp only [Option.some_bind,
              if_pos (show v ≠ [] from hv), Option.map_some']
            congr 1
            rw [OrgTask.mk.injEq]
            refine ⟨rfl, rfl, rfl, rfl, rfl, rfl, rfl, ?_⟩
            rw [if_neg hcond]
    · -- the insertion point lies within or at the end of the range
      have hbX : boundaryOffset lvl X = X.length := by omega
      have heq0 : boundaryOffset lvl (X ++ Y) =
          X.length + boundaryOffset lvl Y :=
        boundaryOffset_append_of_none Y hbX
      have hpe : p ≤ rangeEndIdx L i1 lvl + 1 := by
        rw [he, heq0]
        omega
      have hBno : ∀ b ∈ B, isBoundaryFor lvl b = false := hbd hpe
      have hbB : boundaryOffset lvl B = B.length :=
        boundaryOffset_eq_length_of_all hBno
      have heq1 : boundaryOffset lvl (X ++ B ++ Y) =
          X.length + (B.length + boundaryOffset lvl Y) := by
        rw [List.append_assoc]
        rw [boundaryOffset_append_of_none (B ++ Y) hbX]
        rw [boundaryOffset_append_of_none Y hbB]
      have hee : rangeEndIdx (spliceInsert L p B) i1 lvl =
          rangeEndIdx L i1 lvl + B.length := by
        rw [he, he1, heq0, heq1]
        omega
      have hseg : ((spliceInsert L p B).drop (i1 + 1)).take
          (rangeEndIdx (spliceInsert L p B) i1 lvl - i1) =
          X ++ B ++ Y.take (boundaryOffset lvl Y) := by
        rw [hS1, hee, he, heq0]
        rw [show i1 + (X.length + boundaryOffset lvl Y) + B.length - i1
            = X.length + B.length + boundaryOffset lvl Y by omega]
        rw [List.take_append_eq_append_take]
        rw [List.take_of_length_le (l := X ++ B)
          (by simp only [List.length_append]; omega)]
        rw [show X.length + B.length + boundaryOffset lvl Y
            - (X ++ B).length = boundaryOffset lvl Y by
          simp only [List.length_append]; omega]
      have hseg0 : ((L.drop (i1 + 1)).take (rangeEndIdx L i1 lvl - i1)) =
          X ++ Y.take (boundaryOffset lvl Y) := by
        rw [hXY, he, heq0]
        rw [show i1 + (X.length + boundaryOffset lvl Y) - i1
            = X.length + boundaryOffset lvl Y by omega]
        rw [List.take_append_eq_append_take]
        rw [List.take_of_length_le (l := X) (by omega)]
        rw [show X.length + boundaryOffset lvl Y - X.length
            = boundaryOffset lvl Y by omega]
      have hdraw : parsePropertiesDrawer (spliceInsert L p B) (i1 + 1)
          (rangeEndIdx (spliceInsert L p B) i1 lvl) =
          parsePropertiesDrawer L (i1 + 1) (rangeEndIdx L i1 lvl) := by
        unfold parsePropertiesDrawer
        rw [show rangeEndIdx (spliceInsert L p B) i1 lvl + 1 - (i1 + 1) =
          rangeEndIdx (spliceInsert L p B) i1 lvl - i1 by omega]
        rw [show rangeEndIdx L i1 lvl + 1 - (i1 + 1) =
          rangeEndIdx L i1 lvl - i1 by omega]
        rw [hseg, hseg0]
        rw [List.append_assoc, List.foldl_append, List.foldl_append,
          List.foldl_append]
        rw [foldl_drawerStep_inert hinert]
      rw [taskAt_eq, taskAt_eq, hline, ← hlv, hdraw, hee]
      rw [if_pos hh]
      rw [if_pos hh]
      cases hlook : propLookup
          (parsePropertiesDrawer L (i1 + 1) (rangeEndIdx L i1 lvl))
          idKey with
      | none => rfl
      | some v =>
          by_cases hv : v = []
          · simp only [Option.some_bind,
              if_neg (show ¬ v ≠ [] from by simp [hv]), Option.map_none']
          · simp only [Option.some_bind,
              if_pos (show v ≠ [] from hv), Option.map_some']
            congr 1
            rw [OrgTask.mk.injEq]
            refine ⟨rfl, rfl, rfl, rfl, rfl, rfl, rfl, ?_⟩
            rw [if_pos hpe]

end OrgMcp

namespace OrgMcp

theorem taskAt_fields {L allowed : List Str} {i : Nat} {tk : OrgTask}
    (h : taskAt L allowed i = some tk) :
    tk.startLine = i ∧ tk.level = headingLevel (L.getD i []) ∧
      tk.endLine = rangeEndIdx L i (headingLevel (L.getD i [])) ∧
      isHeadingLine (L.getD i []) = true := by
  obtain ⟨hh, v, hp, hv, htk⟩ := taskAt_eq_some_iff.mp h
  subst htk
  exact ⟨rfl, rfl, rfl, hh⟩

theorem findTaskById_find? {t taskId : Str} {allowed : List Str}
    {task : OrgTask} (h : findTaskById t taskId allowed = .ok task) :
    (parseTasksFromOrg t allowed).find? (fun tk => tk.id = taskId) =
      some task := by
  unfold findTaskById at h
  cases hf : (parseTasksFromOrg t allowed).find?
      (fun tk => tk.id = taskId) with
  | none => rw [hf] at h; exact absurd h (by simp)
  | some tk' =>
      rw [hf] at h
      rw [Except.ok.inj h]

theorem range_split_at (n idx : Nat) (h : idx < n) :
    List.range n = List.range idx ++ idx :: List.range' (idx + 1)
      (n - idx - 1) := by
  rw [List.range_eq_range']
  conv_lhs => rw [show n = (n - idx) + idx by omega,
    ← List.range'_append 0 idx (n - idx) 1]
  rw [show (0 + 1 * idx) = idx by omega]
  conv_lhs => rw [show n - idx = (n - idx - 1) + 1 by omega,
    List.range'_succ]
  rw [← List.range_eq_range']

theorem find?_prefix_none {t taskId : Str} {allowed : List Str}
    {task : OrgTask} (h : findTaskById t taskId allowed = .ok task) :
    ∀ tk ∈ (List.range task.startLine).filterMap
        (taskAt (sliceLines t).lines allowed), tk.id ≠ taskId := by
  have hfq := findTaskById_find? h
  obtain ⟨hlt, hhead, hid, hta⟩ := findTaskById_ok_facts h
  unfold parseTasksFromOrg at hfq
  dsimp only at hfq
  rw [range_split_at _ _ hlt, List.filterMap_append,
    List.find?_append] at hfq
  cases hpre : ((List.range task.startLine).filterMap
      (taskAt (sliceLines t).lines allowed)).find?
      (fun tk => tk.id = taskId) with
  | none =>
      intro tk htk
      have := List.find?_eq_none.mp hpre tk htk
      simpa using this
  | some tk' =>
      rw [hpre] at hfq
      have heq : tk' = task := Option.some.inj hfq
      have hmem : tk' ∈ (List.range task.startLine).filterMap
          (taskAt (sliceLines t).lines allowed) :=
        List.mem_of_find?_eq_some hpre
      obtain ⟨i, hi, hfi⟩ := List.mem_filterMap.mp hmem
      have hs : tk'.startLine = i := taskAt_startLine hfi
      rw [heq] at hs
      rw [hs] at hi
      exact absurd (List.mem_range.mp hi) (by omega)

theorem level_le_of_reach {L allowed : List Str} {task : OrgTask}
    (hta : taskAt L allowed task.startLine = some task)
    {i : Nat} (hi : i ≤ task.startLine)
    (hre : task.startLine ≤ rangeEndIdx L i (headingLevel (L.getD i []))) :
    headingLevel (L.getD i []) ≤ task.level := by
  obtain ⟨hs, hlvl, hend, hhead⟩ := taskAt_fields hta
  rcases Nat.eq_or_lt_of_le hi with heq | hlt
  · rw [heq, ← hlvl]
  · have hm : task.startLine - i - 1 <
        boundaryOffset (headingLevel (L.getD i [])) (L.drop (i + 1)) := by
      unfold rangeEndIdx at hre
      omega
    have hb := boundaryOffset_min (headingLevel (L.getD i []))
      (L.drop (i + 1)) (task.startLine - i - 1) hm
    rw [getD_drop, show i + 1 + (task.startLine - i - 1) = task.startLine by
      omega] at hb
    unfold isBoundaryFor at hb
    rw [hhead, ← hlvl] at hb
    simp only [Bool.true_and, decide_eq_false_iff_not, not_le] at hb
    omega

end OrgMcp

namespace OrgMcp

/-- Re-finding the task after splicing inert, never-range-terminating
lines strictly below its heading: the task is found again with only
its end line shifted. -/
theorem findTaskById_spliceInsert {t taskId : Str} {allowed : List Str}
    {task : OrgTask} {p : Nat} {B : List Str}
    (hfind : findTaskById t taskId allowed = .ok task)
    (hp : p ≤ (sliceLines t).lines.length)
    (hip : task.startLine < p)
    (hinert : ∀ b ∈ B, InertLine b)
    (hclean : ∀ b ∈ B, CleanLine b)
    (hlastB : ∃ b, B.getLast? = some b ∧ b ≠ [])
    (hbd : ∀ lvl ≤ task.level, ∀ b ∈ B, isBoundaryFor lvl b = false) :
    findTaskById (joinLines ⟨spliceInsert (sliceLines t).lines p B,
        (sliceLines t).eol, (sliceLines t).endsNl⟩) taskId allowed =
      .ok { task with endLine := if p ≤ task.endLine + 1
              then task.endLine + B.length else task.endLine } := by
  obtain ⟨hlt, hhead, hid, hta⟩ := findTaskById_ok_facts hfind
  have hpre := find?_prefix_none hfind
  have htne := t_ne_nil_of_found hfind
  have hL1 := sliceLines_spliceInsert t p B hp hclean hlastB htne
  have hstab : ∀ i ≤ task.startLine,
      taskAt (spliceInsert (sliceLines t).lines p B) allowed i =
      (taskAt (sliceLines t).lines allowed i).map (fun tk =>
        { tk with endLine := if p ≤ tk.endLine + 1
            then tk.endLine + B.length else tk.endLine }) := by
    intro i hi
    apply taskAt_spliceInsert_lt i hp (by omega) hinert
    intro hple b hb
    refine hbd _ ?_ b hb
    exact level_le_of_reach hta hi (by omega)
  have hmid : taskAt (spliceInsert (sliceLines t).lines p B) allowed
      task.startLine = some { task with endLine :=
        if p ≤ task.endLine + 1 then task.endLine + B.length
        else task.endLine } := by
    rw [hstab task.startLine (le_refl _), hta, Option.map_some']
  have hfq : (parseTasksFromOrg (joinLines
      ⟨spliceInsert (sliceLines t).lines p B,
        (sliceLines t).eol, (sliceLines t).endsNl⟩) allowed).find?
      (fun tk => tk.id = taskId) =
      some { task with endLine := if p ≤ task.endLine + 1
        then task.endLine + B.length else task.endLine } := by
    unfold parseTasksFromOrg
    dsimp only
    rw [hL1]
    rw [spliceInsert_length _ _ _ hp]
    rw [range_split_at _ task.startLine (by omega)]
    rw [List.filterMap_append, List.find?_append]
    have hpfx : ((List.range task.startLine).filterMap
        (taskAt (spliceInsert (sliceLines t).lines p B) allowed)).find?
        (fun tk => tk.id = taskId) = none := by
      rw [List.find?_eq_none]
      intro x hx
      obtain ⟨i, hi, hfi⟩ := List.mem_filterMap.mp hx
      rw [hstab i (le_of_lt (List.mem_range.mp hi))] at hfi
      obtain ⟨tk, htk, hxeq⟩ := Option.map_eq_some'.mp hfi
      have hmem : tk ∈ (List.range task.startLine).filterMap
          (taskAt (sliceLines t).lines allowed) :=
        List.mem_filterMap.mpr ⟨i, hi, htk⟩
      have hne := hpre tk hmem
      rw [← hxeq]
      simp only [decide_eq_true_eq]
      exact hne
    rw [hpfx, Option.none_or]
    rw [List.filterMap_cons_some hmid]
    apply List.find?_cons_of_pos
    simp only [decide_eq_true_eq]
    exact hid
  unfold findTaskById
  rw [hfq]

end OrgMcp

namespace OrgMcp

theorem getD_take_of_lt (M : List Str) {m T : Nat} (h : m < T) :
    (M.take T).getD m [] = M.getD m [] := by
  rw [List.getD_eq_getElem?_getD, List.getD_eq_getElem?_getD,
    List.getElem?_take_of_lt h]

theorem getD_append_left {M : List Str} (N : List Str) {m : Nat}
    (h : m < M.length) :
    (M ++ N).getD m [] = M.getD m [] := by
  rw [List.getD_eq_getElem?_getD, List.getD_eq_getElem?_getD,
    List.getElem?_append_left h]

theorem findSubheadingRange_eq_of_findIdx {L : List Str} {task : OrgTask}
    {name : Str} {k : Nat}
    (h : ((L.drop (task.startLine + 1)).take
        (task.endLine - task.startLine)).findIdx?
      (subheadingHit task.level name) = some k) :
    findSubheadingRange L task name =
      some { start := task.startLine + 1 + k,
             stop := task.startLine + 1 + k +
               boundaryOffset (task.level + 1)
                 ((L.drop (task.startLine + 1 + k + 1)).take
                   (task.endLine - (task.startLine + 1 + k))),
             level := task.level + 1 } := by
  unfold findSubheadingRange
  dsimp only
  rw [h]

theorem findSubheadingRange_none_findIdx {L : List Str} {task : OrgTask}
    {name : Str}
    (h : findSubheadingRange L task name = none) :
    ((L.drop (task.startLine + 1)).take
        (task.endLine - task.startLine)).findIdx?
      (subheadingHit task.level name) = none := by
  unfold findSubheadingRange at h
  dsimp only at h
  cases hf : ((L.drop (task.startLine + 1)).take
      (task.endLine - task.startLine)).findIdx?
      (subheadingHit task.level name) with
  | none => rfl
  | some k =>
      rw [hf] at h
      exact absurd h (by simp)

theorem findSubheadingRange_some_findIdx {L : List Str} {task : OrgTask}
    {name : Str} {lr : SubRange}
    (h : findSubheadingRange L task name = some lr) :
    ∃ k, ((L.drop (task.startLine + 1)).take
        (task.endLine - task.startLine)).findIdx?
      (subheadingHit task.level name) = some k ∧
      lr = { start := task.startLine + 1 + k,
             stop := task.startLine + 1 + k +
               boundaryOffset (task.level + 1)
                 ((L.drop (task.startLine + 1 + k + 1)).take
                   (task.endLine - (task.startLine + 1 + k))),
             level := task.level + 1 } := by
  unfold findSubheadingRange at h
  dsimp only at h
  cases hf : ((L.drop (task.startLine + 1)).take
      (task.endLine - task.startLine)).findIdx?
      (subheadingHit task.level name) with
  | none =>
      rw [hf] at h
      exact absurd h (by simp)
  | some k =>
      rw [hf] at h
      exact ⟨k, rfl, (Option.some.inj h).symm⟩

end OrgMcp

namespace OrgMcp

/-- After the first call creates the Log section at the end of the
task's range, re-searching the reparsed task finds exactly the created
heading with its blank line and bullet as its range. -/
theorem findSub_after_create {L : List Str} {task : OrgTask}
    (stamp entry : Str)
    (hn : task.endLine < L.length) (hidx : task.startLine ≤ task.endLine)
    (hsub : findSubheadingRange L task logTitle = none) :
    findSubheadingRange
        (spliceInsert L (task.endLine + 1)
          [List.replicate (task.level + 1) '*' ++ str " Log", [],
           mkBullet stamp entry])
        { task with endLine := task.endLine + 3 } logTitle =
      some { start := task.endLine + 1, stop := task.endLine + 3,
             level := task.level + 1 } := by
  have hf0 := findSubheadingRange_none_findIdx hsub
  have hall := List.findIdx?_eq_none_iff.mp hf0
  have hp : task.endLine + 1 ≤ L.length := by omega
  have hdrop : (spliceInsert L (task.endLine + 1)
        [List.replicate (task.level + 1) '*' ++ str " Log", [],
         mkBullet stamp entry]).drop (task.startLine + 1) =
      (L.drop (task.startLine + 1)).take (task.endLine - task.startLine) ++
        [List.replicate (task.level + 1) '*' ++ str " Log", [],
         mkBullet stamp entry] ++ L.drop (task.endLine + 1) := by
    rw [drop_spliceInsert_le _ _ hp (by omega)]
    rw [show task.endLine + 1 - (task.startLine + 1) =
      task.endLine - task.startLine by omega]
  have hslen : ((L.drop (task.startLine + 1)).take
      (task.endLine - task.startLine)).length =
      task.endLine - task.startLine := by
    simp only [List.length_take, List.length_drop]
    omega
  have hseg : ((spliceInsert L (task.endLine + 1)
        [List.replicate (task.level + 1) '*' ++ str " Log", [],
         mkBullet stamp entry]).drop (task.startLine + 1)).take
        (task.endLine + 3 - task.startLine) =
      (L.drop (task.startLine + 1)).take (task.endLine - task.startLine) ++
        [List.replicate (task.level + 1) '*' ++ str " Log", [],
         mkBullet stamp entry] := by
    rw [hdrop]
    rw [List.take_append_eq_append_take]
    rw [List.take_of_length_le (by
      simp only [List.length_append, List.length_cons, List.length_nil,
        hslen]
      omega)]
    rw [show task.endLine + 3 - task.startLine -
      ((L.drop (task.startLine + 1)).take (task.endLine - task.startLine) ++
        [List.replicate (task.level + 1) '*' ++ str " Log", [],
         mkBullet stamp entry]).length = 0 by
      simp only [List.length_append, List.length_cons, List.length_nil,
        hslen]
      omega]
    rw [List.take_zero, List.append_nil]
  have hfidx : (((spliceInsert L (task.endLine + 1)
        [List.replicate (task.level + 1) '*' ++ str " Log", [],
         mkBullet stamp entry]).drop (task.startLine + 1)).take
        (task.endLine + 3 - task.startLine)).findIdx?
        (subheadingHit task.level logTitle) =
      some (task.endLine - task.startLine) := by
    rw [hseg]
    rw [findIdx?_append_of_none _ hall]
    rw [List.findIdx?_cons, if_pos (subheadingHit_logHeading task.level)]
    rw [Option.map_some', hslen, Nat.add_zero]
  have hres := @findSubheadingRange_eq_of_findIdx
    (spliceInsert L (task.endLine + 1)
      [List.replicate (task.level + 1) '*' ++ str " Log", [],
       mkBullet stamp entry])
    { task with endLine := task.endLine + 3 } logTitle
    (task.endLine - task.startLine) hfidx
  rw [hres]
  dsimp only
  have hstart : task.startLine + 1 + (task.endLine - task.startLine) =
      task.endLine + 1 := by omega
  have hinner : ((spliceInsert L (task.endLine + 1)
        [List.replicate (task.level + 1) '*' ++ str " Log", [],
         mkBullet stamp entry]).drop
          (task.startLine + 1 + (task.endLine - task.startLine) + 1)).take
        (task.endLine + 3 -
          (task.startLine + 1 + (task.endLine - task.startLine))) =
      [[], mkBullet stamp entry] := by
    rw [hstart]
    rw [show task.endLine + 3 - (task.endLine + 1) = 2 by omega]
    unfold spliceInsert
    rw [List.drop_append_eq_append_drop]
    rw [List.drop_append_eq_append_drop]
    rw [List.drop_of_length_le (l := L.take (task.endLine + 1))
      (by simp only [List.length_take]; omega)]
    rw [show task.endLine + 1 + 1 - (L.take (task.endLine + 1)).length = 1
      by simp only [List.length_take]; omega]
    rw [show (([List.replicate (task.level + 1) '*' ++ str " Log", [],
      mkBullet stamp entry] : List Str).drop 1) = [[], mkBullet stamp entry]
      from rfl]
    rw [show task.endLine + 1 + 1 -
      (L.take (task.endLine + 1) ++
        [List.replicate (task.level + 1) '*' ++ str " Log", [],
         mkBullet stamp entry]).length = 0 by
      simp only [List.length_append, List.length_take, List.length_cons,
        List.length_nil]
      omega]
    rw [List.drop_zero, List.nil_append]
    rw [List.take_append_eq_append_take]
    rw [List.take_of_length_le (l := ([[], mkBullet stamp entry] : List Str))
      (by simp)]
    rw [show (2 : Nat) - ([[], mkBullet stamp entry] : List Str).length = 0
      by simp]
    simp
  rw [hinner]
  rw [show boundaryOffset (task.level + 1) [[], mkBullet stamp entry] = 2 by
    rw [show ([[], mkBullet stamp entry] : List Str) =
      [] :: mkBullet stamp entry :: [] from rfl]
    rw [boundaryOffset_cons, if_neg (by rw [notBoundary_nil]; simp)]
    rw [boundaryOffset_cons,
      if_neg (by rw [notBoundary_mkBullet]; simp)]
    rfl]
  rw [hstart]

end OrgMcp

namespace OrgMcp

/-- After inserting non-boundary lines just past an existing Log
subsection's range, re-searching the reparsed task finds the same
subsection with its range extended by the inserted lines. -/
theorem findSub_after_insert {L : List Str} {task : OrgTask}
    {lr : SubRange} {B1 : List Str}
    (hn : task.endLine < L.length) (hidx : task.startLine ≤ task.endLine)
    (hsub : findSubheadingRange L task logTitle = some lr)
    (hB1 : ∀ b ∈ B1, isBoundaryFor (task.level + 1) b = false) :
    findSubheadingRange (spliceInsert L (lr.stop + 1) B1)
        { task with endLine := task.endLine + B1.length } logTitle =
      some { start := lr.start, stop := lr.stop + B1.length,
             level := task.level + 1 } := by
  obtain ⟨k0, hf0, hlr⟩ := findSubheadingRange_some_findIdx hsub
  obtain ⟨hk0, hhit0, hmin0⟩ := findIdx?_spec hf0
  subst hlr
  dsimp only
  set s := task.startLine + 1 + k0 with hs
  set inner0 := (L.drop (s + 1)).take (task.endLine - s) with hin0
  set d := boundaryOffset (task.level + 1) inner0 with hd
  set m := B1.length with hm
  set q := s + d + 1 with hqd
  have hk0' : k0 < task.endLine - task.startLine := by
    have := hk0
    simp only [List.length_take, List.length_drop] at this
    omega
  have hdle : d ≤ task.endLine - s := by
    have h1 := boundaryOffset_le_length (task.level + 1) inner0
    have h2 : inner0.length ≤ task.endLine - s := by
      rw [hin0]
      simp only [List.length_take, List.length_drop]
      omega
    omega
  have hql : q ≤ L.length := by omega
  have hsplen : (spliceInsert L q B1).length = L.length + m :=
    spliceInsert_length _ _ _ hql
  have hseg0getD : ∀ j, j < task.endLine - task.startLine →
      ((L.drop (task.startLine + 1)).take
        (task.endLine - task.startLine)).getD j [] =
      L.getD (task.startLine + 1 + j) [] := by
    intro j hj
    rw [getD_take_of_lt _ hj, getD_drop]
  have hVlen : ((L.drop (s + 1)).take d).length = d := by
    simp only [List.length_take, List.length_drop]
    omega
  have hfidx1 : (((spliceInsert L q B1).drop (task.startLine + 1)).take
      (task.endLine + m - task.startLine)).findIdx?
      (subheadingHit task.level logTitle) = some k0 := by
    apply findIdx?_eq_some_of
    · simp only [List.length_take, List.length_drop, hsplen]
      omega
    · rw [getD_take_of_lt _ (by omega), getD_drop]
      rw [getD_spliceInsert_before (by omega) hql]
      have hh := hhit0
      rw [hseg0getD k0 hk0'] at hh
      exact hh
    · intro j hj
      rw [getD_take_of_lt _ (by omega), getD_drop]
      rw [getD_spliceInsert_before (by omega) hql]
      have hh := hmin0 j hj
      rw [hseg0getD j (by omega)] at hh
      exact hh
  have hres := @findSubheadingRange_eq_of_findIdx (spliceInsert L q B1)
    { task with endLine := task.endLine + m } logTitle k0 hfidx1
  rw [hres]
  dsimp only
  rw [← hs]
  have hsplit : inner0 = (L.drop (s + 1)).take d ++
      (L.drop q).take (task.endLine - s - d) := by
    rw [hin0]
    rw [show task.endLine - s = d + (task.endLine - s - d) by omega]
    rw [List.take_add]
    rw [List.drop_drop]
    rw [show s + 1 + d = q by omega]
    rw [show d + (task.endLine - s - d) - d = task.endLine - s - d by omega]
  have hVall : ∀ x ∈ (L.drop (s + 1)).take d,
      isBoundaryFor (task.level + 1) x = false := by
    intro x hx
    obtain ⟨j, hj, hxe⟩ := List.getElem_of_mem hx
    have hjd : j < d := by
      have := hj
      simp only [List.length_take, List.length_drop] at this
      omega
    have hmn := boundaryOffset_min (task.level + 1) inner0 j (by omega)
    rw [hsplit] at hmn
    rw [getD_append_left _ (by rw [hVlen]; omega)] at hmn
    rw [getD_eq_getElem_of_lt _ _ hj] at hmn
    rw [← hxe]
    exact hmn
  have hboV : boundaryOffset (task.level + 1) ((L.drop (s + 1)).take d)
      = d := by
    rw [boundaryOffset_eq_length_of_all hVall, hVlen]
  have hboZ : boundaryOffset (task.level + 1)
      ((L.drop q).take (task.endLine - s - d)) = 0 := by
    have h1 : boundaryOffset (task.level + 1) inner0 = d := hd.symm
    rw [hsplit] at h1
    rw [boundaryOffset_append_of_none _ (by rw [hboV, hVlen])] at h1
    rw [hVlen] at h1
    omega
  have hinner1 : ((spliceInsert L q B1).drop (s + 1)).take
      (task.endLine + m - s) =
      (L.drop (s + 1)).take d ++ B1 ++
        (L.drop q).take (task.endLine - s - d) := by
    rw [drop_spliceInsert_le B1 (s + 1) hql (by omega)]
    rw [show q - (s + 1) = d by omega]
    rw [List.take_append_eq_append_take]
    rw [List.take_of_length_le (by
      simp only [List.length_append, hVlen, ← hm]
      omega)]
    rw [show task.endLine + m - s -
      ((L.drop (s + 1)).take d ++ B1).length = task.endLine - s - d by
      simp only [List.length_append, hVlen, ← hm]
      omega]
  rw [hinner1]
  rw [List.append_assoc]
  rw [boundaryOffset_append_of_none _ (by rw [hboV, hVlen])]
  rw [boundaryOffset_append_of_none _
    (boundaryOffset_eq_length_of_all hB1)]
  rw [hboZ, hVlen, ← hm]
  rw [show s + (d + (m + 0)) = s + d + m by omega]

end OrgMcp

namespace OrgMcp

theorem cleanLine_logHeading (lvl : Nat) :
    CleanLine (List.replicate (lvl + 1) '*' ++ str " Log") := by
  constructor
  · intro hc
    rcases List.mem_append.mp hc with hc | hc
    · exact absurd (List.eq_of_mem_replicate hc) (by decide)
    · exact absurd hc (by decide)
  · intro hc
    rcases List.mem_append.mp hc with hc | hc
    · exact absurd (List.eq_of_mem_replicate hc) (by decide)
    · exact absurd hc (by decide)

theorem notHit_of_not_heading {lvl : Nat} {name l : Str}
    (h : isHeadingLine l = false) : subheadingHit lvl name l = false := by
  unfold subheadingHit
  rw [h]
  simp

theorem notHit_nil (lvl : Nat) (name : Str) :
    subheadingHit lvl name [] = false :=
  notHit_of_not_heading rfl

theorem notHit_mkBullet (lvl : Nat) (name stamp entry : Str) :
    subheadingHit lvl name (mkBullet stamp entry) = false :=
  notHit_of_not_heading (by
    rw [show mkBullet stamp entry =
      '-' :: (str " [" ++ stamp ++ str "] " ++ safeEntry entry) from rfl]
    exact isHeadingLine_of_head_ne_star (by decide))

/-- The task segment after splicing a block at the very end of the
task's range: the old segment followed by the block. -/
theorem seg_spliceInsert_at_end {L : List Str} {i1 e0 : Nat} (B : List Str)
    (hn : e0 < L.length) (hi : i1 ≤ e0) :
    ((spliceInsert L (e0 + 1) B).drop (i1 + 1)).take (e0 + B.length - i1) =
      (L.drop (i1 + 1)).take (e0 - i1) ++ B := by
  rw [drop_spliceInsert_le B (i1 + 1) (by omega) (by omega)]
  rw [show e0 + 1 - (i1 + 1) = e0 - i1 by omega]
  have hlen : ((L.drop (i1 + 1)).take (e0 - i1)).length = e0 - i1 := by
    simp only [List.length_take, List.length_drop]
    omega
  rw [List.take_append_eq_append_take]
  rw [List.take_of_length_le (by
    simp only [List.length_append, hlen]
    omega)]
  rw [show e0 + B.length - i1 -
    ((L.drop (i1 + 1)).take (e0 - i1) ++ B).length = 0 by
    simp only [List.length_append, hlen]
    omega]
  rw [List.take_zero, List.append_nil]

/-- The task segment after splicing a block inside the task's range,
at position `q`: old prefix, block, old suffix. -/
theorem seg_spliceInsert_inside {L : List Str} {i1 e0 q : Nat}
    (B : List Str) (hn : e0 < L.length) (hi : i1 < q) (hq : q ≤ e0 + 1) :
    ((spliceInsert L q B).drop (i1 + 1)).take (e0 + B.length - i1) =
      (L.drop (i1 + 1)).take (q - i1 - 1) ++ B ++
        (L.drop q).take (e0 + 1 - q) := by
  rw [drop_spliceInsert_le B (i1 + 1) (by omega) (by omega)]
  rw [show q - (i1 + 1) = q - i1 - 1 by omega]
  have hlen : ((L.drop (i1 + 1)).take (q - i1 - 1)).length = q - i1 - 1 := by
    simp only [List.length_take, List.length_drop]
    omega
  rw [List.take_append_eq_append_take]
  rw [List.take_of_length_le (by
    simp only [List.length_append, hlen]
    omega)]
  rw [show e0 + B.length - i1 -
    ((L.drop (i1 + 1)).take (q - i1 - 1) ++ B).length = e0 + 1 - q by
    simp only [List.length_append, hlen]
    omega]

/-- Splitting the old task segment at an interior position. -/
theorem seg_split_at {L : List Str} {i1 e0 q : Nat}
    (hi : i1 < q) (hq : q ≤ e0 + 1) :
    (L.drop (i1 + 1)).take (e0 - i1) =
      (L.drop (i1 + 1)).take (q - i1 - 1) ++
        (L.drop q).take (e0 + 1 - q) := by
  rw [show e0 - i1 = (q - i1 - 1) + (e0 + 1 - q) by omega]
  rw [List.take_add]
  rw [List.drop_drop]
  rw [show i1 + 1 + (q - i1 - 1) = q by omega]

end OrgMcp

namespace OrgMcp

/-- C4: for every document containing a task with the given id (and
terminator-free timestamp strings), calling `appendTaskLog` twice appends
exactly the two bullet lines in call order, both after any pre-existing
content of the Log subsection, under a single Log heading whose count in
the task's segment does not grow from the first to the second call; when
no Log subsection exists the first call creates one heading line with
task-depth+1 markers followed by one blank line at the end of the task's
range and then the bullet; and a blank separator precedes each bullet
whose insertion point follows a non-blank line (in particular the second
bullet, which lands right after the first). -/
theorem c4_append_log_twice (t taskId e1 e2 s1 s2 : Str)
    (allowed : List Str) (task : OrgTask)
    (hs1 : CleanLine s1) (hs2 : CleanLine s2)
    (hfind : findTaskById t taskId allowed = .ok task) :
    ∃ out1 out2 : Str,
      appendTaskLog t taskId e1 s1 allowed = .ok out1 ∧
      appendTaskLog out1 taskId e2 s2 allowed = .ok out2 ∧
      (findSubheadingRange (sliceLines t).lines task logTitle = none →
        (sliceLines out1).lines =
          spliceInsert (sliceLines t).lines (task.endLine + 1)
            [List.replicate (task.level + 1) '*' ++ str " Log", [],
             mkBullet s1 e1] ∧
        (sliceLines out2).lines =
          spliceInsert (sliceLines t).lines (task.endLine + 1)
            [List.replicate (task.level + 1) '*' ++ str " Log", [],
             mkBullet s1 e1, [], mkBullet s2 e2] ∧
        (sliceLines out2).lines.getD (task.endLine + 1) [] =
          List.replicate (task.level + 1) '*' ++ str " Log" ∧
        (sliceLines out2).lines.getD (task.endLine + 2) [] = [] ∧
        (sliceLines out2).lines.getD (task.endLine + 3) [] =
          mkBullet s1 e1 ∧
        (sliceLines out2).lines.getD (task.endLine + 4) [] = [] ∧
        (sliceLines out2).lines.getD (task.endLine + 5) [] =
          mkBullet s2 e2 ∧
        (((sliceLines out2).lines.drop (task.startLine + 1)).take
            (task.endLine + 5 - task.startLine)).countP
          (subheadingHit task.level logTitle) = 1) ∧
      (∀ lr, findSubheadingRange (sliceLines t).lines task logTitle =
          some lr →
        ∃ B1 : List Str,
          B1 = (if trimWs ((sliceLines t).lines.getD lr.stop []) ≠ []
            then [[], mkBullet s1 e1] else [mkBullet s1 e1]) ∧
          (sliceLines out1).lines =
            spliceInsert (sliceLines t).lines (lr.stop + 1) B1 ∧
          (sliceLines out2).lines =
            spliceInsert (sliceLines t).lines (lr.stop + 1)
              (B1 ++ [[], mkBullet s2 e2]) ∧
          (sliceLines out2).lines.getD (lr.stop + B1.length) [] =
            mkBullet s1 e1 ∧
          (sliceLines out2).lines.getD (lr.stop + B1.length + 1) [] = [] ∧
          (sliceLines out2).lines.getD (lr.stop + B1.length + 2) [] =
            mkBullet s2 e2 ∧
          (((sliceLines out2).lines.drop (task.startLine + 1)).take
              (task.endLine + B1.length + 2 - task.startLine)).countP
            (subheadingHit task.level logTitle) =
          (((sliceLines t).lines.drop (task.startLine + 1)).take
              (task.endLine - task.startLine)).countP
            (subheadingHit task.level logTitle)) := by
  obtain ⟨hend, hse⟩ := task_endLine_lt_length hfind
  have htne := t_ne_nil_of_found hfind
  cases hsub : findSubheadingRange (sliceLines t).lines task logTitle with
  | none =>
      have hout1 := appendTaskLog_eq_create e1 s1 hfind hsub
      have hp1 : task.endLine + 1 ≤ (sliceLines t).lines.length := by omega
      have hcleanB : ∀ b ∈ ([List.replicate (task.level + 1) '*' ++
          str " Log", [], mkBullet s1 e1] : List Str),
          CleanLine b := by
        intro b hb
        simp only [List.mem_cons, List.not_mem_nil, or_false] at hb
        rcases hb with rfl | rfl | rfl
        · exact cleanLine_logHeading task.level
        · exact ⟨by simp, by simp⟩
        · exact mkBullet_clean s1 e1 hs1
      have hlastB : ∃ b, ([List.replicate (task.level + 1) '*' ++
          str " Log", [], mkBullet s1 e1] : List Str).getLast? =
          some b ∧ b ≠ [] :=
        ⟨mkBullet s1 e1, rfl, mkBullet_ne_nil s1 e1⟩
      have hinertB : ∀ b ∈ ([List.replicate (task.level + 1) '*' ++
          str " Log", [], mkBullet s1 e1] : List Str), InertLine b := by
        intro b hb
        simp only [List.mem_cons, List.not_mem_nil, or_false] at hb
        rcases hb with rfl | rfl | rfl
        · exact inert_logHeading task.level
        · exact inert_nil
        · exact inert_mkBullet s1 e1
      have hbdB : ∀ lvl ≤ task.level,
          ∀ b ∈ ([List.replicate (task.level + 1) '*' ++ str " Log", [],
            mkBullet s1 e1] : List Str), isBoundaryFor lvl b = false := by
        intro lvl hlvl b hb
        simp only [List.mem_cons, List.not_mem_nil, or_false] at hb
        rcases hb with rfl | rfl | rfl
        · exact notBoundary_logHeading (by omega)
        · exact notBoundary_nil lvl
        · exact notBoundary_mkBullet lvl s1 e1
      have hL1 := sliceLines_spliceInsert t (task.endLine + 1)
        [List.replicate (task.level + 1) '*' ++ str " Log", [],
         mkBullet s1 e1] hp1 hcleanB hlastB htne
      have hfind1 := findTaskById_spliceInsert hfind hp1 (by omega)
        hinertB hcleanB hlastB hbdB
      rw [if_pos (Nat.le_refl (task.endLine + 1))] at hfind1
      have hfind1' : findTaskById (joinLines
          ⟨spliceInsert (sliceLines t).lines (task.endLine + 1)
            [List.replicate (task.level + 1) '*' ++ str " Log", [],
             mkBullet s1 e1],
           (sliceLines t).eol, (sliceLines t).endsNl⟩) taskId allowed =
          .ok { task with endLine := task.endLine + 3 } := hfind1
      have hsub1 : findSubheadingRange (sliceLines (joinLines
          ⟨spliceInsert (sliceLines t).lines (task.endLine + 1)
            [List.replicate (task.level + 1) '*' ++ str " Log", [],
             mkBullet s1 e1],
           (sliceLines t).eol, (sliceLines t).endsNl⟩)).lines
          { task with endLine := task.endLine + 3 } logTitle =
          some ⟨task.endLine + 1, task.endLine + 3, task.level + 1⟩ := by
        rw [hL1]
        exact findSub_after_create s1 e1 hend hse hsub
      have hout2 := appendTaskLog_eq_existing e2 s2 hfind1' hsub1
      dsimp only at hout2
      have hbefore : (sliceLines (joinLines
          ⟨spliceInsert (sliceLines t).lines (task.endLine + 1)
            [List.replicate (task.level + 1) '*' ++ str " Log", [],
             mkBullet s1 e1],
           (sliceLines t).eol, (sliceLines t).endsNl⟩)).lines.getD
          (task.endLine + 3) [] = mkBullet s1 e1 := by
        rw [hL1]
        exact getD_spliceInsert_inside (k := 2) (by simp) hp1
      rw [hbefore, if_pos (trimWs_mkBullet_ne_nil s1 e1)] at hout2
      have hp2 : task.endLine + 3 + 1 ≤ (sliceLines (joinLines
          ⟨spliceInsert (sliceLines t).lines (task.endLine + 1)
            [List.replicate (task.level + 1) '*' ++ str " Log", [],
             mkBullet s1 e1],
           (sliceLines t).eol, (sliceLines t).endsNl⟩)).lines.length := by
        rw [hL1, spliceInsert_length _ _ _ hp1]
        simp only [List.length_cons, List.length_nil]
        omega
      have hcleanB2 : ∀ b ∈ ([[], mkBullet s2 e2] : List Str),
          CleanLine b := by
        intro b hb
        simp only [List.mem_cons, List.not_mem_nil, or_false] at hb
        rcases hb with rfl | rfl
        · exact ⟨by simp, by simp⟩
        · exact mkBullet_clean s2 e2 hs2
      have hlastB2 : ∃ b, ([[], mkBullet s2 e2] : List Str).getLast? =
          some b ∧ b ≠ [] := ⟨mkBullet s2 e2, rfl, mkBullet_ne_nil s2 e2⟩
      have hL2 := sliceLines_spliceInsert (joinLines
          ⟨spliceInsert (sliceLines t).lines (task.endLine + 1)
            [List.replicate (task.level + 1) '*' ++ str " Log", [],
             mkBullet s1 e1],
           (sliceLines t).eol, (sliceLines t).endsNl⟩)
        (task.endLine + 3 + 1) [[], mkBullet s2 e2] hp2 hcleanB2 hlastB2
        (t_ne_nil_of_found hfind1')
      have hfinal : (sliceLines (joinLines
          ⟨spliceInsert (sliceLines (joinLines
              ⟨spliceInsert (sliceLines t).lines (task.endLine + 1)
                [List.replicate (task.level + 1) '*' ++ str " Log", [],
                 mkBullet s1 e1],
               (sliceLines t).eol, (sliceLines t).endsNl⟩)).lines
            (task.endLine + 3 + 1) [[], mkBullet s2 e2],
           (sliceLines (joinLines
              ⟨spliceInsert (sliceLines t).lines (task.endLine + 1)
                [List.replicate (task.level + 1) '*' ++ str " Log", [],
                 mkBullet s1 e1],
               (sliceLines t).eol, (sliceLines t).endsNl⟩)).eol,
           (sliceLines (joinLines
              ⟨spliceInsert (sliceLines t).lines (task.endLine + 1)
                [List.replicate (task.level + 1) '*' ++ str " Log", [],
                 mkBullet s1 e1],
               (sliceLines t).eol, (sliceLines t).endsNl⟩)).endsNl⟩)).lines
          = spliceInsert (sliceLines t).lines (task.endLine + 1)
            [List.replicate (task.level + 1) '*' ++ str " Log", [],
             mkBullet s1 e1, [], mkBullet s2 e2] := by
        rw [hL2, hL1]
        rw [show task.endLine + 3 + 1 = task.endLine + 1 +
          ([List.replicate (task.level + 1) '*' ++ str " Log", [],
            mkBullet s1 e1] : List Str).length by simp]
        rw [spliceInsert_merge _ _ _ _ hp1]
        rfl
      refine ⟨_, _, hout1, hout2, ?_, ?_⟩
      · intro _
        refine ⟨hL1, hfinal, ?_, ?_, ?_, ?_, ?_, ?_⟩
        · rw [hfinal]
          exact getD_spliceInsert_inside (k := 0) (by simp) hp1
        · rw [hfinal]
          exact getD_spliceInsert_inside (k := 1) (by simp) hp1
        · rw [hfinal]
          exact getD_spliceInsert_inside (k := 2) (by simp) hp1
        · rw [hfinal]
          exact getD_spliceInsert_inside (k := 3) (by simp) hp1
        · rw [hfinal]
          exact getD_spliceInsert_inside (k := 4) (by simp) hp1
        · have hall := List.findIdx?_eq_none_iff.mp
            (findSubheadingRange_none_findIdx hsub)
          have hseg5 : ((spliceInsert (sliceLines t).lines
              (task.endLine + 1)
              [List.replicate (task.level + 1) '*' ++ str " Log", [],
               mkBullet s1 e1, [], mkBullet s2 e2]).drop
                (task.startLine + 1)).take
              (task.endLine + 5 - task.startLine) =
              ((sliceLines t).lines.drop (task.startLine + 1)).take
                (task.endLine - task.startLine) ++
              [List.replicate (task.level + 1) '*' ++ str " Log", [],
               mkBullet s1 e1, [], mkBullet s2 e2] :=
            seg_spliceInsert_at_end
              [List.replicate (task.level + 1) '*' ++ str " Log", [],
               mkBullet s1 e1, [], mkBullet s2 e2] hend hse
          have hc0 : (((sliceLines t).lines.drop
              (task.startLine + 1)).take
              (task.endLine - task.startLine)).countP
              (subheadingHit task.level logTitle) = 0 := by
            rw [List.countP_eq_zero]
            intro a ha
            rw [hall a ha]
            simp
          rw [hfinal, hseg5, List.countP_append, hc0]
          simp [List.countP_cons, subheadingHit_logHeading, notHit_nil,
            notHit_mkBullet]
      · intro lr hlr
        exact absurd hlr (by simp)
  | some lr =>
      obtain ⟨hlr1, hlr2, hlr3, hlr4, hlr5, hlrhit⟩ :=
        findSubheadingRange_facts hsub
      have hq : lr.stop + 1 ≤ (sliceLines t).lines.length := by omega
      have hout1 := appendTaskLog_eq_existing e1 s1 hfind hsub
      by_cases hcnd : trimWs ((sliceLines t).lines.getD lr.stop []) = []
      · -- bullet inserted without a separator
        rw [if_neg (fun hne => hne hcnd)] at hout1
        have hcleanB : ∀ b ∈ ([mkBullet s1 e1] : List Str),
            CleanLine b := by
          intro b hb
          simp only [List.mem_cons, List.not_mem_nil, or_false] at hb
          rcases hb with rfl
          exact mkBullet_clean s1 e1 hs1
        have hlastB : ∃ b, ([mkBullet s1 e1] : List Str).getLast? =
            some b ∧ b ≠ [] := ⟨mkBullet s1 e1, rfl, mkBullet_ne_nil s1 e1⟩
        have hinertB : ∀ b ∈ ([mkBullet s1 e1] : List Str),
            InertLine b := by
          intro b hb
          simp only [List.mem_cons, List.not_mem_nil, or_false] at hb
          rcases hb with rfl
          exact inert_mkBullet s1 e1
        have hbdB : ∀ lvl ≤ task.level,
            ∀ b ∈ ([mkBullet s1 e1] : List Str),
            isBoundaryFor lvl b = false := by
          intro lvl hlvl b hb
          simp only [List.mem_cons, List.not_mem_nil, or_false] at hb
          rcases hb with rfl
          exact notBoundary_mkBullet lvl s1 e1
        have hbdB1 : ∀ b ∈ ([mkBullet s1 e1] : List Str),
            isBoundaryFor (task.level + 1) b = false := by
          intro b hb
          simp only [List.mem_cons, List.not_mem_nil, or_false] at hb
          rcases hb with rfl
          exact notBoundary_mkBullet _ s1 e1
        have hL1 := sliceLines_spliceInsert t (lr.stop + 1)
          [mkBullet s1 e1] hq hcleanB hlastB htne
        have hfind1 := findTaskById_spliceInsert hfind hq (by omega)
          hinertB hcleanB hlastB hbdB
        rw [if_pos (by omega)] at hfind1
        have hfind1' : findTaskById (joinLines
            ⟨spliceInsert (sliceLines t).lines (lr.stop + 1)
              [mkBullet s1 e1],
             (sliceLines t).eol, (sliceLines t).endsNl⟩) taskId allowed =
            .ok { task with endLine := task.endLine + 1 } := hfind1
        have hsub1 : findSubheadingRange (sliceLines (joinLines
            ⟨spliceInsert (sliceLines t).lines (lr.stop + 1)
              [mkBullet s1 e1],
             (sliceLines t).eol, (sliceLines t).endsNl⟩)).lines
            { task with endLine := task.endLine + 1 } logTitle =
            some ⟨lr.start, lr.stop + 1, task.level + 1⟩ := by
          rw [hL1]
          exact findSub_after_insert hend hse hsub hbdB1
        have hout2 := appendTaskLog_eq_existing e2 s2 hfind1' hsub1
        dsimp only at hout2
        have hbefore : (sliceLines (joinLines
            ⟨spliceInsert (sliceLines t).lines (lr.stop + 1)
              [mkBullet s1 e1],
             (sliceLines t).eol, (sliceLines t).endsNl⟩)).lines.getD
            (lr.stop + 1) [] = mkBullet s1 e1 := by
          rw [hL1]
          exact getD_spliceInsert_inside (k := 0) (by simp) hq
        rw [hbefore, if_pos (trimWs_mkBullet_ne_nil s1 e1)] at hout2
        have hp2 : lr.stop + 1 + 1 ≤ (sliceLines (joinLines
            ⟨spliceInsert (sliceLines t).lines (lr.stop + 1)
              [mkBullet s1 e1],
             (sliceLines t).eol, (sliceLines t).endsNl⟩)).lines.length := by
          rw [hL1, spliceInsert_length _ _ _ hq]
          simp only [List.length_cons, List.length_nil]
          omega
        have hcleanB2 : ∀ b ∈ ([[], mkBullet s2 e2] : List Str),
            CleanLine b := by
          intro b hb
          simp only [List.mem_cons, List.not_mem_nil, or_false] at hb
          rcases hb with rfl | rfl
          · exact ⟨by simp, by simp⟩
          · exact mkBullet_clean s2 e2 hs2
        have hlastB2 : ∃ b, ([[], mkBullet s2 e2] : List Str).getLast? =
            some b ∧ b ≠ [] := ⟨mkBullet s2 e2, rfl, mkBullet_ne_nil s2 e2⟩
        have hL2 := sliceLines_spliceInsert (joinLines
            ⟨spliceInsert (sliceLines t).lines (lr.stop + 1)
              [mkBullet s1 e1],
             (sliceLines t).eol, (sliceLines t).endsNl⟩)
          (lr.stop + 1 + 1) [[], mkBullet s2 e2] hp2 hcleanB2 hlastB2
          (t_ne_nil_of_found hfind1')
        have hfinal : (sliceLines (joinLines
            ⟨spliceInsert (sliceLines (joinLines
                ⟨spliceInsert (sliceLines t).lines (lr.stop + 1)
                  [mkBullet s1 e1],
                 (sliceLines t).eol, (sliceLines t).endsNl⟩)).lines
              (lr.stop + 1 + 1) [[], mkBullet s2 e2],
             (sliceLines (joinLines
                ⟨spliceInsert (sliceLines t).lines (lr.stop + 1)
                  [mkBullet s1 e1],
                 (sliceLines t).eol, (sliceLines t).endsNl⟩)).eol,
             (sliceLines (joinLines
                ⟨spliceInsert (sliceLines t).lines (lr.stop + 1)
                  [mkBullet s1 e1],
                 (sliceLines t).eol, (sliceLines t).endsNl⟩)).endsNl⟩)).lines
            = spliceInsert (sliceLines t).lines (lr.stop + 1)
              ([mkBullet s1 e1] ++ [[], mkBullet s2 e2]) := by
          rw [hL2, hL1]
          rw [show lr.stop + 1 + 1 = lr.stop + 1 +
            ([mkBullet s1 e1] : List Str).length by simp]
          rw [spliceInsert_merge _ _ _ _ hq]
        refine ⟨_, _, hout1, hout2, ?_, ?_⟩
        · intro hnone
          exact absurd hnone (by simp)
        · intro lr' hlr'
          have hlreq : lr' = lr := (Option.some.inj hlr').symm
          rw [hlreq]
          refine ⟨[mkBullet s1 e1],
            by rw [if_neg (fun hne => hne hcnd)], hL1, hfinal,
            ?_, ?_, ?_, ?_⟩
          · rw [hfinal]
            exact getD_spliceInsert_inside (k := 0) (by simp) hq
          · rw [hfinal]
            exact getD_spliceInsert_inside (k := 1) (by simp) hq
          · rw [hfinal]
            exact getD_spliceInsert_inside (k := 2) (by simp) hq
          · have hnewseg : ((spliceInsert (sliceLines t).lines
                (lr.stop + 1)
                ([mkBullet s1 e1] ++ [[], mkBullet s2 e2])).drop
                  (task.startLine + 1)).take
                (task.endLine + 3 - task.startLine) =
                ((sliceLines t).lines.drop (task.startLine + 1)).take
                  (lr.stop + 1 - task.startLine - 1) ++
                ([mkBullet s1 e1] ++ [[], mkBullet s2 e2]) ++
                ((sliceLines t).lines.drop (lr.stop + 1)).take
                  (task.endLine + 1 - (lr.stop + 1)) :=
              seg_spliceInsert_inside
                ([mkBullet s1 e1] ++ [[], mkBullet s2 e2])
                hend (by omega) (by omega)
            have holdseg := seg_split_at
              (show task.startLine < lr.stop + 1 by omega)
              (show lr.stop + 1 ≤ task.endLine + 1 by omega)
              (L := (sliceLines t).lines)
            rw [hfinal]
            rw [show task.endLine +
              ([mkBullet s1 e1] : List Str).length + 2 - task.startLine =
              task.endLine + 3 - task.startLine by simp]
            rw [hnewseg, holdseg]
            simp only [List.countP_append,
              show ([mkBullet s1 e1] : List Str).countP
                  (subheadingHit task.level logTitle) = 0 by
                simp [List.countP_cons, notHit_mkBullet],
              show ([[], mkBullet s2 e2] : List Str).countP
                  (subheadingHit task.level logTitle) = 0 by
                simp [List.countP_cons, notHit_nil, notHit_mkBullet]]
            omega
      · -- blank separator inserted before the bullet
        rw [if_pos hcnd] at hout1
        have hcleanB : ∀ b ∈ ([[], mkBullet s1 e1] : List Str),
            CleanLine b := by
          intro b hb
          simp only [List.mem_cons, List.not_mem_nil, or_false] at hb
          rcases hb with rfl | rfl
          · exact ⟨by simp, by simp⟩
          · exact mkBullet_clean s1 e1 hs1
        have hlastB : ∃ b, ([[], mkBullet s1 e1] : List Str).getLast? =
            some b ∧ b ≠ [] := ⟨mkBullet s1 e1, rfl, mkBullet_ne_nil s1 e1⟩
        have hinertB : ∀ b ∈ ([[], mkBullet s1 e1] : List Str),
            InertLine b := by
          intro b hb
          simp only [List.mem_cons, List.not_mem_nil, or_false] at hb
          rcases hb with rfl | rfl
          · exact inert_nil
          · exact inert_mkBullet s1 e1
        have hbdB : ∀ lvl ≤ task.level,
            ∀ b ∈ ([[], mkBullet s1 e1] : List Str),
            isBoundaryFor lvl b = false := by
          intro lvl hlvl b hb
          simp only [List.mem_cons, List.not_mem_nil, or_false] at hb
          rcases hb with rfl | rfl
          · exact notBoundary_nil lvl
          · exact notBoundary_mkBullet lvl s1 e1
        have hbdB1 : ∀ b ∈ ([[], mkBullet s1 e1] : List Str),
            isBoundaryFor (task.level + 1) b = false := by
          intro b hb
          simp only [List.mem_cons, List.not_mem_nil, or_false] at hb
          rcases hb with rfl | rfl
          · exact notBoundary_nil _
          · exact notBoundary_mkBullet _ s1 e1
        have hL1 := sliceLines_spliceInsert t (lr.stop + 1)
          [[], mkBullet s1 e1] hq hcleanB hlastB htne
        have hfind1 := findTaskById_spliceInsert hfind hq (by omega)
          hinertB hcleanB hlastB hbdB
        rw [if_pos (by omega)] at hfind1
        have hfind1' : findTaskById (joinLines
            ⟨spliceInsert (sliceLines t).lines (lr.stop + 1)
              [[], mkBullet s1 e1],
             (sliceLines t).eol, (sliceLines t).endsNl⟩) taskId allowed =
            .ok { task with endLine := task.endLine + 2 } := hfind1
        have hsub1 : findSubheadingRange (sliceLines (joinLines
            ⟨spliceInsert (sliceLines t).lines (lr.stop + 1)
              [[], mkBullet s1 e1],
             (sliceLines t).eol, (sliceLines t).endsNl⟩)).lines
            { task with endLine := task.endLine + 2 } logTitle =
            some ⟨lr.start, lr.stop + 2, task.level + 1⟩ := by
          rw [hL1]
          exact findSub_after_insert hend hse hsub hbdB1
        have hout2 := appendTaskLog_eq_existing e2 s2 hfind1' hsub1
        dsimp only at hout2
        have hbefore : (sliceLines (joinLines
            ⟨spliceInsert (sliceLines t).lines (lr.stop + 1)
              [[], mkBullet s1 e1],
             (sliceLines t).eol, (sliceLines t).endsNl⟩)).lines.getD
            (lr.stop + 2) [] = mkBullet s1 e1 := by
          rw [hL1]
          exact getD_spliceInsert_inside (k := 1) (by simp) hq
        rw [hbefore, if_pos (trimWs_mkBullet_ne_nil s1 e1)] at hout2
        have hp2 : lr.stop + 2 + 1 ≤ (sliceLines (joinLines
            ⟨spliceInsert (sliceLines t).lines (lr.stop + 1)
              [[], mkBullet s1 e1],
             (sliceLines t).eol, (sliceLines t).endsNl⟩)).lines.length := by
          rw [hL1, spliceInsert_length _ _ _ hq]
          simp only [List.length_cons, List.length_nil]
          omega
        have hcleanB2 : ∀ b ∈ ([[], mkBullet s2 e2] : List Str),
            CleanLine b := by
          intro b hb
          simp only [List.mem_cons, List.not_mem_nil, or_false] at hb
          rcases hb with rfl | rfl
          · exact ⟨by simp, by simp⟩
          · exact mkBullet_clean s2 e2 hs2
        have hlastB2 : ∃ b, ([[], mkBullet s2 e2] : List Str).getLast? =
            some b ∧ b ≠ [] := ⟨mkBullet s2 e2, rfl, mkBullet_ne_nil s2 e2⟩
        have hL2 := sliceLines_spliceInsert (joinLines
            ⟨spliceInsert (sliceLines t).lines (lr.stop + 1)
              [[], mkBullet s1 e1],
             (sliceLines t).eol, (sliceLines t).endsNl⟩)
          (lr.stop + 2 + 1) [[], mkBullet s2 e2] hp2 hcleanB2 hlastB2
          (t_ne_nil_of_found hfind1')
        have hfinal : (sliceLines (joinLines
            ⟨spliceInsert (sliceLines (joinLines
                ⟨spliceInsert (sliceLines t).lines (lr.stop + 1)
                  [[], mkBullet s1 e1],
                 (sliceLines t).eol, (sliceLines t).endsNl⟩)).lines
              (lr.stop + 2 + 1) [[], mkBullet s2 e2],
             (sliceLines (joinLines
                ⟨spliceInsert (sliceLines t).lines (lr.stop + 1)
                  [[], mkBullet s1 e1],
                 (sliceLines t).eol, (sliceLines t).endsNl⟩)).eol,
             (sliceLines (joinLines
                ⟨spliceInsert (sliceLines t).lines (lr.stop + 1)
                  [[], mkBullet s1 e1],
                 (sliceLines t).eol, (sliceLines t).endsNl⟩)).endsNl⟩)).lines
            = spliceInsert (sliceLines t).lines (lr.stop + 1)
              ([[], mkBullet s1 e1] ++ [[], mkBullet s2 e2]) := by
          rw [hL2, hL1]
          rw [show lr.stop + 2 + 1 = lr.stop + 1 +
            ([[], mkBullet s1 e1] : List Str).length by simp]
          rw [spliceInsert_merge _ _ _ _ hq]
        refine ⟨_, _, hout1, hout2, ?_, ?_⟩
        · intro hnone
          exact absurd hnone (by simp)
        · intro lr' hlr'
          have hlreq : lr' = lr := (Option.some.inj hlr').symm
          rw [hlreq]
          refine ⟨[[], mkBullet s1 e1],
            by rw [if_pos hcnd], hL1, hfinal, ?_, ?_, ?_, ?_⟩
          · rw [hfinal]
            exact getD_spliceInsert_inside (k := 1) (by simp) hq
          · rw [hfinal]
            exact getD_spliceInsert_inside (k := 2) (by simp) hq
          · rw [hfinal]
            exact getD_spliceInsert_inside (k := 3) (by simp) hq
          · have hnewseg : ((spliceInsert (sliceLines t).lines
                (lr.stop + 1)
                ([[], mkBullet s1 e1] ++ [[], mkBullet s2 e2])).drop
                  (task.startLine + 1)).take
                (task.endLine + 4 - task.startLine) =
                ((sliceLines t).lines.drop (task.startLine + 1)).take
                  (lr.stop + 1 - task.startLine - 1) ++
                ([[], mkBullet s1 e1] ++ [[], mkBullet s2 e2]) ++
                ((sliceLines t).lines.drop (lr.stop + 1)).take
                  (task.endLine + 1 - (lr.stop + 1)) :=
              seg_spliceInsert_inside
                ([[], mkBullet s1 e1] ++ [[], mkBullet s2 e2])
                hend (by omega) (by omega)
            have holdseg := seg_split_at
              (show task.startLine < lr.stop + 1 by omega)
              (show lr.stop + 1 ≤ task.endLine + 1 by omega)
              (L := (sliceLines t).lines)
            rw [hfinal]
            rw [show task.endLine +
              ([[], mkBullet s1 e1] : List Str).length + 2 -
                task.startLine =
              task.endLine + 4 - task.startLine by simp]
            rw [hnewseg, holdseg]
            simp only [List.countP_append,
              show ([[], mkBullet s1 e1] : List Str).countP
                  (subheadingHit task.level logTitle) = 0 by
                simp [List.countP_cons, notHit_nil, notHit_mkBullet],
              show ([[], mkBullet s2 e2] : List Str).countP
                  (subheadingHit task.level logTitle) = 0 by
                simp [List.countP_cons, notHit_nil, notHit_mkBullet]]
            omega

end OrgMcp

namespace OrgMcp

/-- Witness for C4 on a concrete one-task document without a Log
section: both calls succeed. -/
theorem c4_append_log_twice_witness :
    (CleanLine (str "T1") ∧ CleanLine (str "T2") ∧
      findTaskById (str "* TODO A\n:PROPERTIES:\n:ID: 1\n:END:\n")
        (str "1") DEFAULT_STATES = .ok
          { id := str "1", level := 1, rawHeadingLine := str "* TODO A",
            title := str "A", state := some (str "TODO"),
            properties := [(str "ID", str "1")],
            startLine := 0, endLine := 4 }) ∧
    (∃ out1 out2 : Str,
      appendTaskLog (str "* TODO A\n:PROPERTIES:\n:ID: 1\n:END:\n")
        (str "1") (str "first entry") (str "T1") DEFAULT_STATES =
          .ok out1 ∧
      appendTaskLog out1 (str "1") (str "second entry") (str "T2")
        DEFAULT_STATES = .ok out2) := by
  refine ⟨⟨by decide, by decide, by decide⟩, ?_⟩
  obtain ⟨o1, o2, h1, h2, -, -⟩ := c4_append_log_twice
    (str "* TODO A\n:PROPERTIES:\n:ID: 1\n:END:\n") (str "1")
    (str "first entry") (str "second entry") (str "T1") (str "T2")
    DEFAULT_STATES
    { id := str "1", level := 1, rawHeadingLine := str "* TODO A",
      title := str "A", state := some (str "TODO"),
      properties := [(str "ID", str "1")],
      startLine := 0, endLine := 4 }
    (by decide) (by decide) (by decide)
  exact ⟨o1, o2, h1, h2⟩

end OrgMcp
